import Mathlib

/-!
A pointer-level model of the treap of `treap.go`.

The Go program stores its nodes on the garbage-collected heap and links them with
`parent`, `left` and `right` pointers.  The model keeps the nodes in an arena
(`Heap`): a pointer is an index into the arena, `nil` is `none`, allocation appends a
cell and every field assignment of the source is one `List.set`.  Dereferencing `nil`
(or an index outside the arena) makes an operation return `none`; loops and recursion
carry a fuel counter and return `none` when it runs out.  The entry points (`Insert`,
`Neighbors`, `Min`, `Max`, `Successor`, `Predecessor`) pass one more than the number of
allocated cells as fuel; the theorems below show that on a treap built by `Insert` calls
this is always enough, so that every operation returns.

Priorities are drawn by `rand.Float64()` in the source: values of `[0, 1)`, never NaN,
which the program only ever compares with `<`.  The model takes the drawn priority as
an argument of `Insert` and uses `Nat` for it (any finite set of such floats embeds in
`Nat` keeping the order).
-/

namespace GoTreap

/-- The interface `TreapValue[T]`: `Compare` returns `0` if equal, `< 0` if the other
value is greater and `> 0` if it is lesser; `Merge` mutates the receiver, which is
modelled by returning the receiver's new state. -/
structure TreapValue (T : Type) where
  Compare : T → T → Int
  Merge : T → T → T

/-- The struct `TreapNode[T]`. -/
structure TreapNode (T : Type) where
  Value : T
  priority : Nat
  parent : Option Nat
  left : Option Nat
  right : Option Nat
deriving DecidableEq

/-- The memory holding every node allocated so far; a pointer is an index. -/
abbrev Heap (T : Type) := List (TreapNode T)

/-- The struct `Treap[T]`: the root pointer, together with the memory it points into. -/
structure Treap (T : Type) where
  heap : Heap T
  root : Option Nat
deriving DecidableEq

/-- `NewTreap`: `&Treap[T]{}`. -/
def NewTreap (T : Type) : Treap T := { heap := [], root := none }

/-- `newTreapNode`: value and priority set, the three links nil. -/
def newTreapNode {T : Type} (value : T) (pr : Nat) : TreapNode T :=
  { Value := value, priority := pr, parent := none, left := none, right := none }

/-- Field read `p.f`: fails on a dangling pointer. -/
def load {T : Type} (h : Heap T) (p : Nat) : Option (TreapNode T) := h[p]?

/-- Assignment `p.parent = v`. -/
def setParent {T : Type} (h : Heap T) (p : Nat) (v : Option Nat) : Option (Heap T) :=
  match h[p]? with
  | none => none
  | some nd => some (h.set p { nd with parent := v })

/-- Assignment `p.left = v`. -/
def setLeft {T : Type} (h : Heap T) (p : Nat) (v : Option Nat) : Option (Heap T) :=
  match h[p]? with
  | none => none
  | some nd => some (h.set p { nd with left := v })

/-- Assignment `p.right = v`. -/
def setRight {T : Type} (h : Heap T) (p : Nat) (v : Option Nat) : Option (Heap T) :=
  match h[p]? with
  | none => none
  | some nd => some (h.set p { nd with right := v })

/-- Method `rotateRight` of `treap.go`, one statement per step. -/
def TreapNode.rotateRight {T : Type} (h : Heap T) (n : Nat) : Option (Heap T) := do
  -- rightChild := n.right
  let rightChild := (← load h n).right
  -- n.parent.parent = n
  let p1 ← (← load h n).parent
  let h1 ← setParent h p1 (some n)
  -- n.right = n.parent
  let h2 ← setRight h1 n (← load h1 n).parent
  -- n.parent.left = rightChild
  let p3 ← (← load h2 n).parent
  let h3 ← setLeft h2 p3 rightChild
  -- if rightChild != nil { rightChild.parent = n.parent }
  match rightChild with
  | none => some h3
  | some rc => setParent h3 rc (← load h3 n).parent

/-- Method `rotateLeft` of `treap.go`, one statement per step. -/
def TreapNode.rotateLeft {T : Type} (h : Heap T) (n : Nat) : Option (Heap T) := do
  -- leftChild := n.left
  let leftChild := (← load h n).left
  -- n.parent.parent = n
  let p1 ← (← load h n).parent
  let h1 ← setParent h p1 (some n)
  -- n.left = n.parent
  let h2 ← setLeft h1 n (← load h1 n).parent
  -- n.parent.right = leftChild
  let p3 ← (← load h2 n).parent
  let h3 ← setRight h2 p3 leftChild
  -- if leftChild != nil { leftChild.parent = n.parent }
  match leftChild with
  | none => some h3
  | some lc => setParent h3 lc (← load h3 n).parent

/-- The body of the loop of `heapify` (the guard has been found true, `p` is
`n.parent`). -/
def heapifyBody {T : Type} (h : Heap T) (n p : Nat) : Option (Heap T) := do
  -- parent := n.parent; grandParent := parent.parent
  let grandParent := (← load h p).parent
  -- if n.parent.left == n { n.rotateRight() } else { n.rotateLeft() }
  let p0 ← (← load h n).parent
  let h1 ← if (← load h p0).left = some n then TreapNode.rotateRight h n
           else TreapNode.rotateLeft h n
  -- n.parent = grandParent
  let h2 ← setParent h1 n grandParent
  -- if grandParent != nil { ... }
  match grandParent with
  | none => some h2
  | some g =>
    if (← load h2 g).left = some p then setLeft h2 g (some n) else setRight h2 g (some n)

/-- Method `heapify` of `treap.go`: the loop
`for n.parent != nil && n.parent.priority < n.priority`. -/
def TreapNode.heapify {T : Type} : Nat → Heap T → Nat → Option (Heap T)
  | 0, _, _ => none
  | fuel + 1, h, n => do
    let nn ← load h n
    match nn.parent with
    | none => some h
    | some p =>
      let pn ← load h p
      if pn.priority < nn.priority then
        let h1 ← heapifyBody h n p
        TreapNode.heapify fuel h1 n
      else some h

/-- Method `insert` of `treap.go`.  Returns the memory after the call, the node and
the flag.  `pr` is the priority that `newTreapNode` draws if it is called. -/
def TreapNode.insert {T : Type} (V : TreapValue T) :
    Nat → Heap T → Nat → T → Nat → Option (Heap T × Nat × Bool)
  | 0, _, _, _, _ => none
  | fuel + 1, h, n, value, pr => do
    let nn ← load h n
    let comparison := V.Compare nn.Value value
    if comparison = 0 then
      -- n.Value.Merge(value); return n, false
      some (h.set n { nn with Value := V.Merge nn.Value value }, n, false)
    else
      -- nextNode = &n.left or &n.right
      let next := if comparison > 0 then nn.left else nn.right
      match next with
      | none =>
        -- newNode := newTreapNode(value); newNode.parent = n; *nextNode = newNode
        let newNode := h.length
        let h1 := h ++ [newTreapNode value pr]
        let h2 ← setParent h1 newNode (some n)
        let h3 ← if comparison > 0 then setLeft h2 n (some newNode)
                 else setRight h2 n (some newNode)
        -- newNode.heapify(); return newNode, true
        let h4 ← TreapNode.heapify (h3.length + 1) h3 newNode
        some (h4, newNode, true)
      | some c => TreapNode.insert V fuel h c value pr

/-- Method `Insert` of `treap.go`. -/
def Treap.Insert {T : Type} (V : TreapValue T) (t : Treap T) (value : T) (pr : Nat) :
    Option (Treap T × Nat × Bool) :=
  match t.root with
  | none =>
    -- t.root = newTreapNode(value); return t.root, true
    some ({ heap := t.heap ++ [newTreapNode value pr], root := some t.heap.length },
      t.heap.length, true)
  | some r => do
    let (h1, node, isNewNode) ← TreapNode.insert V (t.heap.length + 1) t.heap r value pr
    -- if node.parent == nil { t.root = node }
    let nd ← load h1 node
    match nd.parent with
    | none => some ({ heap := h1, root := some node }, node, isNewNode)
    | some _ => some ({ heap := h1, root := t.root }, node, isNewNode)

/-- The loop of `Neighbors`. -/
def neighborsLoop {T : Type} (V : TreapValue T) (h : Heap T) (value : T) :
    Nat → Option Nat → Option Nat → Option Nat → Option (Option Nat × Option Nat)
  | 0, _, _, _ => none
  | fuel + 1, current, lastLeftParent, lastRightParent =>
    match current with
    | none => some (lastRightParent, lastLeftParent)
    | some c => do
      let cn ← load h c
      let comparison := V.Compare cn.Value value
      if comparison = 0 then some (some c, some c)
      else if comparison > 0 then neighborsLoop V h value fuel cn.left (some c) lastRightParent
      else neighborsLoop V h value fuel cn.right lastLeftParent (some c)

/-- Method `Neighbors` of `treap.go`: the pair (floor, ceiling). -/
def Treap.Neighbors {T : Type} (V : TreapValue T) (t : Treap T) (value : T) :
    Option (Option Nat × Option Nat) :=
  neighborsLoop V t.heap value (t.heap.length + 1) t.root none none

/-- Method `LeastGTE` of `treap.go`. -/
def Treap.LeastGTE {T : Type} (V : TreapValue T) (t : Treap T) (value : T) :
    Option (Option Nat) :=
  (Treap.Neighbors V t value).map fun res => res.2

/-- Method `GreatestLTE` of `treap.go`. -/
def Treap.GreatestLTE {T : Type} (V : TreapValue T) (t : Treap T) (value : T) :
    Option (Option Nat) :=
  (Treap.Neighbors V t value).map fun res => res.1

/-- The loop `for ; n.left != nil; n = n.left {}`. -/
def leftmost {T : Type} (h : Heap T) : Nat → Nat → Option Nat
  | 0, _ => none
  | fuel + 1, n => do
    match (← load h n).left with
    | none => some n
    | some l => leftmost h fuel l

/-- The loop `for ; n.right != nil; n = n.right {}`. -/
def rightmost {T : Type} (h : Heap T) : Nat → Nat → Option Nat
  | 0, _ => none
  | fuel + 1, n => do
    match (← load h n).right with
    | none => some n
    | some r => rightmost h fuel r

/-- Method `Min` of `treap.go`. -/
def Treap.Min {T : Type} (t : Treap T) : Option (Option Nat) :=
  match t.root with
  | none => some none
  | some r => (leftmost t.heap (t.heap.length + 1) r).map some

/-- Method `Max` of `treap.go`. -/
def Treap.Max {T : Type} (t : Treap T) : Option (Option Nat) :=
  match t.root with
  | none => some none
  | some r => (rightmost t.heap (t.heap.length + 1) r).map some

/-- The upward loop of `Predecessor`:
`for current := n; parent != nil && current == parent.left; current, parent = parent, parent.parent`. -/
def climbLeft {T : Type} (h : Heap T) : Nat → Nat → Option Nat → Option (Option Nat)
  | 0, _, _ => none
  | fuel + 1, current, parent =>
    match parent with
    | none => some none
    | some p => do
      let pn ← load h p
      if pn.left = some current then climbLeft h fuel p pn.parent else some (some p)

/-- The upward loop of `Successor`:
`for current := n; parent != nil && current == parent.right; current, parent = parent, parent.parent`. -/
def climbRight {T : Type} (h : Heap T) : Nat → Nat → Option Nat → Option (Option Nat)
  | 0, _, _ => none
  | fuel + 1, current, parent =>
    match parent with
    | none => some none
    | some p => do
      let pn ← load h p
      if pn.right = some current then climbRight h fuel p pn.parent else some (some p)

/-- Method `Predecessor` of `treap.go`. -/
def TreapNode.Predecessor {T : Type} (h : Heap T) (n : Nat) : Option (Option Nat) := do
  let nn ← load h n
  match nn.left with
  | some current => (rightmost h (h.length + 1) current).map some
  | none => climbLeft h (h.length + 1) n nn.parent

/-- Method `Successor` of `treap.go`. -/
def TreapNode.Successor {T : Type} (h : Heap T) (n : Nat) : Option (Option Nat) := do
  let nn ← load h n
  match nn.right with
  | some current => (leftmost h (h.length + 1) current).map some
  | none => climbRight h (h.length + 1) n nn.parent

/-- The walk `for current != nil { visit current; current = current.Successor() }`: the
nodes visited, in order; it returns once `Successor` has answered nil. -/
def successorWalk {T : Type} (h : Heap T) : Nat → Option Nat → Option (List Nat)
  | 0, _ => none
  | _ + 1, none => some []
  | fuel + 1, some n => do
    let next ← TreapNode.Successor h n
    let rest ← successorWalk h fuel next
    some (n :: rest)

/-- The walk `for current != nil { visit current; current = current.Predecessor() }`. -/
def predecessorWalk {T : Type} (h : Heap T) : Nat → Option Nat → Option (List Nat)
  | 0, _ => none
  | _ + 1, none => some []
  | fuel + 1, some n => do
    let next ← TreapNode.Predecessor h n
    let rest ← predecessorWalk h fuel next
    some (n :: rest)

/-- Run a sequence of `Insert` calls (value and drawn priority), starting from `t`. -/
def insertAll {T : Type} (V : TreapValue T) : Treap T → List (T × Nat) → Option (Treap T)
  | t, [] => some t
  | t, (v, pr) :: rest => do
    let (t1, _, _) ← Treap.Insert V t v pr
    insertAll V t1 rest

/-- Run a sequence of `Insert` calls and keep what each call returned (node and flag). -/
def insertLog {T : Type} (V : TreapValue T) :
    Treap T → List (T × Nat) → Option (Treap T × List (Nat × Bool))
  | t, [] => some (t, [])
  | t, (v, pr) :: rest => do
    let (t1, node, isNewNode) ← Treap.Insert V t v pr
    let (t2, log) ← insertLog V t1 rest
    some (t2, (node, isNewNode) :: log)

/-- The inserted values that compare equal to `k`, in insertion order. -/
def sameKey {T : Type} (V : TreapValue T) (k : T) : List (T × Nat) → List T
  | [] => []
  | (v, _) :: ops => if V.Compare v k = 0 then v :: sameKey V k ops else sameKey V k ops

/-- What the `Insert` calls of the values that compare equal to `k` returned. -/
def keyLog {T : Type} (V : TreapValue T) (k : T) :
    List (T × Nat) → List (Nat × Bool) → List (Nat × Bool)
  | (v, _) :: ops, r :: log =>
    if V.Compare v k = 0 then r :: keyLog V k ops log else keyLog V k ops log
  | _, _ => []

/-- A value type after `val` of `treap_test.go`: an integer key with a counter.  `Compare` is
`v.i - other.i` and `Merge` adds the other counter to the receiver's (a value that was
never merged carries the counter `1`). -/
def valOps : TreapValue (Int × Nat) where
  Compare := fun a b => a.1 - b.1
  Merge := fun a b => (a.1, a.2 + b.2)

/-! ## The tree a memory represents -/

/-- A binary tree of node addresses with the value and priority stored at each. -/
inductive Tree (T : Type) where
  | nil : Tree T
  | node (id : Nat) (l : Tree T) (v : T) (p : Nat) (r : Tree T) : Tree T

/-- The pointer to a tree: nil for the empty tree, else the address of its top node. -/
def Tree.rootPtr {T : Type} : Tree T → Option Nat
  | .nil => none
  | .node i _ _ _ _ => some i

/-- Addresses in in-order. -/
def Tree.ids {T : Type} : Tree T → List Nat
  | .nil => []
  | .node i l _ _ r => l.ids ++ i :: r.ids

/-- Values in in-order. -/
def Tree.vals {T : Type} : Tree T → List T
  | .nil => []
  | .node _ l v _ r => l.vals ++ v :: r.vals

/-- Address/value pairs in in-order. -/
def Tree.entries {T : Type} : Tree T → List (Nat × T)
  | .nil => []
  | .node i l v _ r => l.entries ++ (i, v) :: r.entries

/-- Priority at the top of a tree, if any. -/
def Tree.rootPriority {T : Type} : Tree T → Option Nat
  | .nil => none
  | .node _ _ _ p _ => some p

/-- The memory `h` holds the tree `t` below a parent pointer `par`: each node's cell has
exactly the value, priority, parent, left and right pointers the tree prescribes. -/
def Repr {T : Type} (h : Heap T) : Option Nat → Tree T → Prop
  | _, .nil => True
  | par, .node i l v p r =>
    h[i]? = some { Value := v, priority := p, parent := par, left := l.rootPtr, right := r.rootPtr }
      ∧ Repr h (some i) l ∧ Repr h (some i) r

/-- The treap `t` (memory and root pointer) holds exactly the tree `tr`: the root pointer
points to its top, links are as in `tr`, and every allocated cell is a node of `tr`,
once. -/
def Treap.Holds {T : Type} (t : Treap T) (tr : Tree T) : Prop :=
  t.root = tr.rootPtr ∧ Repr t.heap none tr ∧ tr.ids.Nodup ∧ ∀ i, i ∈ tr.ids ↔ i < t.heap.length

/-- BST property: everything on the left compares less than the node's value, everything
on the right greater, at every node. -/
def Tree.IsBST {T : Type} (V : TreapValue T) : Tree T → Prop
  | .nil => True
  | .node _ l v _ r =>
    (∀ w ∈ l.vals, V.Compare w v < 0) ∧ (∀ w ∈ r.vals, V.Compare w v > 0) ∧ l.IsBST V ∧ r.IsBST V

/-- Heap property: no child has a priority above its parent's. -/
def Tree.IsHeap {T : Type} : Tree T → Prop
  | .nil => True
  | .node _ l _ p r =>
    (∀ q ∈ l.rootPriority, q ≤ p) ∧ (∀ q ∈ r.rootPriority, q ≤ p) ∧ l.IsHeap ∧ r.IsHeap

/-- Side of a parent on which a subtree hangs. -/
inductive Dir where
  | L : Dir
  | R : Dir
deriving DecidableEq

/-- One ancestor on the path from a position to the root: the ancestor's own data,
the side on which the path continues, and the subtree on the other side. -/
structure Frame (T : Type) where
  id : Nat
  v : T
  p : Nat
  dir : Dir
  sib : Tree T

/-- The tree with top `f` and `t` hanging on the path's side. -/
def Frame.fill {T : Type} (f : Frame T) (t : Tree T) : Tree T :=
  match f.dir with
  | .L => .node f.id t f.v f.p f.sib
  | .R => .node f.id f.sib f.v f.p t

/-- The memory cell of an ancestor, given the pointer below and its parent pointer. -/
def Frame.cell {T : Type} (f : Frame T) (hole par : Option Nat) : TreapNode T :=
  match f.dir with
  | .L => { Value := f.v, priority := f.p, parent := par, left := hole, right := f.sib.rootPtr }
  | .R => { Value := f.v, priority := f.p, parent := par, left := f.sib.rootPtr, right := hole }

/-- Rebuild the whole tree from a path (innermost ancestor first) and a subtree. -/
def plug {T : Type} : List (Frame T) → Tree T → Tree T
  | [], t => t
  | f :: c, t => plug c (f.fill t)

/-- Parent pointer of the position a path leads to. -/
def ctxParent {T : Type} (c : List (Frame T)) : Option Nat := c.head?.map fun f => f.id

/-- The pointer to the top of a whole tree, seen from a path. -/
def ctxTop {T : Type} : List (Frame T) → Option Nat → Option Nat
  | [], d => d
  | f :: c, _ => ctxTop c (some f.id)

/-- Addresses on a path: the ancestors and everything in the subtrees beside it. -/
def ctxIds {T : Type} : List (Frame T) → List Nat
  | [] => []
  | f :: c => f.id :: f.sib.ids ++ ctxIds c

/-- The memory holds the path `c` above a position whose pointer is `hole`. -/
def ReprCtx {T : Type} (h : Heap T) : List (Frame T) → Option Nat → Prop
  | [], _ => True
  | f :: c, hole =>
    h[f.id]? = some (f.cell hole (ctxParent c)) ∧ Repr h (some f.id) f.sib
      ∧ ReprCtx h c (some f.id)

/-- In-order values before the position a path leads to. -/
def ctxBefore {T : Type} : List (Frame T) → List T
  | [] => []
  | f :: c =>
    match f.dir with
    | .L => ctxBefore c
    | .R => ctxBefore c ++ f.sib.vals ++ [f.v]

/-- In-order values after the position a path leads to. -/
def ctxAfter {T : Type} : List (Frame T) → List T
  | [] => []
  | f :: c =>
    match f.dir with
    | .L => f.v :: f.sib.vals ++ ctxAfter c
    | .R => ctxAfter c

/-- In-order addresses before the position a path leads to. -/
def ctxBeforeIds {T : Type} : List (Frame T) → List Nat
  | [] => []
  | f :: c =>
    match f.dir with
    | .L => ctxBeforeIds c
    | .R => ctxBeforeIds c ++ f.sib.ids ++ [f.id]

/-- In-order addresses after the position a path leads to. -/
def ctxAfterIds {T : Type} : List (Frame T) → List Nat
  | [] => []
  | f :: c =>
    match f.dir with
    | .L => f.id :: f.sib.ids ++ ctxAfterIds c
    | .R => ctxAfterIds c

/-- The loop of `heapify` on trees: the node `n` (with subtrees `l`, `r`) is rotated above
its parent while the parent's priority is strictly smaller (`rotateRight` when `n` hangs
on the left, `rotateLeft` when on the right). -/
def bubble {T : Type} : List (Frame T) → Nat → Tree T → T → Nat → Tree T → Tree T
  | [], n, l, x, px, r => .node n l x px r
  | f :: c, n, l, x, px, r =>
    if f.p < px then
      match f.dir with
      | .L => bubble c n l x px (.node f.id r f.v f.p f.sib)
      | .R => bubble c n (.node f.id f.sib f.v f.p l) x px r
    else plug (f :: c) (.node n l x px r)

/-- The descent of `insert`: follow `Compare` from the top of a tree until an equal value
or an absent child is met; returns the path walked and the subtree reached. -/
def descend {T : Type} (V : TreapValue T) (x : T) : Tree T → List (Frame T) → List (Frame T) × Tree T
  | .nil, c => (c, .nil)
  | .node i l v p r, c =>
    if V.Compare v x = 0 then (c, .node i l v p r)
    else if V.Compare v x > 0 then descend V x l ({ id := i, v := v, p := p, dir := .L, sib := r } :: c)
    else descend V x r ({ id := i, v := v, p := p, dir := .R, sib := l } :: c)

/-- What `Insert` does to the tree: merge into the node found, or hang a new leaf with
address `newId` where the descent ended and rotate it upward. -/
def Tree.insert {T : Type} (V : TreapValue T) (tr : Tree T) (x : T) (pr newId : Nat) : Tree T :=
  match descend V x tr [] with
  | (c, .nil) => bubble c newId .nil x pr .nil
  | (c, .node i l v p r) => plug c (.node i l (V.Merge v x) p r)

/-- The node `Insert` returns and its flag. -/
def Tree.insertResult {T : Type} (V : TreapValue T) (tr : Tree T) (x : T) (newId : Nat) : Nat × Bool :=
  match descend V x tr [] with
  | (_, .nil) => (newId, true)
  | (_, .node i _ _ _ _) => (i, false)

/-- The tree after a sequence of `Insert` calls: each new node gets the next free address. -/
def Tree.insertAll {T : Type} (V : TreapValue T) : Tree T → List (T × Nat) → Tree T
  | tr, [] => tr
  | tr, (v, pr) :: rest => Tree.insertAll V (Tree.insert V tr v pr tr.ids.length) rest

/-- One ancestor in a tree obeying the heap property. -/
def HeapCtx {T : Type} : List (Frame T) → Prop
  | [] => True
  | f :: c =>
    f.sib.IsHeap ∧ (∀ q ∈ f.sib.rootPriority, q ≤ f.p) ∧ (∀ g ∈ c.head?, f.p ≤ g.p) ∧ HeapCtx c

/-- `Compare` is a total order up to equivalence: swapping the arguments swaps the sign, and
"less than or equal" is transitive. -/
def TotalOrder {T : Type} (V : TreapValue T) : Prop :=
  (∀ a b, V.Compare a b < 0 ↔ 0 < V.Compare b a) ∧
  (∀ a b c, V.Compare a b ≤ 0 → V.Compare b c ≤ 0 → V.Compare a c ≤ 0)

/-- `Merge` leaves the receiver in its equivalence class of `Compare`. -/
def MergeKeepsKey {T : Type} (V : TreapValue T) : Prop :=
  ∀ a b, V.Compare a b = 0 → V.Compare (V.Merge a b) a = 0

/-- A value type on which `Compare` is the usual order of the integers but `Merge` moves
the receiver to another key (it adds `2`). -/
def shiftOps : TreapValue Int where
  Compare := fun a b => a - b
  Merge := fun a _ => a + 2

/-! ## Observations on a memory -/

/-- The value and priority stored at a pointer (nothing at nil). -/
def keyAt {T : Type} (h : Heap T) (p : Option Nat) : Option (T × Nat) :=
  p.bind fun i => (h[i]?).map fun nd => (nd.Value, nd.priority)

/-- A node seen without its address: the value and priority of the node itself, of its
parent, of its left child and of its right child. -/
def nodeView {T : Type} (h : Heap T) (i : Nat) :
    Option ((T × Nat) × Option (T × Nat) × Option (T × Nat) × Option (T × Nat)) :=
  (h[i]?).map fun nd =>
    ((nd.Value, nd.priority), keyAt h nd.parent, keyAt h nd.left, keyAt h nd.right)

/-- In-order traversal along the `left` and `right` links, starting at a pointer: the
addresses met, in order. -/
def inorder {T : Type} (h : Heap T) : Nat → Option Nat → Option (List Nat)
  | 0, _ => none
  | _ + 1, none => some []
  | fuel + 1, some i => do
    let nd ← load h i
    let l ← inorder h fuel nd.left
    let r ← inorder h fuel nd.right
    some (l ++ i :: r)

/-- The search of `insert` alone (lines 153 to 166 and 175 of `treap.go`, without the
assignments): the node at which the recursion stops, with `none` when the value compared
equal there, and otherwise whether the nil slot `nextNode` is its `left` one. -/
def insertPoint {T : Type} (V : TreapValue T) :
    Nat → Heap T → Nat → T → Option (Nat × Option Bool)
  | 0, _, _, _ => none
  | fuel + 1, h, n, value => do
    let nn ← load h n
    let comparison := V.Compare nn.Value value
    if comparison = 0 then some (n, none)
    else
      let next := if comparison > 0 then nn.left else nn.right
      match next with
      | none => some (n, some (decide (comparison > 0)))
      | some c => insertPoint V fuel h c value

/-- Value and priority at the top of a tree. -/
def Tree.rootKey {T : Type} : Tree T → Option (T × Nat)
  | .nil => none
  | .node _ _ v p _ => some (v, p)

/-- Values with their priorities, in in-order. -/
def Tree.pairs {T : Type} : Tree T → List (T × Nat)
  | .nil => []
  | .node _ l v p r => l.pairs ++ (v, p) :: r.pairs

/-- The views (see `nodeView`) of the nodes of a tree hanging below a node with value and
priority `par`, in in-order. -/
def Tree.views {T : Type} (par : Option (T × Nat)) :
    Tree T → List ((T × Nat) × Option (T × Nat) × Option (T × Nat) × Option (T × Nat))
  | .nil => []
  | .node _ l v p r =>
    Tree.views (some (v, p)) l ++ ((v, p), par, l.rootKey, r.rootKey) ::
      Tree.views (some (v, p)) r

/-- A comparison that is no order at all: every value is "greater" than every other, itself
included. -/
def oneOps : TreapValue Int where
  Compare := fun _ _ => 1
  Merge := fun a _ => a

/-- A treap in the middle of an `Insert`: the value `(2, 1)` with priority `7` has just been
attached as the left child of the root, which holds `(5, 1)` with priority `3`, and
`heapify` has not run yet. -/
def attachedTreap : Treap (Int × Nat) :=
  { heap := [⟨(5, 1), 3, none, some 1, none⟩, ⟨(2, 1), 7, some 0, none, none⟩], root := some 0 }

/-- The tree that `attachedTreap` holds. -/
def attachedTree : Tree (Int × Nat) :=
  .node 0 (.node 1 .nil (2, 1) 7 .nil) (5, 1) 3 .nil

/-! ## Lemmas -/

variable {T : Type}

theorem lt_of_get {h : Heap T} {p : Nat} {nd : TreapNode T} (hp : h[p]? = some nd) :
    p < h.length := by
  by_contra hc
  rw [List.getElem?_eq_none (by omega)] at hp
  cases hp

theorem heapifyBody_left (h : Heap T) (n p : Nat) (x : T) (px : Nat) (vp : T) (pp : Nat)
    (g lp rp sp : Option Nat)
    (hn : h[n]? = some ⟨x, px, some p, lp, rp⟩)
    (hp : h[p]? = some ⟨vp, pp, g, some n, sp⟩)
    (hnp : n ≠ p) (hrn : rp ≠ some n) (hrp : rp ≠ some p) (hgn : g ≠ some n) (hgp : g ≠ some p)
    (hgr : g = none ∨ g ≠ rp)
    (hrv : ∀ rc, rp = some rc → ∃ nd, h[rc]? = some nd)
    (hgv : ∀ gi, g = some gi → ∃ nd, h[gi]? = some nd) :
    ∃ h2, heapifyBody h n p = some h2 ∧ h2.length = h.length ∧
      h2[n]? = some ⟨x, px, g, lp, some p⟩ ∧ h2[p]? = some ⟨vp, pp, some n, rp, sp⟩ ∧
      (∀ rc, rp = some rc → h2[rc]? = (h[rc]?).map fun nd => { nd with parent := some p }) ∧
      (∀ gi, g = some gi → h2[gi]? = (h[gi]?).map fun nd =>
        if nd.left = some p then { nd with left := some n } else { nd with right := some n }) ∧
      (∀ i, i ≠ n → i ≠ p → rp ≠ some i → g ≠ some i → h2[i]? = h[i]?) := by
  have hpn : p ≠ n := fun e => hnp e.symm
  have hnl := lt_of_get hn
  have hpl := lt_of_get hp
  rcases rp with _ | rc <;> rcases g with _ | gi
  · simp [heapifyBody, TreapNode.rotateRight, load, setParent, setLeft, setRight, hn, hp,
      List.getElem?_set, hnp, hpn, hnl, hpl, -List.getElem?_eq_getElem]
    intro i h1 h2
    simp [Ne.symm h1, Ne.symm h2]
  · obtain ⟨gn, hg⟩ := hgv gi rfl
    have hgl := lt_of_get hg
    have h1 : gi ≠ n := fun e => hgn (by rw [e])
    have h2 : gi ≠ p := fun e => hgp (by rw [e])
    simp [heapifyBody, TreapNode.rotateRight, load, setParent, setLeft, setRight, hn, hp,
      List.getElem?_set, hnp, hpn, hnl, hpl, hg, hgl, h1, h2, Ne.symm h1, Ne.symm h2,
      -List.getElem?_eq_getElem]
    by_cases hc : gn.left = some p <;>
      simp [hc, List.getElem?_set, hnp, hpn, hnl, hpl, hg, hgl, h1, h2, Ne.symm h1, Ne.symm h2,
        -List.getElem?_eq_getElem] <;>
      · intro i e1 e2 e3
        simp [Ne.symm e1, Ne.symm e2, e3]
  · obtain ⟨rn, hr⟩ := hrv rc rfl
    have hrl := lt_of_get hr
    have h1 : rc ≠ n := fun e => hrn (by rw [e])
    have h2 : rc ≠ p := fun e => hrp (by rw [e])
    simp [heapifyBody, TreapNode.rotateRight, load, setParent, setLeft, setRight, hn, hp,
      List.getElem?_set, hnp, hpn, hnl, hpl, hr, hrl, h1, h2, Ne.symm h1, Ne.symm h2,
      -List.getElem?_eq_getElem]
    intro i e1 e2 e3
    simp [Ne.symm e1, Ne.symm e2, e3]
  · obtain ⟨rn, hr⟩ := hrv rc rfl
    have hrl := lt_of_get hr
    have h1 : rc ≠ n := fun e => hrn (by rw [e])
    have h2 : rc ≠ p := fun e => hrp (by rw [e])
    obtain ⟨gn, hg⟩ := hgv gi rfl
    have hgl := lt_of_get hg
    have h3 : gi ≠ n := fun e => hgn (by rw [e])
    have h4 : gi ≠ p := fun e => hgp (by rw [e])
    have h5 : gi ≠ rc := by
      rcases hgr with h | h
      · cases h
      · exact fun e => h (by rw [e])
    simp [heapifyBody, TreapNode.rotateRight, load, setParent, setLeft, setRight, hn, hp,
      List.getElem?_set, hnp, hpn, hnl, hpl, hr, hrl, h1, h2, Ne.symm h1, Ne.symm h2,
      hg, hgl, h3, h4, h5, Ne.symm h3, Ne.symm h4, Ne.symm h5,
      -List.getElem?_eq_getElem]
    by_cases hc : gn.left = some p <;>
      simp [hc, List.getElem?_set, hnp, hpn, hnl, hpl, hg, hgl, h1, h2, Ne.symm h1, Ne.symm h2,
        hr, hrl, h3, h4, h5, Ne.symm h3, Ne.symm h4, Ne.symm h5,
        -List.getElem?_eq_getElem] <;>
      · intro i e1 e2 e3 e4
        simp [Ne.symm e1, Ne.symm e2, e3, e4]

theorem heapifyBody_right (h : Heap T) (n p : Nat) (x : T) (px : Nat) (vp : T) (pp : Nat)
    (g lp rp sp : Option Nat)
    (hn : h[n]? = some ⟨x, px, some p, lp, rp⟩)
    (hp : h[p]? = some ⟨vp, pp, g, sp, some n⟩) (hsn : sp ≠ some n)
    (hnp : n ≠ p) (hrn : lp ≠ some n) (hrp : lp ≠ some p) (hgn : g ≠ some n) (hgp : g ≠ some p)
    (hgr : g = none ∨ g ≠ lp)
    (hrv : ∀ rc, lp = some rc → ∃ nd, h[rc]? = some nd)
    (hgv : ∀ gi, g = some gi → ∃ nd, h[gi]? = some nd) :
    ∃ h2, heapifyBody h n p = some h2 ∧ h2.length = h.length ∧
      h2[n]? = some ⟨x, px, g, some p, rp⟩ ∧ h2[p]? = some ⟨vp, pp, some n, sp, lp⟩ ∧
      (∀ rc, lp = some rc → h2[rc]? = (h[rc]?).map fun nd => { nd with parent := some p }) ∧
      (∀ gi, g = some gi → h2[gi]? = (h[gi]?).map fun nd =>
        if nd.left = some p then { nd with left := some n } else { nd with right := some n }) ∧
      (∀ i, i ≠ n → i ≠ p → lp ≠ some i → g ≠ some i → h2[i]? = h[i]?) := by
  have hpn : p ≠ n := fun e => hnp e.symm
  have hnl := lt_of_get hn
  have hpl := lt_of_get hp
  rcases lp with _ | rc <;> rcases g with _ | gi
  · simp [heapifyBody, TreapNode.rotateLeft, load, setParent, setLeft, setRight, hn, hp,
      List.getElem?_set, hnp, hpn, hnl, hpl, hsn, -List.getElem?_eq_getElem]
    intro i h1 h2
    simp [Ne.symm h1, Ne.symm h2]
  · obtain ⟨gn, hg⟩ := hgv gi rfl
    have hgl := lt_of_get hg
    have h1 : gi ≠ n := fun e => hgn (by rw [e])
    have h2 : gi ≠ p := fun e => hgp (by rw [e])
    simp [heapifyBody, TreapNode.rotateLeft, load, setParent, setLeft, setRight, hn, hp,
      List.getElem?_set, hnp, hpn, hnl, hpl, hsn, hg, hgl, h1, h2, Ne.symm h1, Ne.symm h2,
      -List.getElem?_eq_getElem]
    by_cases hc : gn.left = some p <;>
      simp [hc, List.getElem?_set, hnp, hpn, hnl, hpl, hsn, hg, hgl, h1, h2, Ne.symm h1, Ne.symm h2,
        -List.getElem?_eq_getElem] <;>
      · intro i e1 e2 e3
        simp [Ne.symm e1, Ne.symm e2, e3]
  · obtain ⟨rn, hr⟩ := hrv rc rfl
    have hrl := lt_of_get hr
    have h1 : rc ≠ n := fun e => hrn (by rw [e])
    have h2 : rc ≠ p := fun e => hrp (by rw [e])
    simp [heapifyBody, TreapNode.rotateLeft, load, setParent, setLeft, setRight, hn, hp,
      List.getElem?_set, hnp, hpn, hnl, hpl, hsn, hr, hrl, h1, h2, Ne.symm h1, Ne.symm h2,
      -List.getElem?_eq_getElem]
    intro i e1 e2 e3
    simp [Ne.symm e1, Ne.symm e2, e3]
  · obtain ⟨rn, hr⟩ := hrv rc rfl
    have hrl := lt_of_get hr
    have h1 : rc ≠ n := fun e => hrn (by rw [e])
    have h2 : rc ≠ p := fun e => hrp (by rw [e])
    obtain ⟨gn, hg⟩ := hgv gi rfl
    have hgl := lt_of_get hg
    have h3 : gi ≠ n := fun e => hgn (by rw [e])
    have h4 : gi ≠ p := fun e => hgp (by rw [e])
    have h5 : gi ≠ rc := by
      rcases hgr with h | h
      · cases h
      · exact fun e => h (by rw [e])
    simp [heapifyBody, TreapNode.rotateLeft, load, setParent, setLeft, setRight, hn, hp,
      List.getElem?_set, hnp, hpn, hnl, hpl, hsn, hr, hrl, h1, h2, Ne.symm h1, Ne.symm h2,
      hg, hgl, h3, h4, h5, Ne.symm h3, Ne.symm h4, Ne.symm h5,
      -List.getElem?_eq_getElem]
    by_cases hc : gn.left = some p <;>
      simp [hc, List.getElem?_set, hnp, hpn, hnl, hpl, hsn, hg, hgl, h1, h2, Ne.symm h1, Ne.symm h2,
        hr, hrl, h3, h4, h5, Ne.symm h3, Ne.symm h4, Ne.symm h5,
        -List.getElem?_eq_getElem] <;>
      · intro i e1 e2 e3 e4
        simp [Ne.symm e1, Ne.symm e2, e3, e4]

theorem rootPtr_mem_ids {t : Tree T} {i : Nat} (h : t.rootPtr = some i) : i ∈ t.ids := by
  cases t with
  | nil => cases h
  | node j l v p r =>
    simp only [Tree.rootPtr, Option.some.injEq] at h
    subst h
    simp [Tree.ids]

theorem Repr_congr {h h2 : Heap T} {t : Tree T} {par : Option Nat}
    (hc : ∀ i ∈ t.ids, h2[i]? = h[i]?) (hr : Repr h par t) : Repr h2 par t := by
  induction t generalizing par with
  | nil => trivial
  | node j l v p r ihl ihr =>
    obtain ⟨h1, hl, hrr⟩ := hr
    refine ⟨?_, ihl ?_ hl, ihr ?_ hrr⟩
    · rw [hc j (by simp [Tree.ids])]; exact h1
    · intro i hi; exact hc i (by simp [Tree.ids, hi])
    · intro i hi; exact hc i (by simp [Tree.ids, hi])

theorem Repr_lt {h : Heap T} {t : Tree T} {par : Option Nat} (hr : Repr h par t) :
    ∀ i ∈ t.ids, i < h.length := by
  induction t generalizing par with
  | nil => intro i hi; simp [Tree.ids] at hi
  | node j l v p r ihl ihr =>
    obtain ⟨h1, hl, hrr⟩ := hr
    intro i hi
    simp only [Tree.ids, List.mem_append, List.mem_cons] at hi
    rcases hi with hi | hi | hi
    · exact ihl hl i hi
    · subst hi; exact lt_of_get h1
    · exact ihr hrr i hi

/-- Changing only the parent field of the top cell moves a tree under another parent. -/
theorem Repr_reparent {h h2 : Heap T} {t : Tree T} {par par2 : Option Nat}
    (hroot : ∀ i, t.rootPtr = some i →
      h2[i]? = (h[i]?).map fun nd => { nd with parent := par2 })
    (hc : ∀ i ∈ t.ids, t.rootPtr ≠ some i → h2[i]? = h[i]?)
    (hnd : t.ids.Nodup) (hr : Repr h par t) : Repr h2 par2 t := by
  cases t with
  | nil => trivial
  | node j l v p r =>
    obtain ⟨h1, hl, hrr⟩ := hr
    simp only [Tree.ids] at hnd
    have hjl : j ∉ l.ids := by
      intro hj
      have := List.nodup_append.1 hnd
      exact this.2.2 hj (by simp)
    have hjr : j ∉ r.ids := by
      have := (List.nodup_append.1 hnd).2.1
      exact (List.nodup_cons.1 this).1
    refine ⟨?_, Repr_congr ?_ hl, Repr_congr ?_ hrr⟩
    · rw [hroot j rfl, h1]; rfl
    · intro i hi
      refine hc i (by simp [Tree.ids, hi]) ?_
      simp only [Tree.rootPtr, ne_eq, Option.some.injEq]
      intro e; subst e; exact hjl hi
    · intro i hi
      refine hc i (by simp [Tree.ids, hi]) ?_
      simp only [Tree.rootPtr, ne_eq, Option.some.injEq]
      intro e; subst e; exact hjr hi

theorem ReprCtx_congr {h h2 : Heap T} {c : List (Frame T)} {hole : Option Nat}
    (hc : ∀ i ∈ ctxIds c, h2[i]? = h[i]?) (hr : ReprCtx h c hole) : ReprCtx h2 c hole := by
  induction c generalizing hole with
  | nil => trivial
  | cons f c ih =>
    obtain ⟨h1, hs, hrest⟩ := hr
    refine ⟨?_, Repr_congr ?_ hs, ih ?_ hrest⟩
    · rw [hc f.id (by simp [ctxIds])]; exact h1
    · intro i hi; exact hc i (by simp [ctxIds, hi])
    · intro i hi; exact hc i (by simp [ctxIds, hi])

theorem rootPtr_fill (f : Frame T) (t : Tree T) : (f.fill t).rootPtr = some f.id := by
  unfold Frame.fill; cases f.dir <;> rfl

theorem rootPtr_plug (c : List (Frame T)) (t : Tree T) :
    (plug c t).rootPtr = ctxTop c t.rootPtr := by
  induction c generalizing t with
  | nil => rfl
  | cons f c ih => simp [plug, ctxTop, ih, rootPtr_fill]

theorem Repr_fill {h : Heap T} {f : Frame T} {t : Tree T} {par : Option Nat} :
    Repr h par (f.fill t) ↔
      h[f.id]? = some (f.cell t.rootPtr par) ∧ Repr h (some f.id) f.sib ∧ Repr h (some f.id) t := by
  unfold Frame.fill Frame.cell
  cases f.dir
  · simp only [Repr]; tauto
  · simp only [Repr]

/-- A memory holds a plugged tree exactly when it holds the path and the subtree. -/
theorem Repr_plug {h : Heap T} {c : List (Frame T)} {t : Tree T} :
    Repr h none (plug c t) ↔ ReprCtx h c t.rootPtr ∧ Repr h (ctxParent c) t := by
  induction c generalizing t with
  | nil => simp [plug, ReprCtx, ctxParent]
  | cons f c ih =>
    simp only [plug, ih, Repr_fill, ReprCtx, rootPtr_fill, ctxParent, List.head?_cons, Option.map_some']
    tauto

theorem ids_fill (f : Frame T) (t : Tree T) :
    List.Perm (f.fill t).ids (t.ids ++ (f.id :: f.sib.ids)) := by
  unfold Frame.fill
  cases f.dir
  · simp [Tree.ids]
  · simp only [Tree.ids]
    rw [List.perm_iff_count]
    intro a
    simp [List.count_append, List.count_cons]
    omega

theorem ids_plug (c : List (Frame T)) (t : Tree T) :
    List.Perm (plug c t).ids (t.ids ++ ctxIds c) := by
  induction c generalizing t with
  | nil => simp [plug, ctxIds]
  | cons f c ih =>
    simp only [plug, ctxIds]
    refine (ih _).trans ?_
    refine ((ids_fill f t).append_right _).trans ?_
    simp

theorem get_of_lt {h : Heap T} {i : Nat} (hi : i < h.length) : ∃ nd, h[i]? = some nd :=
  ⟨h[i], List.getElem?_eq_getElem hi⟩

theorem ctxParent_mem {c : List (Frame T)} {i : Nat} (h : ctxParent c = some i) : i ∈ ctxIds c := by
  cases c with
  | nil => cases h
  | cons f c =>
    simp only [ctxParent, List.head?_cons, Option.map_some', Option.some.injEq] at h
    subst h; simp [ctxIds]

theorem ReprCtx_lt {h : Heap T} {c : List (Frame T)} {hole : Option Nat} (hr : ReprCtx h c hole) :
    ∀ i ∈ ctxIds c, i < h.length := by
  induction c generalizing hole with
  | nil => intro i hi; simp [ctxIds] at hi
  | cons f c ih =>
    obtain ⟨h1, hs, hrest⟩ := hr
    intro i hi
    simp only [ctxIds, List.mem_cons, List.mem_append] at hi
    rcases hi with (hi | hi) | hi
    · rw [hi]; exact lt_of_get h1
    · exact Repr_lt hs i hi
    · exact ih hrest i hi

theorem nodup_facts {A B S C : List Nat} {n p : Nat}
    (hnd : ((A ++ n :: B) ++ (p :: S ++ C)).Nodup) :
    n ≠ p ∧ n ∉ A ∧ n ∉ B ∧ n ∉ S ∧ n ∉ C ∧ p ∉ A ∧ p ∉ B ∧ p ∉ S ∧ p ∉ C ∧
      (∀ a ∈ A, a ∉ B ∧ a ∉ S ∧ a ∉ C) ∧ (∀ a ∈ B, a ∉ S ∧ a ∉ C) ∧ (∀ a ∈ S, a ∉ C) ∧
      A.Nodup ∧ B.Nodup ∧ S.Nodup ∧ C.Nodup := by
  simp only [List.nodup_append, List.nodup_cons, List.mem_append, List.mem_cons,
    List.Disjoint] at hnd
  obtain ⟨⟨ndA, ⟨nB, ndB⟩, dA⟩, ⟨⟨pS, ndS⟩, ndC, dS⟩, dall⟩ := hnd
  refine ⟨?_, ?_, nB, ?_, ?_, ?_, ?_, pS, ?_, ?_, ?_, ?_, ndA, ndB, ndS, ndC⟩
  · intro e; exact dall (Or.inr (Or.inl rfl)) (Or.inl (Or.inl e))
  · intro hn; exact dA hn (Or.inl rfl)
  · intro hn; exact dall (Or.inr (Or.inl rfl)) (Or.inl (Or.inr hn))
  · intro hn; exact dall (Or.inr (Or.inl rfl)) (Or.inr hn)
  · intro hp; exact dall (Or.inl hp) (Or.inl (Or.inl rfl))
  · intro hp; exact dall (Or.inr (Or.inr hp)) (Or.inl (Or.inl rfl))
  · intro hp; exact dS (Or.inl rfl) hp
  · intro a ha
    exact ⟨fun hb => dA ha (Or.inr hb), fun hb => dall (Or.inl ha) (Or.inl (Or.inr hb)),
      fun hb => dall (Or.inl ha) (Or.inr hb)⟩
  · intro a ha
    exact ⟨fun hb => dall (Or.inr (Or.inr ha)) (Or.inl (Or.inr hb)),
      fun hb => dall (Or.inr (Or.inr ha)) (Or.inr hb)⟩
  · intro a ha hb
    exact dS (Or.inr ha) hb

/-- After the body of `heapify` has run, the path above is held with the rotated node
below it, provided every cell of the path other than the grandparent is unchanged and the
grandparent's slot was re-linked. -/
theorem ReprCtx_relink {h h2 : Heap T} {c : List (Frame T)} {n p : Nat}
    (hrest : ReprCtx h c (some p)) (hndc : (ctxIds c).Nodup) (hpc : p ∉ ctxIds c)
    (h2g : ∀ gi, ctxParent c = some gi → h2[gi]? = (h[gi]?).map fun nd =>
        if nd.left = some p then { nd with left := some n } else { nd with right := some n })
    (h2o : ∀ i ∈ ctxIds c, ctxParent c ≠ some i → h2[i]? = h[i]?) :
    ReprCtx h2 c (some n) := by
  cases c with
  | nil => trivial
  | cons g c2 =>
    obtain ⟨hg, hgs, hgrest⟩ := hrest
    simp only [ctxIds, List.nodup_append, List.nodup_cons, List.Disjoint, List.mem_cons] at hndc
    have hne : ∀ i, i ∈ g.sib.ids ∨ i ∈ ctxIds c2 → ctxParent (g :: c2) ≠ some i := by
      intro i hi e
      simp only [ctxParent, List.head?_cons, Option.map_some', Option.some.injEq] at e
      subst e
      rcases hi with hi | hi
      · exact hndc.1.1 hi
      · exact hndc.2.2 (Or.inl rfl) hi
    refine ⟨?_, Repr_congr ?_ hgs, ReprCtx_congr ?_ hgrest⟩
    · rw [h2g g.id rfl, hg]
      have hsp : g.sib.rootPtr ≠ some p := by
        intro e
        exact hpc (by simp [ctxIds, rootPtr_mem_ids e])
      unfold Frame.cell
      cases g.dir
      · simp
      · simp [hsp]
    · intro i hi
      exact h2o i (by simp [ctxIds, hi]) (hne i (Or.inl hi))
    · intro i hi
      exact h2o i (by simp [ctxIds, hi]) (hne i (Or.inr hi))

theorem heapify_step_left {h : Heap T} {f : Frame T} {c : List (Frame T)} {n : Nat} {l r : Tree T}
    {x : T} {px : Nat} (hd : f.dir = .L)
    (hc : ReprCtx h (f :: c) (some n)) (ht : Repr h (some f.id) (.node n l x px r))
    (hnd : ((Tree.node n l x px r).ids ++ ctxIds (f :: c)).Nodup) :
    ∃ h2, heapifyBody h n f.id = some h2 ∧ h2.length = h.length ∧
      ReprCtx h2 c (some n) ∧ Repr h2 (ctxParent c) (.node n l x px (.node f.id r f.v f.p f.sib)) := by
  obtain ⟨hf, hs, hrest⟩ := hc
  obtain ⟨hn, hl, hr⟩ := ht
  simp only [Frame.cell, hd] at hf
  simp only [Tree.ids, ctxIds] at hnd
  obtain ⟨nnp, nA, nB, nS, nC, pA, pB, pS, pC, dA, dB, dS, ndA, ndB, ndS, ndC⟩ := nodup_facts hnd
  have hrn : r.rootPtr ≠ some n := fun e => nB (rootPtr_mem_ids e)
  have hrp : r.rootPtr ≠ some f.id := fun e => pB (rootPtr_mem_ids e)
  have hgn : ctxParent c ≠ some n := fun e => nC (ctxParent_mem e)
  have hgp : ctxParent c ≠ some f.id := fun e => pC (ctxParent_mem e)
  have hgr : ctxParent c = none ∨ ctxParent c ≠ r.rootPtr := by
    rcases hg : ctxParent c with _ | gi
    · left; rfl
    · right; intro e; exact (dB gi (rootPtr_mem_ids e.symm)).2 (ctxParent_mem hg)
  obtain ⟨h2, hb, hlen, h2n, h2p, h2r, h2g, h2o⟩ :=
    heapifyBody_left h n f.id x px f.v f.p (ctxParent c) l.rootPtr r.rootPtr f.sib.rootPtr
      hn hf nnp hrn hrp hgn hgp hgr
      (fun rc e => get_of_lt (Repr_lt hr rc (rootPtr_mem_ids e)))
      (fun gi e => get_of_lt (ReprCtx_lt hrest gi (ctxParent_mem e)))
  refine ⟨h2, hb, hlen, ?_, ?_⟩
  · refine ReprCtx_relink hrest ndC pC h2g ?_
    intro i hi hne
    exact h2o i (fun e => nC (e ▸ hi)) (fun e => pC (e ▸ hi))
      (fun e => (dB i (rootPtr_mem_ids e)).2 hi) hne
  · refine ⟨h2n, Repr_congr ?_ hl, ⟨h2p, Repr_reparent h2r ?_ ndB hr, Repr_congr ?_ hs⟩⟩
    · intro i hi
      exact h2o i (fun e => nA (e ▸ hi)) (fun e => pA (e ▸ hi))
        (fun e => (dA i hi).1 (rootPtr_mem_ids e)) (fun e => (dA i hi).2.2 (ctxParent_mem e))
    · intro i hi hne
      exact h2o i (fun e => nB (e ▸ hi)) (fun e => pB (e ▸ hi)) hne
        (fun e => (dB i hi).2 (ctxParent_mem e))
    · intro i hi
      exact h2o i (fun e => nS (e ▸ hi)) (fun e => pS (e ▸ hi))
        (fun e => (dB i (rootPtr_mem_ids e)).1 hi) (fun e => dS i hi (ctxParent_mem e))

theorem heapify_step_right {h : Heap T} {f : Frame T} {c : List (Frame T)} {n : Nat} {l r : Tree T}
    {x : T} {px : Nat} (hd : f.dir = .R)
    (hc : ReprCtx h (f :: c) (some n)) (ht : Repr h (some f.id) (.node n l x px r))
    (hnd : ((Tree.node n l x px r).ids ++ ctxIds (f :: c)).Nodup) :
    ∃ h2, heapifyBody h n f.id = some h2 ∧ h2.length = h.length ∧
      ReprCtx h2 c (some n) ∧ Repr h2 (ctxParent c) (.node n (.node f.id f.sib f.v f.p l) x px r) := by
  obtain ⟨hf, hs, hrest⟩ := hc
  obtain ⟨hn, hl, hr⟩ := ht
  simp only [Frame.cell, hd] at hf
  simp only [Tree.ids, ctxIds] at hnd
  obtain ⟨nnp, nA, nB, nS, nC, pA, pB, pS, pC, dA, dB, dS, ndA, ndB, ndS, ndC⟩ := nodup_facts hnd
  have hsn : f.sib.rootPtr ≠ some n := fun e => nS (rootPtr_mem_ids e)
  have hln : l.rootPtr ≠ some n := fun e => nA (rootPtr_mem_ids e)
  have hlp : l.rootPtr ≠ some f.id := fun e => pA (rootPtr_mem_ids e)
  have hgn : ctxParent c ≠ some n := fun e => nC (ctxParent_mem e)
  have hgp : ctxParent c ≠ some f.id := fun e => pC (ctxParent_mem e)
  have hgr : ctxParent c = none ∨ ctxParent c ≠ l.rootPtr := by
    rcases hg : ctxParent c with _ | gi
    · left; rfl
    · right; intro e; exact (dA gi (rootPtr_mem_ids e.symm)).2.2 (ctxParent_mem hg)
  obtain ⟨h2, hb, hlen, h2n, h2p, h2r, h2g, h2o⟩ :=
    heapifyBody_right h n f.id x px f.v f.p (ctxParent c) l.rootPtr r.rootPtr f.sib.rootPtr
      hn hf hsn nnp hln hlp hgn hgp hgr
      (fun rc e => get_of_lt (Repr_lt hl rc (rootPtr_mem_ids e)))
      (fun gi e => get_of_lt (ReprCtx_lt hrest gi (ctxParent_mem e)))
  refine ⟨h2, hb, hlen, ?_, ?_⟩
  · refine ReprCtx_relink hrest ndC pC h2g ?_
    intro i hi hne
    exact h2o i (fun e => nC (e ▸ hi)) (fun e => pC (e ▸ hi))
      (fun e => (dA i (rootPtr_mem_ids e)).2.2 hi) hne
  · refine ⟨h2n, ⟨h2p, Repr_congr ?_ hs, Repr_reparent h2r ?_ ndA hl⟩, Repr_congr ?_ hr⟩
    · intro i hi
      exact h2o i (fun e => nS (e ▸ hi)) (fun e => pS (e ▸ hi))
        (fun e => (dA i (rootPtr_mem_ids e)).2.1 hi) (fun e => dS i hi (ctxParent_mem e))
    · intro i hi hne
      exact h2o i (fun e => nA (e ▸ hi)) (fun e => pA (e ▸ hi)) hne
        (fun e => (dA i hi).2.2 (ctxParent_mem e))
    · intro i hi
      exact h2o i (fun e => nB (e ▸ hi)) (fun e => pB (e ▸ hi))
        (fun e => (dA i (rootPtr_mem_ids e)).1 hi) (fun e => (dB i hi).2 (ctxParent_mem e))

theorem priority_cell (f : Frame T) (hole par : Option Nat) : (f.cell hole par).priority = f.p := by
  unfold Frame.cell; cases f.dir <;> rfl

theorem heapify_spec {c : List (Frame T)} : ∀ {h : Heap T} {n : Nat} {l r : Tree T} {x : T} {px : Nat}
    (fuel : Nat), c.length < fuel →
    ReprCtx h c (some n) → Repr h (ctxParent c) (.node n l x px r) →
    ((Tree.node n l x px r).ids ++ ctxIds c).Nodup →
    ∃ h2, TreapNode.heapify fuel h n = some h2 ∧ h2.length = h.length ∧
      Repr h2 none (bubble c n l x px r) := by
  induction c with
  | nil =>
    intro h n l r x px fuel hfuel hc ht hnd
    obtain ⟨k, rfl⟩ : ∃ k, fuel = k + 1 := ⟨fuel - 1, by omega⟩
    refine ⟨h, ?_, rfl, ht⟩
    have hn := ht.1
    simp only [ctxParent, List.head?_nil, Option.map_none'] at hn
    simp [TreapNode.heapify, load, hn]
  | cons f c ih =>
    intro h n l r x px fuel hfuel hc ht hnd
    obtain ⟨k, rfl⟩ : ∃ k, fuel = k + 1 := ⟨fuel - 1, by omega⟩
    have hk : c.length < k := by simp only [List.length_cons] at hfuel; omega
    have hn := ht.1
    have hf := hc.1
    simp only [ctxParent, List.head?_cons, Option.map_some'] at hn
    by_cases hlt : f.p < px
    · rcases hd : f.dir with _ | _
      · obtain ⟨h2, hb, hlen, hc2, ht2⟩ := heapify_step_left hd hc ht hnd
        have hnd2 : ((Tree.node n l x px (.node f.id r f.v f.p f.sib)).ids ++ ctxIds c).Nodup := by
          refine (List.Perm.nodup_iff ?_).1 hnd
          rw [List.perm_iff_count]
          intro a
          simp only [Tree.ids, ctxIds, List.count_append, List.count_cons]
          omega
        obtain ⟨h3, e3, hlen3, hr3⟩ := ih k hk hc2 ht2 hnd2
        refine ⟨h3, ?_, by rw [hlen3, hlen], ?_⟩
        · simp [TreapNode.heapify, load, hn, hf, priority_cell, hlt, hb, e3]
        · simp only [bubble, hlt, if_true, hd]; exact hr3
      · obtain ⟨h2, hb, hlen, hc2, ht2⟩ := heapify_step_right hd hc ht hnd
        have hnd2 : ((Tree.node n (.node f.id f.sib f.v f.p l) x px r).ids ++ ctxIds c).Nodup := by
          refine (List.Perm.nodup_iff ?_).1 hnd
          rw [List.perm_iff_count]
          intro a
          simp only [Tree.ids, ctxIds, List.count_append, List.count_cons]
          omega
        obtain ⟨h3, e3, hlen3, hr3⟩ := ih k hk hc2 ht2 hnd2
        refine ⟨h3, ?_, by rw [hlen3, hlen], ?_⟩
        · simp [TreapNode.heapify, load, hn, hf, priority_cell, hlt, hb, e3]
        · simp only [bubble, hlt, if_true, hd]; exact hr3
    · refine ⟨h, ?_, rfl, ?_⟩
      · simp [TreapNode.heapify, load, hn, hf, priority_cell, hlt]
      · simp only [bubble, hlt, if_false]
        exact Repr_plug.2 ⟨hc, ht⟩

theorem get_set_lt {h : Heap T} {p : Nat} (hp : p < h.length) (a : TreapNode T) (j : Nat) :
    (h.set p a)[j]? = if p = j then some a else h[j]? := by
  rw [List.getElem?_set]; simp [hp]

theorem attach_cells {h : Heap T} {i : Nat} {nd : TreapNode T} (x : T) (pr : Nat)
    (hi : h[i]? = some nd) (upd : TreapNode T) :
    ∃ h3, h3 = ((h ++ [newTreapNode x pr]).set h.length
        { newTreapNode x pr with parent := some i }).set i upd ∧
      h3.length = h.length + 1 ∧
      h3[h.length]? = some ⟨x, pr, some i, none, none⟩ ∧ h3[i]? = some upd ∧
      ∀ j, j ≠ i → j < h.length → h3[j]? = h[j]? := by
  have hil := lt_of_get hi
  have hne : i ≠ h.length := by omega
  have l1 : h.length < (h ++ [newTreapNode x pr]).length := by simp
  have l2 : i < ((h ++ [newTreapNode x pr]).set h.length
        { newTreapNode x pr with parent := some i }).length := by simp; omega
  refine ⟨_, rfl, by simp, ?_, ?_, ?_⟩
  · rw [get_set_lt l2, if_neg hne, get_set_lt l1, if_pos rfl]; rfl
  · rw [get_set_lt l2, if_pos rfl]
  · intro j hj hjl
    have : h.length ≠ j := by omega
    rw [get_set_lt l2, if_neg (Ne.symm hj), get_set_lt l1, if_neg this,
      List.getElem?_append_left hjl]

theorem nodup_facts3 {A B C : List Nat} {n : Nat} (hnd : ((A ++ n :: B) ++ C).Nodup) :
    n ∉ A ∧ n ∉ B ∧ n ∉ C := by
  simp only [List.nodup_append, List.nodup_cons, List.mem_append, List.mem_cons,
    List.Disjoint] at hnd
  obtain ⟨⟨-, ⟨nB, -⟩, dA⟩, -, dall⟩ := hnd
  exact ⟨fun hm => dA hm (Or.inl rfl), nB, fun hm => dall (Or.inr (Or.inl rfl)) hm⟩

theorem attach_spec {h : Heap T} {c : List (Frame T)} (f : Frame T) (x : T) (pr : Nat)
    (hn : h[f.id]? = some (f.cell none (ctxParent c)))
    (hs : Repr h (some f.id) f.sib) (hc : ReprCtx h c (some f.id))
    (hnd : (ctxIds (f :: c)).Nodup) (hsz : c.length + 1 ≤ h.length) :
    ∃ h4, TreapNode.heapify
        ((((h ++ [newTreapNode x pr]).set h.length
          { newTreapNode x pr with parent := some f.id }).set f.id
            (f.cell (some h.length) (ctxParent c))).length + 1)
        (((h ++ [newTreapNode x pr]).set h.length
          { newTreapNode x pr with parent := some f.id }).set f.id
            (f.cell (some h.length) (ctxParent c))) h.length = some h4 ∧
      h4.length = h.length + 1 ∧ Repr h4 none (bubble (f :: c) h.length .nil x pr .nil) := by
  obtain ⟨h3, e3, hlen3, h3new, h3i, h3o⟩ :=
    attach_cells x pr hn (f.cell (some h.length) (ctxParent c))
  rw [← e3]
  have hc0 : ReprCtx h (f :: c) none := ⟨hn, hs, hc⟩
  have hlt : ∀ j ∈ ctxIds (f :: c), j < h.length := ReprCtx_lt hc0
  simp only [ctxIds, List.nodup_append, List.nodup_cons, List.Disjoint, List.mem_cons] at hnd
  have hc3 : ReprCtx h3 (f :: c) (some h.length) := by
    refine ⟨h3i, Repr_congr ?_ hs, ReprCtx_congr ?_ hc⟩
    · intro j hj
      refine h3o j ?_ (hlt j (by simp [ctxIds, hj]))
      intro e; subst e; exact hnd.1.1 hj
    · intro j hj
      refine h3o j ?_ (hlt j (by simp [ctxIds, hj]))
      intro e; subst e; exact hnd.2.2 (Or.inl rfl) hj
  have ht3 : Repr h3 (ctxParent (f :: c)) (.node h.length .nil x pr .nil) := ⟨h3new, trivial, trivial⟩
  have hnd3 : ((Tree.node h.length .nil x pr .nil).ids ++ ctxIds (f :: c)).Nodup := by
    simp only [Tree.ids, List.nil_append, List.singleton_append, List.nodup_cons]
    refine ⟨fun hm => Nat.lt_irrefl _ (hlt _ hm), ?_⟩
    simp only [ctxIds, List.nodup_append, List.nodup_cons, List.Disjoint, List.mem_cons]
    exact hnd
  obtain ⟨h4, e4, hlen4, hr4⟩ := heapify_spec (h3.length + 1)
    (by simp only [List.length_cons]; omega) hc3 ht3 hnd3
  exact ⟨h4, e4, by rw [hlen4, hlen3], hr4⟩

theorem insert_attach_left (V : TreapValue T) {h : Heap T} {i : Nat} {nn : TreapNode T} (x : T) (pr k : Nat)
    (hn : h[i]? = some nn) (h0 : V.Compare nn.Value x ≠ 0) (hgt : V.Compare nn.Value x > 0)
    (hnext : nn.left = none) :
    TreapNode.insert V (k + 1) h i x pr =
      (TreapNode.heapify
        ((((h ++ [newTreapNode x pr]).set h.length
          { newTreapNode x pr with parent := some i }).set i { nn with left := some h.length }).length + 1)
        (((h ++ [newTreapNode x pr]).set h.length
          { newTreapNode x pr with parent := some i }).set i { nn with left := some h.length })
        h.length).map fun h4 => (h4, h.length, true) := by
  have hil := lt_of_get hn
  have e1 : (h ++ [newTreapNode x pr])[h.length]? = some (newTreapNode x pr) := by simp
  have e2 : ((h ++ [newTreapNode x pr]).set h.length
          { newTreapNode x pr with parent := some i })[i]? = some nn := by
    rw [List.getElem?_set_ne (by omega), List.getElem?_append_left hil, hn]
  simp only [TreapNode.insert, load, hn, Option.bind_eq_bind, Option.some_bind, h0, if_false, hgt,
    if_true, hnext, setParent, e1, setLeft, e2]
  generalize TreapNode.heapify _ _ _ = o
  cases o <;> rfl

theorem insert_attach_right (V : TreapValue T) {h : Heap T} {i : Nat} {nn : TreapNode T} (x : T) (pr k : Nat)
    (hn : h[i]? = some nn) (h0 : V.Compare nn.Value x ≠ 0) (hgt : ¬ V.Compare nn.Value x > 0)
    (hnext : nn.right = none) :
    TreapNode.insert V (k + 1) h i x pr =
      (TreapNode.heapify
        ((((h ++ [newTreapNode x pr]).set h.length
          { newTreapNode x pr with parent := some i }).set i { nn with right := some h.length }).length + 1)
        (((h ++ [newTreapNode x pr]).set h.length
          { newTreapNode x pr with parent := some i }).set i { nn with right := some h.length })
        h.length).map fun h4 => (h4, h.length, true) := by
  have hil := lt_of_get hn
  have e1 : (h ++ [newTreapNode x pr])[h.length]? = some (newTreapNode x pr) := by simp
  have e2 : ((h ++ [newTreapNode x pr]).set h.length
          { newTreapNode x pr with parent := some i })[i]? = some nn := by
    rw [List.getElem?_set_ne (by omega), List.getElem?_append_left hil, hn]
  simp only [TreapNode.insert, load, hn, Option.bind_eq_bind, Option.some_bind, h0, if_false, hgt,
    hnext, setParent, e1, setRight, e2]
  generalize TreapNode.heapify _ _ _ = o
  cases o <;> rfl
theorem insert_spec (V : TreapValue T) (x : T) (pr : Nat) (t : Tree T) :
    ∀ (c : List (Frame T)) (h : Heap T) (fuel i : Nat), t.rootPtr = some i →
      t.ids.length < fuel → c.length + t.ids.length ≤ h.length →
      ReprCtx h c (some i) → Repr h (ctxParent c) t → (t.ids ++ ctxIds c).Nodup →
      ∃ h2 res, TreapNode.insert V fuel h i x pr = some (h2, res) ∧
        (∀ c2, descend V x t c = (c2, .nil) →
          res = (h.length, true) ∧ h2.length = h.length + 1 ∧
            Repr h2 none (bubble c2 h.length .nil x pr .nil)) ∧
        (∀ c2 j l2 v2 p2 r2, descend V x t c = (c2, .node j l2 v2 p2 r2) →
          res = (j, false) ∧ h2.length = h.length ∧
            Repr h2 none (plug c2 (.node j l2 (V.Merge v2 x) p2 r2))) := by
  induction t with
  | nil => intro c h fuel i hi; cases hi
  | node i0 l v p r ihl ihr =>
    intro c h fuel i hi hfuel hsz hc ht hnd
    simp only [Tree.rootPtr, Option.some.injEq] at hi
    subst hi
    obtain ⟨k, rfl⟩ : ∃ k, fuel = k + 1 := ⟨fuel - 1, by omega⟩
    have ht0 := ht
    obtain ⟨hn, hl, hr⟩ := ht
    have hlen : (Tree.node i0 l v p r).ids.length = l.ids.length + r.ids.length + 1 := by
      simp [Tree.ids]; omega
    have hall : ∀ j ∈ (Tree.node i0 l v p r).ids ++ ctxIds c, j < h.length := by
      intro j hj
      rcases List.mem_append.1 hj with hj | hj
      · exact Repr_lt ht0 j hj
      · exact ReprCtx_lt hc j hj
    by_cases h0 : V.Compare v x = 0
    · -- the value is already stored: merge
      have hil := lt_of_get hn
      obtain ⟨nA, nB, nC⟩ := nodup_facts3 hnd
      have hget : ∀ j, j ≠ i0 → (h.set i0 ⟨V.Merge v x, p, ctxParent c, l.rootPtr, r.rootPtr⟩)[j]?
          = h[j]? := fun j hj => by rw [get_set_lt hil, if_neg (Ne.symm hj)]
      refine ⟨h.set i0 ⟨V.Merge v x, p, ctxParent c, l.rootPtr, r.rootPtr⟩, (i0, false), ?_, ?_, ?_⟩
      · simp [TreapNode.insert, load, hn, h0]
      · intro c2 hd; simp [descend, h0] at hd
      · intro c2 j l2 v2 p2 r2 hd
        simp only [descend, h0, if_true, Prod.mk.injEq, Tree.node.injEq] at hd
        obtain ⟨rfl, rfl, rfl, rfl, rfl, rfl⟩ := hd
        refine ⟨rfl, by simp, Repr_plug.2 ⟨ReprCtx_congr ?_ hc, ?_, Repr_congr ?_ hl, Repr_congr ?_ hr⟩⟩
        · intro j hj; exact hget j (fun e => nC (e ▸ hj))
        · rw [get_set_lt hil, if_pos rfl]
        · intro j hj; exact hget j (fun e => nA (e ▸ hj))
        · intro j hj; exact hget j (fun e => nB (e ▸ hj))
    · by_cases hgt : V.Compare v x > 0
      · cases l with
        | nil =>
          have hndc : (ctxIds ({ id := i0, v := v, p := p, dir := .L, sib := r } :: c)).Nodup := by
            simpa [Tree.ids, ctxIds] using hnd
          obtain ⟨h4, e4, hlen4, hr4⟩ := attach_spec { id := i0, v := v, p := p, dir := .L, sib := r }
            x pr hn hr hc hndc (by omega)
          refine ⟨h4, (h.length, true), ?_, ?_, ?_⟩
          · rw [insert_attach_left V x pr k hn h0 hgt rfl]
            exact congrArg (Option.map fun h4 => (h4, h.length, true)) e4
          · intro c2 hd
            simp only [descend, h0, if_false, hgt, if_true, Prod.mk.injEq, and_true] at hd
            subst hd
            exact ⟨rfl, hlen4, hr4⟩
          · intro c2 j l2 v2 p2 r2 hd
            simp [descend, h0, hgt] at hd
        | node li ll lv lp lr =>
          have hnd2 : ((Tree.node li ll lv lp lr).ids ++
              ctxIds ({ id := i0, v := v, p := p, dir := .L, sib := r } :: c)).Nodup := by
            refine (List.Perm.nodup_iff ?_).1 hnd
            rw [List.perm_iff_count]
            intro a
            simp only [Tree.ids, ctxIds, List.count_append, List.count_cons]
            omega
          have hc2 : ReprCtx h ({ id := i0, v := v, p := p, dir := .L, sib := r } :: c) (some li) :=
            ⟨hn, hr, hc⟩
          obtain ⟨h2, res, e, hp1, hp2⟩ := ihl ({ id := i0, v := v, p := p, dir := .L, sib := r } :: c)
            h k li rfl (by omega) (by simp only [List.length_cons]; omega) hc2 hl hnd2
          refine ⟨h2, res, ?_, ?_, ?_⟩
          · simp [TreapNode.insert, load, hn, h0, hgt, Tree.rootPtr, e]
          · intro c2 hd
            simp only [descend, h0, if_false, hgt, if_true] at hd
            exact hp1 c2 hd
          · intro c2 j l2 v2 p2 r2 hd
            simp only [descend, h0, if_false, hgt, if_true] at hd
            exact hp2 c2 j l2 v2 p2 r2 hd
      · cases r with
        | nil =>
          have hndc : (ctxIds ({ id := i0, v := v, p := p, dir := .R, sib := l } :: c)).Nodup := by
            refine (List.Perm.nodup_iff ?_).1 hnd
            rw [List.perm_iff_count]
            intro a
            simp only [Tree.ids, ctxIds, List.count_append, List.count_cons, List.count_nil]
            omega
          obtain ⟨h4, e4, hlen4, hr4⟩ := attach_spec { id := i0, v := v, p := p, dir := .R, sib := l }
            x pr hn hl hc hndc (by omega)
          refine ⟨h4, (h.length, true), ?_, ?_, ?_⟩
          · rw [insert_attach_right V x pr k hn h0 hgt rfl]
            exact congrArg (Option.map fun h4 => (h4, h.length, true)) e4
          · intro c2 hd
            simp only [descend, h0, if_false, hgt, Prod.mk.injEq, and_true] at hd
            subst hd
            exact ⟨rfl, hlen4, hr4⟩
          · intro c2 j l2 v2 p2 r2 hd
            simp [descend, h0, hgt] at hd
        | node ri rl rv rp rr =>
          have hnd2 : ((Tree.node ri rl rv rp rr).ids ++
              ctxIds ({ id := i0, v := v, p := p, dir := .R, sib := l } :: c)).Nodup := by
            refine (List.Perm.nodup_iff ?_).1 hnd
            rw [List.perm_iff_count]
            intro a
            simp only [Tree.ids, ctxIds, List.count_append, List.count_cons]
            omega
          have hc2 : ReprCtx h ({ id := i0, v := v, p := p, dir := .R, sib := l } :: c) (some ri) :=
            ⟨hn, hl, hc⟩
          obtain ⟨h2, res, e, hp1, hp2⟩ := ihr ({ id := i0, v := v, p := p, dir := .R, sib := l } :: c)
            h k ri rfl (by omega) (by simp only [List.length_cons]; omega) hc2 hr hnd2
          refine ⟨h2, res, ?_, ?_, ?_⟩
          · simp [TreapNode.insert, load, hn, h0, hgt, Tree.rootPtr, e]
          · intro c2 hd
            simp only [descend, h0, if_false, hgt] at hd
            exact hp1 c2 hd
          · intro c2 j l2 v2 p2 r2 hd
            simp only [descend, h0, if_false, hgt] at hd
            exact hp2 c2 j l2 v2 p2 r2 hd

theorem descend_plug (V : TreapValue T) (x : T) (t : Tree T) :
    ∀ (c : List (Frame T)), plug (descend V x t c).1 (descend V x t c).2 = plug c t := by
  induction t with
  | nil => intro c; rfl
  | node i l v p r ihl ihr =>
    intro c
    simp only [descend]
    split_ifs with h0 hgt
    · rfl
    · rw [ihl]; rfl
    · rw [ihr]; rfl

theorem ids_bubble (c : List (Frame T)) : ∀ (n : Nat) (l : Tree T) (x : T) (px : Nat) (r : Tree T),
    List.Perm (bubble c n l x px r).ids ((Tree.node n l x px r).ids ++ ctxIds c) := by
  induction c with
  | nil => intro n l x px r; simp [bubble, ctxIds]
  | cons f c ih =>
    intro n l x px r
    simp only [bubble]
    split_ifs with hlt
    · rcases hd : f.dir with _ | _
      · simp only
        refine (ih _ _ _ _ _).trans ?_
        rw [List.perm_iff_count]
        intro a
        simp only [Tree.ids, ctxIds, List.count_append, List.count_cons]
        omega
      · simp only
        refine (ih _ _ _ _ _).trans ?_
        rw [List.perm_iff_count]
        intro a
        simp only [Tree.ids, ctxIds, List.count_append, List.count_cons]
        omega
    · exact ids_plug (f :: c) _

theorem ctxTop_cons (f : Frame T) (c : List (Frame T)) (d e : Option Nat) :
    ctxTop (f :: c) d = ctxTop (f :: c) e := rfl

theorem rootPtr_bubble (c : List (Frame T)) : ∀ (n : Nat) (l : Tree T) (x : T) (px : Nat) (r : Tree T),
    (bubble c n l x px r).rootPtr = some n ∨
      (c ≠ [] ∧ (bubble c n l x px r).rootPtr = ctxTop c none) := by
  induction c with
  | nil => intro n l x px r; left; rfl
  | cons f c ih =>
    intro n l x px r
    simp only [bubble]
    split_ifs with hlt
    · have key : ∀ l2 r2, (bubble c n l2 x px r2).rootPtr = some n ∨
          ((bubble c n l2 x px r2).rootPtr = ctxTop (f :: c) none) := by
        intro l2 r2
        rcases ih n l2 x px r2 with h | ⟨hne, h⟩
        · exact Or.inl h
        · right
          rw [h]
          cases c with
          | nil => exact absurd rfl hne
          | cons g c2 => rfl
      rcases hd : f.dir with _ | _
      · simp only
        rcases key l (.node f.id r f.v f.p f.sib) with h | h
        · exact Or.inl h
        · exact Or.inr ⟨by simp, h⟩
      · simp only
        rcases key (.node f.id f.sib f.v f.p l) r with h | h
        · exact Or.inl h
        · exact Or.inr ⟨by simp, h⟩
    · right
      exact ⟨by simp, by rw [rootPtr_plug]; rfl⟩

/-- In a held tree the parent field of a node is the outer parent exactly at the top. -/
theorem parent_of_mem {h : Heap T} {t : Tree T} : ∀ {par : Option Nat}, Repr h par t → t.ids.Nodup →
    ∀ i ∈ t.ids, ∃ nd, h[i]? = some nd ∧
      ((t.rootPtr = some i ∧ nd.parent = par) ∨
        (t.rootPtr ≠ some i ∧ ∃ j ∈ t.ids, nd.parent = some j)) := by
  induction t with
  | nil => intro par _ _ i hi; simp [Tree.ids] at hi
  | node j l v p r ihl ihr =>
    intro par hr hnd i hi
    obtain ⟨hn, hl, hrr⟩ := hr
    simp only [Tree.ids, List.nodup_append, List.nodup_cons, List.Disjoint, List.mem_cons] at hnd
    obtain ⟨ndl, ⟨jr, ndr⟩, dis⟩ := hnd
    simp only [Tree.ids, List.mem_append, List.mem_cons] at hi
    rcases hi with hi | hi | hi
    · obtain ⟨nd, hnd1, hcase⟩ := ihl hl ndl i hi
      refine ⟨nd, hnd1, Or.inr ⟨?_, ?_⟩⟩
      · simp only [Tree.rootPtr, ne_eq, Option.some.injEq]
        intro e; subst e; exact dis hi (Or.inl rfl)
      · rcases hcase with ⟨_, hp⟩ | ⟨_, k, hk, hp⟩
        · exact ⟨j, by simp [Tree.ids], hp⟩
        · exact ⟨k, by simp [Tree.ids, hk], hp⟩
    · subst hi
      exact ⟨_, hn, Or.inl ⟨rfl, rfl⟩⟩
    · obtain ⟨nd, hnd1, hcase⟩ := ihr hrr ndr i hi
      refine ⟨nd, hnd1, Or.inr ⟨?_, ?_⟩⟩
      · simp only [Tree.rootPtr, ne_eq, Option.some.injEq]
        intro e; subst e; exact jr hi
      · rcases hcase with ⟨_, hp⟩ | ⟨_, k, hk, hp⟩
        · exact ⟨j, by simp [Tree.ids], hp⟩
        · exact ⟨k, by simp [Tree.ids, hk], hp⟩

theorem length_le_of_nodup_lt {l : List Nat} {N : Nat} (hnd : l.Nodup) (hlt : ∀ i ∈ l, i < N) :
    l.length ≤ N := by
  have hsub : l ⊆ List.range N := fun i hi => List.mem_range.2 (hlt i hi)
  have := (List.subperm_of_subset hnd hsub).length_le
  simpa using this

theorem root_fix {h2 : Heap T} {tr2 : Tree T} {node : Nat} {r0 : Option Nat} (fl : Bool)
    (hrep : Repr h2 none tr2) (hnd : tr2.ids.Nodup) (hmem : node ∈ tr2.ids)
    (hroot : tr2.rootPtr = some node ∨ tr2.rootPtr = r0) :
    (do
      let nd ← load h2 node
      match nd.parent with
      | none => some (({ heap := h2, root := some node } : Treap T), node, fl)
      | some _ => some ({ heap := h2, root := r0 }, node, fl)) =
    some ({ heap := h2, root := tr2.rootPtr }, node, fl) := by
  obtain ⟨nd, hget, hcase⟩ := parent_of_mem hrep hnd node hmem
  rcases hcase with ⟨hr, hp⟩ | ⟨hr, j, _, hp⟩
  · simp [load, hget, hp, hr]
  · rcases hroot with h | h
    · exact absurd h hr
    · simp [load, hget, hp, h]

theorem descend_ids (V : TreapValue T) (x : T) (t : Tree T) (c : List (Frame T)) :
    List.Perm ((descend V x t c).2.ids ++ ctxIds (descend V x t c).1) (t.ids ++ ctxIds c) :=
  (ids_plug _ _).symm.trans ((descend_plug V x t c) ▸ ids_plug c t)

theorem Insert_spec (V : TreapValue T) {t : Treap T} {tr : Tree T} (hh : t.Holds tr) (x : T) (pr : Nat) :
    ∃ t2, Treap.Insert V t x pr = some (t2, Tree.insertResult V tr x t.heap.length) ∧
      t2.Holds (Tree.insert V tr x pr t.heap.length) := by
  obtain ⟨hroot, hrep, hnd, hids⟩ := hh
  cases tr with
  | nil =>
    have hlen : t.heap.length = 0 := by
      by_contra hne
      have := (hids 0).2 (by omega)
      simp [Tree.ids] at this
    refine ⟨{ heap := t.heap ++ [newTreapNode x pr], root := some t.heap.length }, ?_, ?_⟩
    · simp [Treap.Insert, hroot, Tree.rootPtr, Tree.insertResult, descend]
    · refine ⟨rfl, ?_, ?_, ?_⟩
      · refine ⟨?_, trivial, trivial⟩
        simp [newTreapNode, Tree.rootPtr]
      · simp [Tree.insert, descend, bubble, Tree.ids]
      · intro i
        simp [Tree.insert, descend, bubble, Tree.ids, hlen]
  | node i0 l v p r =>
    have hsz : (Tree.node i0 l v p r).ids.length ≤ t.heap.length :=
      length_le_of_nodup_lt hnd (fun i hi => (hids i).1 hi)
    obtain ⟨h2, res, e, hp1, hp2⟩ := insert_spec V x pr (.node i0 l v p r) [] t.heap
      (t.heap.length + 1) i0 rfl (by omega) (by simpa using hsz) trivial hrep
      (by simpa [ctxIds] using hnd)
    have hplug := descend_plug V x (.node i0 l v p r) []
    have hperm := descend_ids V x (.node i0 l v p r) []
    rcases hd : descend V x (.node i0 l v p r) [] with ⟨c2, t2⟩
    rw [hd] at hplug hperm
    simp only [plug, ctxIds, List.append_nil] at hplug hperm
    cases t2 with
    | nil =>
      obtain ⟨hres, hlen2, hrep2⟩ := hp1 c2 hd
      subst hres
      have hperm2 : List.Perm (bubble c2 t.heap.length .nil x pr .nil).ids
          (t.heap.length :: (Tree.node i0 l v p r).ids) := by
        refine (ids_bubble c2 _ _ _ _ _).trans ?_
        simpa [Tree.ids] using hperm
      have hnew : t.heap.length ∉ (Tree.node i0 l v p r).ids := fun hm =>
        Nat.lt_irrefl _ ((hids _).1 hm)
      have hnd2 : (bubble c2 t.heap.length .nil x pr .nil).ids.Nodup :=
        (List.Perm.nodup_iff hperm2).2 (List.nodup_cons.2 ⟨hnew, hnd⟩)
      have hrt : (bubble c2 t.heap.length .nil x pr .nil).rootPtr = some t.heap.length ∨
          (bubble c2 t.heap.length .nil x pr .nil).rootPtr = t.root := by
        rcases rootPtr_bubble c2 t.heap.length .nil x pr .nil with h | ⟨_, h⟩
        · exact Or.inl h
        · right
          rw [h, hroot, ← hplug, rootPtr_plug]
          rfl
      refine ⟨{ heap := h2, root := (bubble c2 t.heap.length .nil x pr .nil).rootPtr }, ?_, ?_⟩
      · have := root_fix true hrep2 hnd2 (hperm2.mem_iff.2 (by simp)) hrt
        have hroot2 : t.root = some i0 := hroot
        rw [hroot2] at this
        simp only [Treap.Insert, hroot2, e, Tree.insertResult, hd, Option.bind_eq_bind,
          Option.some_bind]
        exact this
      · simp only [Tree.insert, hd]
        refine ⟨rfl, hrep2, hnd2, ?_⟩
        intro i
        rw [hperm2.mem_iff, List.mem_cons, hids i]
        show _ ↔ i < h2.length
        rw [hlen2]
        omega
    | node j l2 v2 p2 r2 =>
      obtain ⟨hres, hlen2, hrep2⟩ := hp2 c2 j l2 v2 p2 r2 hd
      subst hres
      have hperm2 : List.Perm (plug c2 (.node j l2 (V.Merge v2 x) p2 r2)).ids
          (Tree.node i0 l v p r).ids := by
        refine (ids_plug c2 _).trans ?_
        simpa [Tree.ids] using hperm
      have hnd2 : (plug c2 (.node j l2 (V.Merge v2 x) p2 r2)).ids.Nodup :=
        (List.Perm.nodup_iff hperm2).2 hnd
      have hjm : j ∈ (plug c2 (.node j l2 (V.Merge v2 x) p2 r2)).ids := by
        rw [(ids_plug c2 _).mem_iff]
        simp [Tree.ids]
      have hrt : (plug c2 (.node j l2 (V.Merge v2 x) p2 r2)).rootPtr = some j ∨
          (plug c2 (.node j l2 (V.Merge v2 x) p2 r2)).rootPtr = t.root := by
        right
        rw [hroot, ← hplug, rootPtr_plug, rootPtr_plug]
        rfl
      refine ⟨{ heap := h2, root := (plug c2 (.node j l2 (V.Merge v2 x) p2 r2)).rootPtr }, ?_, ?_⟩
      · have := root_fix false hrep2 hnd2 hjm hrt
        have hroot2 : t.root = some i0 := hroot
        rw [hroot2] at this
        simp only [Treap.Insert, hroot2, e, Tree.insertResult, hd, Option.bind_eq_bind,
          Option.some_bind]
        exact this
      · simp only [Tree.insert, hd]
        refine ⟨rfl, hrep2, hnd2, ?_⟩
        intro i
        rw [hperm2.mem_iff, hids i]
        show _ ↔ i < h2.length
        rw [hlen2]

theorem Holds_length {t : Treap T} {tr : Tree T} (hh : t.Holds tr) :
    t.heap.length = tr.ids.length := by
  obtain ⟨_, _, hnd, hids⟩ := hh
  have hperm : List.Perm tr.ids (List.range t.heap.length) := by
    rw [List.perm_ext_iff_of_nodup hnd (List.nodup_range _)]
    intro i
    rw [hids i, List.mem_range]
  simpa using hperm.length_eq.symm

theorem Holds_new (T : Type) : (NewTreap T).Holds .nil := by
  refine ⟨rfl, trivial, by simp [Tree.ids], ?_⟩
  intro i
  simp [Tree.ids, NewTreap]

theorem insertAll_spec (V : TreapValue T) (ops : List (T × Nat)) :
    ∀ {t : Treap T} {tr : Tree T}, t.Holds tr →
      ∃ t2, insertAll V t ops = some t2 ∧ t2.Holds (Tree.insertAll V tr ops) := by
  induction ops with
  | nil => intro t tr hh; exact ⟨t, rfl, hh⟩
  | cons op rest ih =>
    intro t tr hh
    obtain ⟨v, pr⟩ := op
    obtain ⟨t1, e1, hh1⟩ := Insert_spec V hh v pr
    rw [Holds_length hh] at hh1
    obtain ⟨t2, e2, hh2⟩ := ih hh1
    refine ⟨t2, ?_, hh2⟩
    simp only [insertAll, e1, Option.bind_eq_bind, Option.some_bind]
    exact e2

/-- The cells of a held tree are its entries. -/
theorem Repr_entries {h : Heap T} {t : Tree T} : ∀ {par : Option Nat}, Repr h par t →
    ∀ i v, (i, v) ∈ t.entries → ∃ nd, h[i]? = some nd ∧ nd.Value = v := by
  induction t with
  | nil => intro par _ i v hm; simp [Tree.entries] at hm
  | node j l w p r ihl ihr =>
    intro par hr i v hm
    obtain ⟨hn, hl, hrr⟩ := hr
    simp only [Tree.entries, List.mem_append, List.mem_cons, Prod.mk.injEq] at hm
    rcases hm with hm | ⟨rfl, rfl⟩ | hm
    · exact ihl hl i v hm
    · exact ⟨_, hn, rfl⟩
    · exact ihr hrr i v hm

theorem entries_ids (t : Tree T) : t.entries.map Prod.fst = t.ids := by
  induction t with
  | nil => rfl
  | node j l w p r ihl ihr => simp [Tree.entries, Tree.ids, ihl, ihr]

theorem entries_vals (t : Tree T) : t.entries.map Prod.snd = t.vals := by
  induction t with
  | nil => rfl
  | node j l w p r ihl ihr => simp [Tree.entries, Tree.vals, ihl, ihr]

/-- In a treap holding `tr`, the stored values are exactly the values of `tr`. -/
theorem Holds_values {t : Treap T} {tr : Tree T} (hh : t.Holds tr) (v : T) :
    (∃ nd ∈ t.heap, nd.Value = v) ↔ v ∈ tr.vals := by
  obtain ⟨_, hrep, hnd, hids⟩ := hh
  constructor
  · rintro ⟨nd, hm, rfl⟩
    obtain ⟨i, hi, hget⟩ := List.mem_iff_getElem.1 hm
    have hmem : i ∈ tr.ids := (hids i).2 hi
    rw [← entries_ids, List.mem_map] at hmem
    obtain ⟨⟨i2, w⟩, hw, rfl⟩ := hmem
    obtain ⟨nd2, hg2, rfl⟩ := Repr_entries hrep _ w hw
    rw [List.getElem?_eq_getElem hi, Option.some.injEq] at hg2
    rw [← entries_vals, List.mem_map]
    refine ⟨(i2, nd2.Value), hw, ?_⟩
    rw [← hget, hg2]
  · intro hv
    rw [← entries_vals, List.mem_map] at hv
    obtain ⟨⟨i, w⟩, hw, rfl⟩ := hv
    obtain ⟨nd, hg, rfl⟩ := Repr_entries hrep i w hw
    exact ⟨nd, List.getElem?_mem hg, rfl⟩

theorem isHeap_fill (f : Frame T) (t : Tree T) :
    (f.fill t).IsHeap ↔ (t.IsHeap ∧ ∀ q ∈ t.rootPriority, q ≤ f.p) ∧
      f.sib.IsHeap ∧ ∀ q ∈ f.sib.rootPriority, q ≤ f.p := by
  unfold Frame.fill
  cases f.dir
  · simp only [Tree.IsHeap]; tauto
  · simp only [Tree.IsHeap]; tauto

theorem rootPriority_fill (f : Frame T) (t : Tree T) : (f.fill t).rootPriority = some f.p := by
  unfold Frame.fill; cases f.dir <;> rfl

theorem isHeap_plug (c : List (Frame T)) : ∀ (t : Tree T),
    (plug c t).IsHeap ↔ HeapCtx c ∧ t.IsHeap ∧ ∀ f ∈ c.head?, ∀ q ∈ t.rootPriority, q ≤ f.p := by
  induction c with
  | nil => intro t; simp [plug, HeapCtx]
  | cons f c ih =>
    intro t
    simp only [plug, ih, isHeap_fill, HeapCtx, rootPriority_fill, List.head?_cons, Option.mem_def,
      Option.some.injEq, forall_eq']
    tauto

theorem isHeap_bubble (c : List (Frame T)) : ∀ (n : Nat) (l : Tree T) (x : T) (px : Nat) (r : Tree T),
    HeapCtx c → l.IsHeap → r.IsHeap → (∀ q ∈ l.rootPriority, q ≤ px) → (∀ q ∈ r.rootPriority, q ≤ px) →
    (∀ f ∈ c.head?, (∀ q ∈ l.rootPriority, q ≤ f.p) ∧ ∀ q ∈ r.rootPriority, q ≤ f.p) →
    (bubble c n l x px r).IsHeap := by
  induction c with
  | nil =>
    intro n l x px r _ hl hr hlp hrp _
    exact ⟨hlp, hrp, hl, hr⟩
  | cons f c ih =>
    intro n l x px r hc hl hr hlp hrp hf
    obtain ⟨hs, hsp, hg, hc2⟩ := hc
    obtain ⟨hfl, hfr⟩ := hf f rfl
    simp only [bubble]
    split_ifs with hlt
    · rcases hd : f.dir with _ | _
      · simp only
        refine ih n l x px _ hc2 hl ⟨hfr, hsp, hr, hs⟩ hlp ?_ ?_
        · intro q hq
          simp only [Tree.rootPriority, Option.mem_def, Option.some.injEq] at hq
          omega
        · intro g hgm
          have := hg g hgm
          refine ⟨fun q hq => le_trans (hfl q hq) this, ?_⟩
          intro q hq
          simp only [Tree.rootPriority, Option.mem_def, Option.some.injEq] at hq
          omega
      · simp only
        refine ih n _ x px r hc2 ⟨hsp, hfl, hs, hl⟩ hr ?_ hrp ?_
        · intro q hq
          simp only [Tree.rootPriority, Option.mem_def, Option.some.injEq] at hq
          omega
        · intro g hgm
          have := hg g hgm
          refine ⟨?_, fun q hq => le_trans (hfr q hq) this⟩
          intro q hq
          simp only [Tree.rootPriority, Option.mem_def, Option.some.injEq] at hq
          omega
    · rw [isHeap_plug]
      refine ⟨⟨hs, hsp, hg, hc2⟩, ⟨hlp, hrp, hl, hr⟩, ?_⟩
      intro g hgm q hq
      simp only [List.head?_cons, Option.mem_def, Option.some.injEq] at hgm
      simp only [Tree.rootPriority, Option.mem_def, Option.some.injEq] at hq
      subst hgm
      omega

/-- `Insert` keeps the heap property. -/
theorem isHeap_insert (V : TreapValue T) (tr : Tree T) (x : T) (pr n : Nat) (hh : tr.IsHeap) :
    (Tree.insert V tr x pr n).IsHeap := by
  have hplug := descend_plug V x tr []
  unfold Tree.insert
  rcases hd : descend V x tr [] with ⟨c2, t2⟩
  rw [hd] at hplug
  simp only [plug] at hplug
  rw [← hplug, isHeap_plug] at hh
  obtain ⟨hc, ht, hf⟩ := hh
  cases t2 with
  | nil =>
    simp only
    refine isHeap_bubble c2 n .nil x pr .nil hc trivial trivial ?_ ?_ ?_
    · intro q hq; cases hq
    · intro q hq; cases hq
    · intro f _
      exact ⟨fun q hq => (by cases hq), fun q hq => (by cases hq)⟩
  | node j l2 v2 p2 r2 =>
    simp only
    rw [isHeap_plug]
    exact ⟨hc, ht, hf⟩

theorem isHeap_insertAll (V : TreapValue T) (ops : List (T × Nat)) :
    ∀ (tr : Tree T), tr.IsHeap → (Tree.insertAll V tr ops).IsHeap := by
  induction ops with
  | nil => intro tr h; exact h
  | cons op rest ih =>
    intro tr h
    exact ih _ (isHeap_insert V tr op.1 op.2 _ h)

theorem TotalOrder.refl {V : TreapValue T} (tot : TotalOrder V) (a : T) : V.Compare a a = 0 := by
  have := tot.1 a a
  omega

theorem TotalOrder.eq_symm {V : TreapValue T} (tot : TotalOrder V) {a b : T}
    (h : V.Compare a b = 0) : V.Compare b a = 0 := by
  have h1 := tot.1 a b
  have h2 := tot.1 b a
  omega

theorem TotalOrder.gt_iff {V : TreapValue T} (tot : TotalOrder V) (a b : T) :
    V.Compare a b > 0 ↔ V.Compare b a < 0 := (tot.1 b a).symm

theorem TotalOrder.lt_of_lt_of_le {V : TreapValue T} (tot : TotalOrder V) {a b c : T}
    (h1 : V.Compare a b < 0) (h2 : V.Compare b c ≤ 0) : V.Compare a c < 0 := by
  have hac := tot.2 a b c (by omega) h2
  by_contra hne
  have h0 : V.Compare a c = 0 := by omega
  have hca := tot.eq_symm h0
  have hba := tot.2 b c a h2 (by omega)
  have := (tot.1 a b).1 h1
  omega

theorem TotalOrder.lt_of_le_of_lt {V : TreapValue T} (tot : TotalOrder V) {a b c : T}
    (h1 : V.Compare a b ≤ 0) (h2 : V.Compare b c < 0) : V.Compare a c < 0 := by
  have hac := tot.2 a b c h1 (by omega)
  by_contra hne
  have h0 : V.Compare a c = 0 := by omega
  have hca := tot.eq_symm h0
  have hcb := tot.2 c a b (by omega) h1
  have := (tot.1 b c).1 h2
  omega

theorem TotalOrder.lt_trans {V : TreapValue T} (tot : TotalOrder V) {a b c : T}
    (h1 : V.Compare a b < 0) (h2 : V.Compare b c < 0) : V.Compare a c < 0 :=
  tot.lt_of_lt_of_le h1 (by omega)

theorem vals_fill (f : Frame T) (t : Tree T) :
    (f.fill t).vals = (match f.dir with | .L => [] | .R => f.sib.vals ++ [f.v]) ++ t.vals ++
      (match f.dir with | .L => f.v :: f.sib.vals | .R => []) := by
  unfold Frame.fill
  cases f.dir <;> simp [Tree.vals]

theorem ctxBefore_L {f : Frame T} (c : List (Frame T)) (hd : f.dir = .L) :
    ctxBefore (f :: c) = ctxBefore c := by
  simp only [ctxBefore, hd]

theorem ctxBefore_R {f : Frame T} (c : List (Frame T)) (hd : f.dir = .R) :
    ctxBefore (f :: c) = ctxBefore c ++ f.sib.vals ++ [f.v] := by
  simp only [ctxBefore, hd]

theorem ctxAfter_L {f : Frame T} (c : List (Frame T)) (hd : f.dir = .L) :
    ctxAfter (f :: c) = f.v :: f.sib.vals ++ ctxAfter c := by
  simp only [ctxAfter, hd]

theorem ctxAfter_R {f : Frame T} (c : List (Frame T)) (hd : f.dir = .R) :
    ctxAfter (f :: c) = ctxAfter c := by
  simp only [ctxAfter, hd]

theorem vals_plug (c : List (Frame T)) : ∀ (t : Tree T),
    (plug c t).vals = ctxBefore c ++ t.vals ++ ctxAfter c := by
  induction c with
  | nil => intro t; simp [plug, ctxBefore, ctxAfter]
  | cons f c ih =>
    intro t
    rw [plug, ih, vals_fill]
    rcases hd : f.dir with _ | _
    · rw [ctxBefore_L c hd, ctxAfter_L c hd]; simp
    · rw [ctxBefore_R c hd, ctxAfter_R c hd]; simp

theorem vals_bubble (c : List (Frame T)) : ∀ (n : Nat) (l : Tree T) (x : T) (px : Nat) (r : Tree T),
    (bubble c n l x px r).vals = ctxBefore c ++ (l.vals ++ x :: r.vals) ++ ctxAfter c := by
  induction c with
  | nil => intro n l x px r; simp [bubble, ctxBefore, ctxAfter, Tree.vals]
  | cons f c ih =>
    intro n l x px r
    simp only [bubble]
    split_ifs with hlt
    · rcases hd : f.dir with _ | _
      · rw [ctxBefore_L c hd, ctxAfter_L c hd]; simp only [ih, Tree.vals]; simp
      · rw [ctxBefore_R c hd, ctxAfter_R c hd]; simp only [ih, Tree.vals]; simp
    · rw [vals_plug]; rfl

/-- The BST property is the same as a strictly increasing in-order sequence. -/
theorem isBST_iff_sorted {V : TreapValue T} (tot : TotalOrder V) (t : Tree T) :
    t.IsBST V ↔ t.vals.Pairwise fun a b => V.Compare a b < 0 := by
  induction t with
  | nil => simp [Tree.IsBST, Tree.vals]
  | node i l v p r ihl ihr =>
    simp only [Tree.IsBST, Tree.vals, List.pairwise_append, List.pairwise_cons, List.mem_cons, ihl, ihr]
    constructor
    · rintro ⟨hl, hr, sl, sr⟩
      refine ⟨sl, ⟨fun b hb => (tot.gt_iff b v).1 (hr b hb), sr⟩, ?_⟩
      rintro a ha b (rfl | hb)
      · exact hl a ha
      · exact tot.lt_trans (hl a ha) ((tot.gt_iff b v).1 (hr b hb))
    · rintro ⟨sl, ⟨hr, sr⟩, hlr⟩
      exact ⟨fun w hw => hlr w hw v (Or.inl rfl), fun w hw => (tot.gt_iff w v).2 (hr w hw), sl, sr⟩

theorem descend_bounds {V : TreapValue T} (tot : TotalOrder V) (x : T) (t : Tree T) :
    ∀ (c : List (Frame T)), (t.vals.Pairwise fun a b => V.Compare a b < 0) →
      (∀ a ∈ ctxBefore c, V.Compare a x < 0) → (∀ b ∈ ctxAfter c, V.Compare x b < 0) →
      (∀ a ∈ ctxBefore (descend V x t c).1, V.Compare a x < 0) ∧
      (∀ b ∈ ctxAfter (descend V x t c).1, V.Compare x b < 0) ∧
      ((descend V x t c).2 = .nil ∨
        ∃ j l v p r, (descend V x t c).2 = .node j l v p r ∧ V.Compare v x = 0) := by
  induction t with
  | nil => intro c _ hb ha; exact ⟨hb, ha, Or.inl rfl⟩
  | node i l v p r ihl ihr =>
    intro c hs hb ha
    simp only [Tree.vals, List.pairwise_append, List.pairwise_cons, List.mem_cons] at hs
    obtain ⟨sl, ⟨hvr, sr⟩, hlr⟩ := hs
    simp only [descend]
    split_ifs with h0 hgt
    · exact ⟨hb, ha, Or.inr ⟨i, l, v, p, r, rfl, h0⟩⟩
    · have hxv : V.Compare x v < 0 := (tot.1 x v).2 hgt
      refine ihl _ sl ?_ ?_
      · rw [ctxBefore_L c rfl]; exact hb
      · rw [ctxAfter_L c rfl]
        intro b hbm
        simp only [List.cons_append, List.mem_cons, List.mem_append] at hbm
        rcases hbm with rfl | hbm | hbm
        · exact hxv
        · exact tot.lt_trans hxv (hvr b hbm)
        · exact ha b hbm
    · have hvx : V.Compare v x < 0 := by omega
      refine ihr _ sr ?_ ?_
      · rw [ctxBefore_R c rfl]
        intro a ham
        simp only [List.mem_append, List.mem_singleton] at ham
        rcases ham with (ham | ham) | rfl
        · exact hb a ham
        · exact tot.lt_trans (hlr a ham v (Or.inl rfl)) hvx
        · exact hvx
      · rw [ctxAfter_R c rfl]; exact ha

theorem pairwise_replace {V : TreapValue T} (tot : TotalOrder V) {A B : List T} {v m : T}
    (hs : (A ++ v :: B).Pairwise fun a b => V.Compare a b < 0) (hm : V.Compare m v = 0) :
    (A ++ m :: B).Pairwise fun a b => V.Compare a b < 0 := by
  simp only [List.pairwise_append, List.pairwise_cons, List.mem_cons] at hs ⊢
  obtain ⟨sA, ⟨hvB, sB⟩, hAB⟩ := hs
  have hvm := tot.eq_symm hm
  refine ⟨sA, ⟨fun b hb => tot.lt_of_le_of_lt (by omega) (hvB b hb), sB⟩, ?_⟩
  rintro a ha b (rfl | hb)
  · exact tot.lt_of_lt_of_le (hAB a ha v (Or.inl rfl)) (by omega)
  · exact hAB a ha b (Or.inr hb)

/-- `Insert` keeps the in-order sequence strictly increasing. -/
theorem sorted_insert {V : TreapValue T} (tot : TotalOrder V) (mk : MergeKeepsKey V)
    (tr : Tree T) (x : T) (pr n : Nat) (hs : tr.vals.Pairwise fun a b => V.Compare a b < 0) :
    (Tree.insert V tr x pr n).vals.Pairwise fun a b => V.Compare a b < 0 := by
  have hplug := descend_plug V x tr []
  obtain ⟨hb, ha, hcase⟩ := descend_bounds tot x tr [] hs
    (by intro a h; simp [ctxBefore] at h) (by intro a h; simp [ctxAfter] at h)
  unfold Tree.insert
  rcases hd : descend V x tr [] with ⟨c2, t2⟩
  rw [hd] at hplug hb ha hcase
  simp only [plug] at hplug hb ha hcase
  rw [← hplug, vals_plug] at hs
  cases t2 with
  | nil =>
    simp only [vals_bubble, Tree.vals, List.nil_append]
    simp only [Tree.vals, List.append_nil, List.pairwise_append] at hs
    simp only [List.pairwise_append, List.pairwise_cons, List.mem_append, List.mem_singleton,
      List.Pairwise.nil, and_true, List.not_mem_nil, false_implies, implies_true, true_and]
    refine ⟨⟨hs.1, fun a ham b hbx => hbx ▸ hb a ham⟩, hs.2.1, ?_⟩
    rintro a (ham | rfl) b hbm
    · exact hs.2.2 a ham b hbm
    · exact ha b hbm
  | node j l2 v2 p2 r2 =>
    rcases hcase with hc | ⟨j', l', v', p', r', hc, h0⟩
    · cases hc
    · simp only [Tree.node.injEq] at hc
      obtain ⟨rfl, rfl, rfl, rfl, rfl⟩ := hc
      simp only [vals_plug, Tree.vals]
      have e1 : ctxBefore c2 ++ (l2.vals ++ v2 :: r2.vals) ++ ctxAfter c2 =
          (ctxBefore c2 ++ l2.vals) ++ v2 :: (r2.vals ++ ctxAfter c2) := by simp
      have e2 : ctxBefore c2 ++ (l2.vals ++ V.Merge v2 x :: r2.vals) ++ ctxAfter c2 =
          (ctxBefore c2 ++ l2.vals) ++ V.Merge v2 x :: (r2.vals ++ ctxAfter c2) := by simp
      simp only [Tree.vals] at hs
      rw [e1] at hs
      rw [e2]
      exact pairwise_replace tot hs (mk v2 x h0)

theorem sorted_insertAll {V : TreapValue T} (tot : TotalOrder V) (mk : MergeKeepsKey V)
    (ops : List (T × Nat)) : ∀ (tr : Tree T), (tr.vals.Pairwise fun a b => V.Compare a b < 0) →
      (Tree.insertAll V tr ops).vals.Pairwise fun a b => V.Compare a b < 0 := by
  induction ops with
  | nil => intro tr h; exact h
  | cons op rest ih =>
    intro tr h
    exact ih _ (sorted_insert tot mk tr op.1 op.2 _ h)

theorem TotalOrder.le_flip {V : TreapValue T} (tot : TotalOrder V) {a b : T}
    (h : V.Compare a b ≥ 0) : V.Compare b a ≤ 0 := by
  have h1 := tot.1 b a
  have h2 := tot.1 a b
  omega

theorem entries_mem_vals {t : Tree T} {i : Nat} {v : T} (h : (i, v) ∈ t.entries) : v ∈ t.vals := by
  rw [← entries_vals]
  exact List.mem_map.2 ⟨(i, v), h, rfl⟩

/-- The loop of `Neighbors` on a held subtree: the floor component is the greatest node not
above the probe if there is one in the subtree, else the incoming candidate; likewise the
ceiling. -/
theorem neighborsLoop_spec {V : TreapValue T} (tot : TotalOrder V) {h : Heap T} (x : T) (t : Tree T) :
    ∀ (par : Option Nat) (fuel : Nat) (llp lrp : Option Nat), Repr h par t →
      (t.vals.Pairwise fun a b => V.Compare a b < 0) → t.ids.length < fuel →
      ∃ f c, neighborsLoop V h x fuel t.rootPtr llp lrp = some (f, c) ∧
        ((f = lrp ∧ ∀ w ∈ t.vals, ¬ V.Compare w x ≤ 0) ∨
          (∃ i v, f = some i ∧ (i, v) ∈ t.entries ∧ V.Compare v x ≤ 0 ∧
            ∀ w ∈ t.vals, V.Compare w x ≤ 0 → V.Compare w v ≤ 0)) ∧
        ((c = llp ∧ ∀ w ∈ t.vals, ¬ V.Compare w x ≥ 0) ∨
          (∃ i v, c = some i ∧ (i, v) ∈ t.entries ∧ V.Compare v x ≥ 0 ∧
            ∀ w ∈ t.vals, V.Compare w x ≥ 0 → V.Compare v w ≤ 0)) := by
  induction t with
  | nil =>
    intro par fuel llp lrp _ _ hf
    obtain ⟨k, rfl⟩ : ∃ k, fuel = k + 1 := ⟨fuel - 1, by simp [Tree.ids] at hf; omega⟩
    refine ⟨lrp, llp, rfl, Or.inl ⟨rfl, ?_⟩, Or.inl ⟨rfl, ?_⟩⟩ <;> simp [Tree.vals]
  | node i l v p r ihl ihr =>
    intro par fuel llp lrp hr hs hf
    obtain ⟨k, rfl⟩ : ∃ k, fuel = k + 1 := ⟨fuel - 1, by omega⟩
    obtain ⟨hn, hl, hrr⟩ := hr
    simp only [Tree.vals, List.pairwise_append, List.pairwise_cons, List.mem_cons] at hs
    obtain ⟨sl, ⟨hvr, sr⟩, hlr⟩ := hs
    have hlen : (Tree.node i l v p r).ids.length = l.ids.length + r.ids.length + 1 := by
      simp [Tree.ids]; omega
    have hmemv : ∀ w, w ∈ (Tree.node i l v p r).vals ↔ w ∈ l.vals ∨ w = v ∨ w ∈ r.vals := by
      intro w; simp [Tree.vals]
    have hlv : ∀ w ∈ l.vals, V.Compare w v < 0 := fun w hw => hlr w hw v (Or.inl rfl)
    by_cases h0 : V.Compare v x = 0
    · refine ⟨some i, some i, ?_, Or.inr ⟨i, v, rfl, ?_, by omega, ?_⟩,
        Or.inr ⟨i, v, rfl, ?_, by omega, ?_⟩⟩
      · simp [neighborsLoop, Tree.rootPtr, load, hn, h0]
      · simp [Tree.entries]
      · intro w _ hw
        exact tot.2 w x v hw (by have := tot.eq_symm h0; omega)
      · simp [Tree.entries]
      · intro w _ hw
        exact tot.2 v x w (by omega) (tot.le_flip hw)
    · by_cases hgt : V.Compare v x > 0
      · have hxv : V.Compare x v < 0 := (tot.1 x v).2 hgt
        obtain ⟨f, c, e, hfl, hce⟩ := ihl (some i) k (some i) lrp hl sl (by omega)
        refine ⟨f, c, ?_, ?_, ?_⟩
        · simp [neighborsLoop, Tree.rootPtr, load, hn, h0, hgt]
          exact e
        · have hbig : ∀ w, w = v ∨ w ∈ r.vals → ¬ V.Compare w x ≤ 0 := by
            rintro w (rfl | hw) hle
            · omega
            · have := tot.lt_of_lt_of_le (tot.lt_trans hxv (hvr w hw)) hle
              have := tot.refl x
              omega
          rcases hfl with ⟨hf1, hf2⟩ | ⟨j, vj, hf1, hf2, hf3, hf4⟩
          · left
            refine ⟨hf1, fun w hw => ?_⟩
            rcases (hmemv w).1 hw with hw | hw
            · exact hf2 w hw
            · exact hbig w hw
          · right
            refine ⟨j, vj, hf1, by simp [Tree.entries, hf2], hf3, fun w hw hle => ?_⟩
            rcases (hmemv w).1 hw with hw | hw
            · exact hf4 w hw hle
            · exact absurd hle (hbig w hw)
        · right
          rcases hce with ⟨hc1, hc2⟩ | ⟨j, vj, hc1, hc2, hc3, hc4⟩
          · refine ⟨i, v, hc1, by simp [Tree.entries], by omega, fun w hw hge => ?_⟩
            rcases (hmemv w).1 hw with hw | rfl | hw
            · exact absurd hge (hc2 w hw)
            · have := tot.refl w; omega
            · have := hvr w hw; omega
          · refine ⟨j, vj, hc1, by simp [Tree.entries, hc2], hc3, fun w hw hge => ?_⟩
            have hjv := hlv vj (entries_mem_vals hc2)
            rcases (hmemv w).1 hw with hw | rfl | hw
            · exact hc4 w hw hge
            · omega
            · have := tot.lt_trans hjv (hvr w hw); omega
      · have hvx : V.Compare v x < 0 := by omega
        obtain ⟨f, c, e, hfl, hce⟩ := ihr (some i) k llp (some i) hrr sr (by omega)
        refine ⟨f, c, ?_, ?_, ?_⟩
        · simp [neighborsLoop, Tree.rootPtr, load, hn, h0, hgt]
          exact e
        · right
          rcases hfl with ⟨hf1, hf2⟩ | ⟨j, vj, hf1, hf2, hf3, hf4⟩
          · refine ⟨i, v, hf1, by simp [Tree.entries], by omega, fun w hw hle => ?_⟩
            rcases (hmemv w).1 hw with hw | rfl | hw
            · have := hlv w hw; omega
            · have := tot.refl w; omega
            · exact absurd hle (hf2 w hw)
          · refine ⟨j, vj, hf1, by simp [Tree.entries, hf2], hf3, fun w hw hle => ?_⟩
            have hjv := hvr vj (entries_mem_vals hf2)
            rcases (hmemv w).1 hw with hw | rfl | hw
            · have := tot.lt_trans (hlv w hw) hjv; omega
            · omega
            · exact hf4 w hw hle
        · have hsmall : ∀ w, w ∈ l.vals ∨ w = v → ¬ V.Compare w x ≥ 0 := by
            rintro w (hw | rfl) hge
            · have := tot.lt_of_lt_of_le (tot.lt_trans (hlv w hw) hvx) (tot.le_flip hge)
              have := tot.refl w
              omega
            · omega
          rcases hce with ⟨hc1, hc2⟩ | ⟨j, vj, hc1, hc2, hc3, hc4⟩
          · left
            refine ⟨hc1, fun w hw => ?_⟩
            rcases (hmemv w).1 hw with hw | hw | hw
            · exact hsmall w (Or.inl hw)
            · exact hsmall w (Or.inr hw)
            · exact hc2 w hw
          · right
            refine ⟨j, vj, hc1, by simp [Tree.entries, hc2], hc3, fun w hw hge => ?_⟩
            rcases (hmemv w).1 hw with hw | hw | hw
            · exact absurd hge (hsmall w (Or.inl hw))
            · exact absurd hge (hsmall w (Or.inr hw))
            · exact hc4 w hw hge

theorem mem_ids_entry {t : Tree T} {i : Nat} (hi : i ∈ t.ids) : ∃ v, (i, v) ∈ t.entries := by
  rw [← entries_ids, List.mem_map] at hi
  obtain ⟨⟨i2, v⟩, hm, rfl⟩ := hi
  exact ⟨v, hm⟩

theorem entries_sorted {V : TreapValue T} {t : Tree T}
    (hs : t.vals.Pairwise fun a b => V.Compare a b < 0) :
    t.entries.Pairwise fun a b => V.Compare a.2 b.2 < 0 := by
  rw [← entries_vals, List.pairwise_map] at hs
  exact hs

/-- In a sorted tree two entries with equivalent values are the same entry. -/
theorem entry_unique {V : TreapValue T} (tot : TotalOrder V) {t : Tree T}
    (hs : t.vals.Pairwise fun a b => V.Compare a b < 0) {a b : Nat × T}
    (ha : a ∈ t.entries) (hb : b ∈ t.entries) (he : V.Compare a.2 b.2 = 0) : a = b := by
  by_contra hne
  have hsym : (t.entries.Pairwise fun a b => V.Compare a.2 b.2 < 0 ∨ V.Compare b.2 a.2 < 0) :=
    (entries_sorted hs).imp fun h => Or.inl h
  have := hsym.forall (fun x y h => h.symm) ha hb hne
  have h1 := tot.1 b.2 a.2
  rcases this with h | h <;> omega

/-- The cell of a node of a held treap stores the entry's value. -/
theorem Holds_cell {t : Treap T} {tr : Tree T} (hh : t.Holds tr) {i : Nat} {nd : TreapNode T}
    (hg : t.heap[i]? = some nd) : (i, nd.Value) ∈ tr.entries := by
  obtain ⟨_, hrep, _, hids⟩ := hh
  obtain ⟨v, hv⟩ := mem_ids_entry ((hids i).2 (lt_of_get hg))
  obtain ⟨nd2, hg2, rfl⟩ := Repr_entries hrep i v hv
  rw [hg] at hg2
  cases hg2
  exact hv

theorem Holds_distinct {V : TreapValue T} (tot : TotalOrder V) {t : Treap T} {tr : Tree T}
    (hh : t.Holds tr) (hs : tr.vals.Pairwise fun a b => V.Compare a b < 0)
    {i j : Nat} {ndi ndj : TreapNode T} (hij : i ≠ j)
    (hi : t.heap[i]? = some ndi) (hj : t.heap[j]? = some ndj) :
    V.Compare ndi.Value ndj.Value ≠ 0 := by
  intro he
  have := entry_unique tot hs (Holds_cell hh hi) (Holds_cell hh hj) he
  simp only [Prod.mk.injEq] at this
  exact hij this.1

/-- A memory holds at most one tree below a given pointer. -/
theorem Repr_unique {h : Heap T} (t : Tree T) : ∀ (t2 : Tree T) (par par2 : Option Nat),
    Repr h par t → Repr h par2 t2 → t.rootPtr = t2.rootPtr → t = t2 := by
  induction t with
  | nil =>
    intro t2 par par2 _ _ hr
    cases t2 with
    | nil => rfl
    | node j l v p r => cases hr
  | node i l v p r ihl ihr =>
    intro t2 par par2 h1 h2 hr
    cases t2 with
    | nil => cases hr
    | node j l2 v2 p2 r2 =>
      simp only [Tree.rootPtr, Option.some.injEq] at hr
      subst hr
      obtain ⟨c1, hl1, hr1⟩ := h1
      obtain ⟨c2, hl2, hr2⟩ := h2
      rw [c1] at c2
      simp only [Option.some.injEq, TreapNode.mk.injEq] at c2
      obtain ⟨rfl, rfl, _, el, er⟩ := c2
      rw [ihl l2 _ _ hl1 hl2 el, ihr r2 _ _ hr1 hr2 er]

theorem Holds_unique {t : Treap T} {tr tr2 : Tree T} (h1 : t.Holds tr) (h2 : t.Holds tr2) :
    tr = tr2 :=
  Repr_unique tr tr2 none none h1.2.1 h2.2.1 (h1.1.symm.trans h2.1)

/-- In a held heap-ordered tree every child cell has a priority not above its parent's. -/
theorem Repr_heap {h : Heap T} {t : Tree T} : ∀ {par : Option Nat}, Repr h par t → t.IsHeap →
    ∀ i ∈ t.ids, ∀ nd, h[i]? = some nd →
      (∀ c, nd.left = some c → ∃ cn, h[c]? = some cn ∧ cn.parent = some i ∧ cn.priority ≤ nd.priority) ∧
      (∀ c, nd.right = some c → ∃ cn, h[c]? = some cn ∧ cn.parent = some i ∧ cn.priority ≤ nd.priority) := by
  induction t with
  | nil => intro par _ _ i hi; simp [Tree.ids] at hi
  | node j l v p r ihl ihr =>
    intro par hr hh i hi nd hg
    obtain ⟨hn, hl, hrr⟩ := hr
    obtain ⟨hlp, hrp, hlh, hrh⟩ := hh
    simp only [Tree.ids, List.mem_append, List.mem_cons] at hi
    rcases hi with hi | rfl | hi
    · exact ihl hl hlh i hi nd hg
    · rw [hn] at hg
      cases hg
      constructor
      · intro c hc
        cases l with
        | nil => cases hc
        | node li ll lv lp lr =>
          simp only [Tree.rootPtr, Option.some.injEq] at hc
          subst hc
          exact ⟨_, hl.1, rfl, hlp lp rfl⟩
      · intro c hc
        cases r with
        | nil => cases hc
        | node ri rl rv rp rr =>
          simp only [Tree.rootPtr, Option.some.injEq] at hc
          subst hc
          exact ⟨_, hrr.1, rfl, hrp rp rfl⟩
    · exact ihr hrr hrh i hi nd hg

/-- `Neighbors` on a treap holding a sorted tree: it terminates, and its components are the
greatest entry not above the probe and the least entry not below it, when they exist. -/
theorem Neighbors_spec {V : TreapValue T} (tot : TotalOrder V) {t : Treap T} {tr : Tree T}
    (hh : t.Holds tr) (hs : tr.vals.Pairwise fun a b => V.Compare a b < 0) (x : T) :
    ∃ f c, t.Neighbors V x = some (f, c) ∧
      ((f = none ∧ ∀ w ∈ tr.vals, ¬ V.Compare w x ≤ 0) ∨
        (∃ i v, f = some i ∧ (i, v) ∈ tr.entries ∧ V.Compare v x ≤ 0 ∧
          ∀ w ∈ tr.vals, V.Compare w x ≤ 0 → V.Compare w v ≤ 0)) ∧
      ((c = none ∧ ∀ w ∈ tr.vals, ¬ V.Compare w x ≥ 0) ∨
        (∃ i v, c = some i ∧ (i, v) ∈ tr.entries ∧ V.Compare v x ≥ 0 ∧
          ∀ w ∈ tr.vals, V.Compare w x ≥ 0 → V.Compare v w ≤ 0)) := by
  have hlen := Holds_length hh
  obtain ⟨f, c, e, hf, hc⟩ := neighborsLoop_spec tot x tr none (t.heap.length + 1) none none
    hh.2.1 hs (by omega)
  refine ⟨f, c, ?_, hf, hc⟩
  unfold Treap.Neighbors
  rw [hh.1]
  exact e

/-- The floor component, stated on the memory cells. -/
theorem floor_cells {V : TreapValue T} (tot : TotalOrder V) {t : Treap T} {tr : Tree T}
    (hh : t.Holds tr) (hs : tr.vals.Pairwise fun a b => V.Compare a b < 0) (x : T) :
    ∃ f c, t.Neighbors V x = some (f, c) ∧
      (f = none ↔ ∀ nd ∈ t.heap, ¬ V.Compare nd.Value x ≤ 0) ∧
      (∀ i, f = some i → ∃ nd : TreapNode T, t.heap[i]? = some nd ∧ V.Compare nd.Value x ≤ 0 ∧
        ∀ nd2 ∈ t.heap, V.Compare nd2.Value x ≤ 0 → V.Compare nd2.Value nd.Value ≤ 0) ∧
      (c = none ↔ ∀ nd ∈ t.heap, ¬ V.Compare nd.Value x ≥ 0) ∧
      (∀ i, c = some i → ∃ nd : TreapNode T, t.heap[i]? = some nd ∧ V.Compare nd.Value x ≥ 0 ∧
        ∀ nd2 ∈ t.heap, V.Compare nd2.Value x ≥ 0 → V.Compare nd.Value nd2.Value ≤ 0) := by
  obtain ⟨f, c, e, hf, hc⟩ := Neighbors_spec tot hh hs x
  have hval : ∀ nd ∈ t.heap, nd.Value ∈ tr.vals := fun nd hm =>
    (Holds_values hh nd.Value).1 ⟨nd, hm, rfl⟩
  refine ⟨f, c, e, ?_, ?_, ?_, ?_⟩
  · rcases hf with ⟨h1, h2⟩ | ⟨i, v, h1, h2, h3, _⟩
    · exact ⟨fun _ nd hm => h2 _ (hval nd hm), fun _ => h1⟩
    · obtain ⟨nd, hg, rfl⟩ := Repr_entries hh.2.1 i v h2
      constructor
      · intro hn; rw [h1] at hn; cases hn
      · intro hall
        exact absurd h3 (hall nd (List.getElem?_mem hg))
  · intro i hi
    rcases hf with ⟨h1, _⟩ | ⟨j, v, h1, h2, h3, h4⟩
    · rw [h1] at hi; cases hi
    · rw [h1] at hi
      simp only [Option.some.injEq] at hi
      subst hi
      obtain ⟨nd, hg, rfl⟩ := Repr_entries hh.2.1 j v h2
      exact ⟨nd, hg, h3, fun nd2 hm hle => h4 _ (hval nd2 hm) hle⟩
  · rcases hc with ⟨h1, h2⟩ | ⟨i, v, h1, h2, h3, _⟩
    · exact ⟨fun _ nd hm => h2 _ (hval nd hm), fun _ => h1⟩
    · obtain ⟨nd, hg, rfl⟩ := Repr_entries hh.2.1 i v h2
      constructor
      · intro hn; rw [h1] at hn; cases hn
      · intro hall
        exact absurd h3 (hall nd (List.getElem?_mem hg))
  · intro i hi
    rcases hc with ⟨h1, _⟩ | ⟨j, v, h1, h2, h3, h4⟩
    · rw [h1] at hi; cases hi
    · rw [h1] at hi
      simp only [Option.some.injEq] at hi
      subst hi
      obtain ⟨nd, hg, rfl⟩ := Repr_entries hh.2.1 j v h2
      exact ⟨nd, hg, h3, fun nd2 hm hle => h4 _ (hval nd2 hm) hle⟩

/-- On an exact match both components of `Neighbors` are the matching node. -/
theorem Neighbors_exact {V : TreapValue T} (tot : TotalOrder V) {t : Treap T} {tr : Tree T}
    (hh : t.Holds tr) (hs : tr.vals.Pairwise fun a b => V.Compare a b < 0) (x : T)
    {i : Nat} {nd : TreapNode T} (hg : t.heap[i]? = some nd) (he : V.Compare nd.Value x = 0) :
    t.Neighbors V x = some (some i, some i) := by
  obtain ⟨f, c, e, hf, hc⟩ := Neighbors_spec tot hh hs x
  have hent := Holds_cell hh hg
  have hv := entries_mem_vals hent
  have hxe := tot.eq_symm he
  have hf2 : f = some i := by
    rcases hf with ⟨_, h2⟩ | ⟨j, v, h1, h2, h3, h4⟩
    · exact absurd (by omega) (h2 _ hv)
    · have h5 := h4 _ hv (by omega)
      have h6 := tot.2 v x nd.Value h3 (by omega)
      have h7 := tot.1 nd.Value v
      have h8 := tot.1 v nd.Value
      have := entry_unique tot hs hent h2 (by show V.Compare nd.Value v = 0; omega)
      simp only [Prod.mk.injEq] at this
      rw [h1, this.1]
  have hc2 : c = some i := by
    rcases hc with ⟨_, h2⟩ | ⟨j, v, h1, h2, h3, h4⟩
    · exact absurd (by omega) (h2 _ hv)
    · have h5 := h4 _ hv (by omega)
      have h6 := tot.2 nd.Value x v (by omega) (tot.le_flip h3)
      have h7 := tot.1 nd.Value v
      have h8 := tot.1 v nd.Value
      have := entry_unique tot hs hent h2 (by show V.Compare nd.Value v = 0; omega)
      simp only [Prod.mk.injEq] at this
      rw [h1, this.1]
  rw [e, hf2, hc2]

theorem ids_ne_nil_of_root {t : Tree T} {i : Nat} (h : t.rootPtr = some i) : t.ids ≠ [] := by
  cases t with
  | nil => cases h
  | node j l v p r => simp [Tree.ids]

/-- The loop of `Min` ends on the first node in in-order. -/
theorem leftmost_spec {h : Heap T} (t : Tree T) : ∀ (par : Option Nat) (fuel i : Nat),
    Repr h par t → t.rootPtr = some i → t.ids.length < fuel + 1 →
    (leftmost h fuel i).map some = some t.ids.head? := by
  induction t with
  | nil => intro par fuel i _ hi; cases hi
  | node j l v p r ihl _ =>
    intro par fuel i hr hi hf
    simp only [Tree.rootPtr, Option.some.injEq] at hi
    subst hi
    have hlen : (Tree.node j l v p r).ids.length = l.ids.length + r.ids.length + 1 := by
      simp [Tree.ids]; omega
    obtain ⟨k, rfl⟩ : ∃ k, fuel = k + 1 := ⟨fuel - 1, by omega⟩
    obtain ⟨hn, hl, _⟩ := hr
    cases l with
    | nil => simp [leftmost, load, hn, Tree.rootPtr, Tree.ids]
    | node li ll lv lp lr =>
      have := ihl (some j) k li hl rfl (by omega)
      simp only [leftmost, load, hn, Tree.rootPtr, Option.bind_eq_bind, Option.some_bind]
      rw [this]
      simp [Tree.ids]

/-- The loop of `Max` ends on the last node in in-order. -/
theorem rightmost_spec {h : Heap T} (t : Tree T) : ∀ (par : Option Nat) (fuel i : Nat),
    Repr h par t → t.rootPtr = some i → t.ids.length < fuel + 1 →
    (rightmost h fuel i).map some = some t.ids.getLast? := by
  induction t with
  | nil => intro par fuel i _ hi; cases hi
  | node j l v p r _ ihr =>
    intro par fuel i hr hi hf
    simp only [Tree.rootPtr, Option.some.injEq] at hi
    subst hi
    have hlen : (Tree.node j l v p r).ids.length = l.ids.length + r.ids.length + 1 := by
      simp [Tree.ids]; omega
    obtain ⟨k, rfl⟩ : ∃ k, fuel = k + 1 := ⟨fuel - 1, by omega⟩
    obtain ⟨hn, _, hrr⟩ := hr
    cases r with
    | nil => simp [rightmost, load, hn, Tree.rootPtr, Tree.ids]
    | node ri rl rv rp rr =>
      have := ihr (some j) k ri hrr rfl (by omega)
      simp only [rightmost, load, hn, Tree.rootPtr, Option.bind_eq_bind, Option.some_bind]
      rw [this]
      simp only [Tree.ids]
      have e1 : l.ids ++ j :: (rl.ids ++ ri :: rr.ids) = (l.ids ++ j :: rl.ids) ++ ri :: rr.ids := by
        simp
      rw [e1, List.getLast?_append_cons, List.getLast?_append_cons]

theorem Min_spec {t : Treap T} {tr : Tree T} (hh : t.Holds tr) : t.Min = some tr.ids.head? := by
  have hlen := Holds_length hh
  unfold Treap.Min
  rw [hh.1]
  cases tr with
  | nil => rfl
  | node j l v p r => exact leftmost_spec _ none _ j hh.2.1 rfl (by omega)

theorem Max_spec {t : Treap T} {tr : Tree T} (hh : t.Holds tr) :
    t.Max = some tr.ids.getLast? := by
  have hlen := Holds_length hh
  unfold Treap.Max
  rw [hh.1]
  cases tr with
  | nil => rfl
  | node j l v p r => exact rightmost_spec _ none _ j hh.2.1 rfl (by omega)

theorem Holds_empty_iff {t : Treap T} {tr : Tree T} (hh : t.Holds tr) :
    tr.ids = [] ↔ t.heap = [] := by
  have := Holds_length hh
  rw [← List.length_eq_zero, ← this, List.length_eq_zero]

/-- The first entry of a sorted tree is below or equivalent to every stored value. -/
theorem head_is_min {V : TreapValue T} (tot : TotalOrder V) {t : Treap T} {tr : Tree T}
    (hh : t.Holds tr) (hs : tr.vals.Pairwise fun a b => V.Compare a b < 0) {i : Nat}
    (hi : tr.ids.head? = some i) :
    ∃ nd : TreapNode T, t.heap[i]? = some nd ∧
      ∀ nd2 ∈ t.heap, V.Compare nd.Value nd2.Value ≤ 0 := by
  rw [← entries_ids, List.head?_map] at hi
  rcases he : tr.entries.head? with _ | ⟨i2, v⟩
  · rw [he] at hi; cases hi
  · rw [he] at hi
    simp only [Option.map_some', Option.some.injEq] at hi
    subst hi
    obtain ⟨rest, hrest⟩ := List.head?_eq_some_iff.1 he
    have hsorted := entries_sorted hs
    rw [hrest, List.pairwise_cons] at hsorted
    obtain ⟨nd, hg, rfl⟩ := Repr_entries hh.2.1 i2 v (by rw [hrest]; simp)
    refine ⟨nd, hg, fun nd2 hm => ?_⟩
    obtain ⟨j, hj⟩ := List.mem_iff_getElem?.1 hm
    have hcell := Holds_cell hh hj
    rw [hrest, List.mem_cons] at hcell
    rcases hcell with hc | hc
    · simp only [Prod.mk.injEq] at hc
      rw [hc.2]
      have := tot.refl nd.Value
      omega
    · have := hsorted.1 _ hc
      simp only at this
      omega

/-- The last entry of a sorted tree is above or equivalent to every stored value. -/
theorem last_is_max {V : TreapValue T} (tot : TotalOrder V) {t : Treap T} {tr : Tree T}
    (hh : t.Holds tr) (hs : tr.vals.Pairwise fun a b => V.Compare a b < 0) {i : Nat}
    (hi : tr.ids.getLast? = some i) :
    ∃ nd : TreapNode T, t.heap[i]? = some nd ∧
      ∀ nd2 ∈ t.heap, V.Compare nd2.Value nd.Value ≤ 0 := by
  rw [← entries_ids, List.getLast?_map] at hi
  rcases he : tr.entries.getLast? with _ | ⟨i2, v⟩
  · rw [he] at hi; cases hi
  · rw [he] at hi
    simp only [Option.map_some', Option.some.injEq] at hi
    subst hi
    obtain ⟨rest, hrest⟩ := List.getLast?_eq_some_iff.1 he
    have hsorted := entries_sorted hs
    rw [hrest, List.pairwise_append] at hsorted
    obtain ⟨nd, hg, rfl⟩ := Repr_entries hh.2.1 i2 v (by rw [hrest]; simp)
    refine ⟨nd, hg, fun nd2 hm => ?_⟩
    obtain ⟨j, hj⟩ := List.mem_iff_getElem?.1 hm
    have hcell := Holds_cell hh hj
    rw [hrest, List.mem_append, List.mem_singleton] at hcell
    rcases hcell with hc | hc
    · have := hsorted.2.2 _ hc (i2, nd.Value) (by simp)
      simp only at this
      omega
    · simp only [Prod.mk.injEq] at hc
      rw [hc.2]
      have := tot.refl nd.Value
      omega

theorem ctxBeforeIds_L {f : Frame T} (c : List (Frame T)) (hd : f.dir = .L) :
    ctxBeforeIds (f :: c) = ctxBeforeIds c := by
  simp only [ctxBeforeIds, hd]

theorem ctxBeforeIds_R {f : Frame T} (c : List (Frame T)) (hd : f.dir = .R) :
    ctxBeforeIds (f :: c) = ctxBeforeIds c ++ f.sib.ids ++ [f.id] := by
  simp only [ctxBeforeIds, hd]

theorem ctxAfterIds_L {f : Frame T} (c : List (Frame T)) (hd : f.dir = .L) :
    ctxAfterIds (f :: c) = f.id :: f.sib.ids ++ ctxAfterIds c := by
  simp only [ctxAfterIds, hd]

theorem ctxAfterIds_R {f : Frame T} (c : List (Frame T)) (hd : f.dir = .R) :
    ctxAfterIds (f :: c) = ctxAfterIds c := by
  simp only [ctxAfterIds, hd]

/-- In-order addresses of a plugged tree. -/
theorem ids_plug_inorder (c : List (Frame T)) : ∀ (t : Tree T),
    (plug c t).ids = ctxBeforeIds c ++ t.ids ++ ctxAfterIds c := by
  induction c with
  | nil => intro t; simp [plug, ctxBeforeIds, ctxAfterIds]
  | cons f c ih =>
    intro t
    rw [plug, ih]
    rcases hd : f.dir with _ | _
    · rw [ctxBeforeIds_L c hd, ctxAfterIds_L c hd]
      simp [Frame.fill, hd, Tree.ids]
    · rw [ctxBeforeIds_R c hd, ctxAfterIds_R c hd]
      simp [Frame.fill, hd, Tree.ids]

/-- Every node of a tree is the top of a subtree at the end of some path. -/
theorem exists_zipper (t : Tree T) : ∀ (c0 : List (Frame T)) (i : Nat), i ∈ t.ids →
    ∃ c l v p r, plug c (.node i l v p r) = plug c0 t := by
  induction t with
  | nil => intro c0 i hi; simp [Tree.ids] at hi
  | node j l v p r ihl ihr =>
    intro c0 i hi
    simp only [Tree.ids, List.mem_append, List.mem_cons] at hi
    rcases hi with hi | rfl | hi
    · obtain ⟨c, l2, v2, p2, r2, e⟩ := ihl ({ id := j, v := v, p := p, dir := .L, sib := r } :: c0) i hi
      exact ⟨c, l2, v2, p2, r2, e⟩
    · exact ⟨c0, l, v, p, r, rfl⟩
    · obtain ⟨c, l2, v2, p2, r2, e⟩ := ihr ({ id := j, v := v, p := p, dir := .R, sib := l } :: c0) i hi
      exact ⟨c, l2, v2, p2, r2, e⟩

/-- The upward loop of `Successor` stops at the first ancestor reached from its left. -/
theorem climbRight_spec {h : Heap T} (c : List (Frame T)) : ∀ (cur fuel : Nat),
    ReprCtx h c (some cur) → (cur :: ctxIds c).Nodup → c.length < fuel →
    climbRight h fuel cur (ctxParent c) = some (ctxAfterIds c).head? := by
  induction c with
  | nil =>
    intro cur fuel _ _ hf
    obtain ⟨k, rfl⟩ : ∃ k, fuel = k + 1 := ⟨fuel - 1, by omega⟩
    rfl
  | cons f c ih =>
    intro cur fuel hc hnd hf
    obtain ⟨k, rfl⟩ : ∃ k, fuel = k + 1 := ⟨fuel - 1, by omega⟩
    obtain ⟨hcell, _, hrest⟩ := hc
    simp only [ctxIds, List.nodup_cons, List.nodup_append, List.mem_cons, List.mem_append,
      List.Disjoint, not_or] at hnd
    have hpar : ctxParent (f :: c) = some f.id := rfl
    rcases hd : f.dir with _ | _
    · have hsib : f.sib.rootPtr ≠ some cur := fun e => hnd.1.1.2 (rootPtr_mem_ids e)
      rw [ctxAfterIds_L c hd, hpar]
      simp [climbRight, load, hcell, Frame.cell, hd, hsib]
    · rw [ctxAfterIds_R c hd, hpar]
      have hnd2 : (f.id :: ctxIds c).Nodup := by
        rw [List.nodup_cons]
        exact ⟨fun hm => hnd.2.2.2 (Or.inl rfl) hm, hnd.2.2.1⟩
      have := ih f.id k hrest hnd2 (by simp only [List.length_cons] at hf; omega)
      simp [climbRight, load, hcell, Frame.cell, hd, this]

/-- The upward loop of `Predecessor` stops at the first ancestor reached from its right. -/
theorem climbLeft_spec {h : Heap T} (c : List (Frame T)) : ∀ (cur fuel : Nat),
    ReprCtx h c (some cur) → (cur :: ctxIds c).Nodup → c.length < fuel →
    climbLeft h fuel cur (ctxParent c) = some (ctxBeforeIds c).getLast? := by
  induction c with
  | nil =>
    intro cur fuel _ _ hf
    obtain ⟨k, rfl⟩ : ∃ k, fuel = k + 1 := ⟨fuel - 1, by omega⟩
    rfl
  | cons f c ih =>
    intro cur fuel hc hnd hf
    obtain ⟨k, rfl⟩ : ∃ k, fuel = k + 1 := ⟨fuel - 1, by omega⟩
    obtain ⟨hcell, _, hrest⟩ := hc
    simp only [ctxIds, List.nodup_cons, List.nodup_append, List.mem_cons, List.mem_append,
      List.Disjoint, not_or] at hnd
    have hpar : ctxParent (f :: c) = some f.id := rfl
    rcases hd : f.dir with _ | _
    · rw [ctxBeforeIds_L c hd, hpar]
      have hnd2 : (f.id :: ctxIds c).Nodup := by
        rw [List.nodup_cons]
        exact ⟨fun hm => hnd.2.2.2 (Or.inl rfl) hm, hnd.2.2.1⟩
      have := ih f.id k hrest hnd2 (by simp only [List.length_cons] at hf; omega)
      simp [climbLeft, load, hcell, Frame.cell, hd, this]
    · have hsib : f.sib.rootPtr ≠ some cur := fun e => hnd.1.1.2 (rootPtr_mem_ids e)
      rw [ctxBeforeIds_R c hd, hpar]
      simp [climbLeft, load, hcell, Frame.cell, hd, hsib]

theorem length_le_ctxIds (c : List (Frame T)) : c.length ≤ (ctxIds c).length := by
  induction c with
  | nil => simp
  | cons f c ih => simp only [ctxIds, List.length_cons, List.length_append]; omega

/-- Facts about a node at the end of a path in a held tree without repeated addresses. -/
theorem zipper_facts {h : Heap T} {c : List (Frame T)} {n : Nat} {l r : Tree T} {x : T} {px : Nat}
    (hr : Repr h none (plug c (.node n l x px r)))
    (hnd : (plug c (.node n l x px r)).ids.Nodup) :
    ReprCtx h c (some n) ∧
      h[n]? = some ⟨x, px, ctxParent c, l.rootPtr, r.rootPtr⟩ ∧
      Repr h (some n) l ∧ Repr h (some n) r ∧ (n :: ctxIds c).Nodup ∧
      l.ids.length < h.length + 1 ∧ r.ids.length < h.length + 1 ∧ c.length < h.length + 1 := by
  obtain ⟨hc, hn, hl, hrr⟩ := Repr_plug.1 hr
  have hnd2 : ((Tree.node n l x px r).ids ++ ctxIds c).Nodup :=
    (List.Perm.nodup_iff (ids_plug c _)).1 hnd
  have hlt : ∀ i ∈ (Tree.node n l x px r).ids ++ ctxIds c, i < h.length := by
    intro i hi
    exact Repr_lt hr i ((ids_plug c _).mem_iff.2 hi)
  have hlen := length_le_of_nodup_lt hnd2 hlt
  have hcl := length_le_ctxIds c
  simp only [Tree.ids, List.length_append, List.length_cons] at hlen
  refine ⟨hc, hn, hl, hrr, ?_, by omega, by omega, by omega⟩
  obtain ⟨_, _, _⟩ := nodup_facts3 hnd2
  rw [List.nodup_cons]
  exact ⟨by assumption, (List.nodup_append.1 hnd2).2.1⟩

/-- `Successor` of a node: the next address in in-order, if any. -/
theorem Successor_spec {h : Heap T} {c : List (Frame T)} {n : Nat} {l r : Tree T} {x : T} {px : Nat}
    (hr : Repr h none (plug c (.node n l x px r)))
    (hnd : (plug c (.node n l x px r)).ids.Nodup) :
    TreapNode.Successor h n = some (r.ids ++ ctxAfterIds c).head? := by
  obtain ⟨hc, hn, _, hrr, hnc, _, hrl, hcl⟩ := zipper_facts hr hnd
  cases r with
  | nil =>
    have := climbRight_spec c n (h.length + 1) hc hnc hcl
    simp [TreapNode.Successor, load, hn, Tree.rootPtr, Tree.ids, this]
  | node ri rl rv rp rr =>
    have := leftmost_spec _ (some n) (h.length + 1) ri hrr rfl (by omega)
    have hne : (Tree.node ri rl rv rp rr).ids ≠ [] := by simp [Tree.ids]
    rw [List.head?_append_of_ne_nil _ hne]
    simp only [TreapNode.Successor, load, hn, Tree.rootPtr, Option.bind_eq_bind, Option.some_bind]
    exact this

/-- `Predecessor` of a node: the previous address in in-order, if any. -/
theorem Predecessor_spec {h : Heap T} {c : List (Frame T)} {n : Nat} {l r : Tree T} {x : T} {px : Nat}
    (hr : Repr h none (plug c (.node n l x px r)))
    (hnd : (plug c (.node n l x px r)).ids.Nodup) :
    TreapNode.Predecessor h n = some (ctxBeforeIds c ++ l.ids).getLast? := by
  obtain ⟨hc, hn, hl, _, hnc, hll, _, hcl⟩ := zipper_facts hr hnd
  cases l with
  | nil =>
    have := climbLeft_spec c n (h.length + 1) hc hnc hcl
    simp [TreapNode.Predecessor, load, hn, Tree.rootPtr, Tree.ids, this]
  | node li ll lv lp lr =>
    have := rightmost_spec _ (some n) (h.length + 1) li hl rfl (by omega)
    have hne : (Tree.node li ll lv lp lr).ids ≠ [] := by simp [Tree.ids]
    rw [List.getLast?_append_of_ne_nil _ hne]
    simp only [TreapNode.Predecessor, load, hn, Tree.rootPtr, Option.bind_eq_bind,
      Option.some_bind]
    exact this

theorem split_unique {n : Nat} : ∀ {A A2 B B2 : List Nat}, (A ++ n :: B).Nodup →
    A ++ n :: B = A2 ++ n :: B2 → A = A2 ∧ B = B2 := by
  intro A
  induction A with
  | nil =>
    intro A2 B B2 hnd he
    cases A2 with
    | nil => simp only [List.nil_append, List.cons.injEq, true_and] at he; exact ⟨rfl, he⟩
    | cons a A3 =>
      simp only [List.nil_append, List.cons_append, List.cons.injEq] at he
      obtain ⟨rfl, rfl⟩ := he
      simp at hnd
  | cons a A1 ih =>
    intro A2 B B2 hnd he
    cases A2 with
    | nil =>
      simp only [List.nil_append, List.cons_append, List.cons.injEq] at he
      obtain ⟨rfl, rfl⟩ := he
      simp at hnd
    | cons a2 A3 =>
      simp only [List.cons_append, List.cons.injEq] at he
      obtain ⟨rfl, he⟩ := he
      have := ih (List.nodup_cons.1 hnd).2 he
      exact ⟨by rw [this.1], this.2⟩

/-- `Successor` and `Predecessor` of a node of a held tree are its in-order neighbours. -/
theorem neighbours_of_split {t : Treap T} {tr : Tree T} (hh : t.Holds tr) {A B : List Nat}
    {n : Nat} (hs : tr.ids = A ++ n :: B) :
    TreapNode.Successor t.heap n = some B.head? ∧
      TreapNode.Predecessor t.heap n = some A.getLast? := by
  obtain ⟨_, hrep, hnd, _⟩ := hh
  have hmem : n ∈ tr.ids := by rw [hs]; simp
  obtain ⟨c, l, v, p, r, e⟩ := exists_zipper tr [] n hmem
  simp only [plug] at e
  have hids := ids_plug_inorder c (.node n l v p r)
  rw [e, hs] at hids
  have e2 : ctxBeforeIds c ++ (Tree.node n l v p r).ids ++ ctxAfterIds c =
      (ctxBeforeIds c ++ l.ids) ++ n :: (r.ids ++ ctxAfterIds c) := by
    simp [Tree.ids]
  rw [e2] at hids
  obtain ⟨hA, hB⟩ := split_unique (hs ▸ hnd) hids
  rw [← e] at hrep hnd
  rw [hA, hB]
  exact ⟨Successor_spec hrep hnd, Predecessor_spec hrep hnd⟩

/-- Walking `Successor` from a node visits the rest of the in-order sequence and ends. -/
theorem successorWalk_spec {t : Treap T} {tr : Tree T} (hh : t.Holds tr) :
    ∀ (S A : List Nat), tr.ids = A ++ S → ∀ fuel, S.length < fuel →
      successorWalk t.heap fuel S.head? = some S := by
  intro S
  induction S with
  | nil =>
    intro A _ fuel hf
    obtain ⟨k, rfl⟩ : ∃ k, fuel = k + 1 := ⟨fuel - 1, by omega⟩
    rfl
  | cons n B ih =>
    intro A hs fuel hf
    obtain ⟨k, rfl⟩ : ∃ k, fuel = k + 1 := ⟨fuel - 1, by omega⟩
    have h1 := (neighbours_of_split hh hs).1
    have h2 := ih (A ++ [n]) (by rw [hs]; simp) k (by simp only [List.length_cons] at hf; omega)
    simp [successorWalk, h1, h2]

/-- Walking `Predecessor` from a node visits the in-order sequence before it backwards. -/
theorem predecessorWalk_spec {t : Treap T} {tr : Tree T} (hh : t.Holds tr) :
    ∀ (R A : List Nat), tr.ids = R.reverse ++ A → ∀ fuel, R.length < fuel →
      predecessorWalk t.heap fuel R.head? = some R := by
  intro R
  induction R with
  | nil =>
    intro A _ fuel hf
    obtain ⟨k, rfl⟩ : ∃ k, fuel = k + 1 := ⟨fuel - 1, by omega⟩
    rfl
  | cons n B ih =>
    intro A hs fuel hf
    obtain ⟨k, rfl⟩ : ∃ k, fuel = k + 1 := ⟨fuel - 1, by omega⟩
    have hs2 : tr.ids = B.reverse ++ n :: A := by rw [hs]; simp
    have h1 := (neighbours_of_split hh hs2).2
    rw [List.getLast?_reverse] at h1
    have h2 := ih (n :: A) hs2 k (by simp only [List.length_cons] at hf; omega)
    simp [predecessorWalk, h1, h2]

/-- In a sorted held tree, cells earlier in in-order hold smaller values. -/
theorem ids_sorted {V : TreapValue T} {t : Treap T} {tr : Tree T} (hh : t.Holds tr)
    (hs : tr.vals.Pairwise fun a b => V.Compare a b < 0) :
    tr.ids.Pairwise fun i j => ∀ ndi ndj : TreapNode T, t.heap[i]? = some ndi →
      t.heap[j]? = some ndj → V.Compare ndi.Value ndj.Value < 0 := by
  rw [← entries_ids, List.pairwise_map]
  refine (entries_sorted hs).imp_of_mem ?_
  intro a b ha hb hlt ndi ndj hi hj
  obtain ⟨n1, g1, e1⟩ := Repr_entries hh.2.1 a.1 a.2 ha
  obtain ⟨n2, g2, e2⟩ := Repr_entries hh.2.1 b.1 b.2 hb
  rw [hi] at g1
  rw [hj] at g2
  cases g1
  cases g2
  rw [e1, e2]
  exact hlt

/-- In a sorted held tree the answer of `Successor` is the node with the least value above
the node's own, and there is none exactly at the maximum. -/
theorem successor_cells {V : TreapValue T} (tot : TotalOrder V) {t : Treap T} {tr : Tree T}
    (hh : t.Holds tr) (hs : tr.vals.Pairwise fun a b => V.Compare a b < 0)
    {i : Nat} {nd : TreapNode T} (hg : t.heap[i]? = some nd) :
    ∃ s, TreapNode.Successor t.heap i = some s ∧
      (s = none ↔ ∀ nd2 ∈ t.heap, V.Compare nd2.Value nd.Value ≤ 0) ∧
      ∀ j, s = some j → ∃ ndj : TreapNode T, t.heap[j]? = some ndj ∧
        V.Compare nd.Value ndj.Value < 0 ∧
        ∀ nd2 ∈ t.heap, V.Compare nd.Value nd2.Value < 0 → V.Compare ndj.Value nd2.Value ≤ 0 := by
  have hmem : i ∈ tr.ids := (hh.2.2.2 i).2 (lt_of_get hg)
  obtain ⟨A, B, hsplit⟩ := List.append_of_mem hmem
  have hsorted := ids_sorted hh hs
  rw [hsplit, List.pairwise_append, List.pairwise_cons] at hsorted
  obtain ⟨_, ⟨hiB, hBB⟩, hAB⟩ := hsorted
  have hidx : ∀ nd2 ∈ t.heap, ∃ k, t.heap[k]? = some nd2 ∧ (k ∈ A ∨ k = i ∨ k ∈ B) := by
    intro nd2 hm
    obtain ⟨k, hk⟩ := List.mem_iff_getElem?.1 hm
    have := (hh.2.2.2 k).2 (lt_of_get hk)
    rw [hsplit] at this
    simp only [List.mem_append, List.mem_cons] at this
    exact ⟨k, hk, this⟩
  have hrefl := tot.refl nd.Value
  refine ⟨B.head?, (neighbours_of_split hh hsplit).1, ?_, ?_⟩
  · constructor
    · intro hnone nd2 hm
      rw [List.head?_eq_none_iff] at hnone
      obtain ⟨k, hk, hcase⟩ := hidx nd2 hm
      rcases hcase with hk2 | rfl | hk2
      · have := hAB k hk2 i (by simp) nd2 nd hk hg
        omega
      · rw [hg] at hk; cases hk; omega
      · rw [hnone] at hk2; cases hk2
    · intro hall
      cases B with
      | nil => rfl
      | cons b B2 =>
        have hbm : b ∈ tr.ids := by rw [hsplit]; simp
        obtain ⟨ndb, hb⟩ := get_of_lt ((hh.2.2.2 b).1 hbm)
        have h1 := hiB b (by simp) nd ndb hg hb
        have h2 := hall ndb (List.getElem?_mem hb)
        have h3 := tot.1 nd.Value ndb.Value
        omega
  · intro j hj
    obtain ⟨B2, rfl⟩ := List.head?_eq_some_iff.1 hj
    have hjm : j ∈ tr.ids := by rw [hsplit]; simp
    obtain ⟨ndj, hgj⟩ := get_of_lt ((hh.2.2.2 j).1 hjm)
    have hij := hiB j (by simp) nd ndj hg hgj
    refine ⟨ndj, hgj, hij, ?_⟩
    intro nd2 hm hlt
    obtain ⟨k, hk, hcase⟩ := hidx nd2 hm
    rcases hcase with hk2 | rfl | hk2
    · have h1 := hAB k hk2 i (by simp) nd2 nd hk hg
      have h3 := tot.1 nd.Value nd2.Value
      omega
    · rw [hg] at hk; cases hk; omega
    · rw [List.mem_cons] at hk2
      rcases hk2 with rfl | hk2
      · rw [hgj] at hk; cases hk
        have := tot.refl ndj.Value
        omega
      · have := (List.pairwise_cons.1 hBB).1 k hk2 ndj nd2 hgj hk
        omega

/-- In a sorted held tree the answer of `Predecessor` is the node with the greatest value
below the node's own, and there is none exactly at the minimum. -/
theorem predecessor_cells {V : TreapValue T} (tot : TotalOrder V) {t : Treap T} {tr : Tree T}
    (hh : t.Holds tr) (hs : tr.vals.Pairwise fun a b => V.Compare a b < 0)
    {i : Nat} {nd : TreapNode T} (hg : t.heap[i]? = some nd) :
    ∃ s, TreapNode.Predecessor t.heap i = some s ∧
      (s = none ↔ ∀ nd2 ∈ t.heap, V.Compare nd.Value nd2.Value ≤ 0) ∧
      ∀ j, s = some j → ∃ ndj : TreapNode T, t.heap[j]? = some ndj ∧
        V.Compare ndj.Value nd.Value < 0 ∧
        ∀ nd2 ∈ t.heap, V.Compare nd2.Value nd.Value < 0 → V.Compare nd2.Value ndj.Value ≤ 0 := by
  have hmem : i ∈ tr.ids := (hh.2.2.2 i).2 (lt_of_get hg)
  obtain ⟨A, B, hsplit⟩ := List.append_of_mem hmem
  have hsorted := ids_sorted hh hs
  rw [hsplit, List.pairwise_append, List.pairwise_cons] at hsorted
  obtain ⟨hAA, ⟨hiB, _⟩, hAB⟩ := hsorted
  have hidx : ∀ nd2 ∈ t.heap, ∃ k, t.heap[k]? = some nd2 ∧ (k ∈ A ∨ k = i ∨ k ∈ B) := by
    intro nd2 hm
    obtain ⟨k, hk⟩ := List.mem_iff_getElem?.1 hm
    have := (hh.2.2.2 k).2 (lt_of_get hk)
    rw [hsplit] at this
    simp only [List.mem_append, List.mem_cons] at this
    exact ⟨k, hk, this⟩
  have hrefl := tot.refl nd.Value
  refine ⟨A.getLast?, (neighbours_of_split hh hsplit).2, ?_, ?_⟩
  · constructor
    · intro hnone nd2 hm
      rw [List.getLast?_eq_none_iff] at hnone
      obtain ⟨k, hk, hcase⟩ := hidx nd2 hm
      rcases hcase with hk2 | rfl | hk2
      · rw [hnone] at hk2; cases hk2
      · rw [hg] at hk; cases hk; omega
      · have := hiB k hk2 nd nd2 hg hk
        omega
    · intro hall
      rcases List.eq_nil_or_concat A with rfl | ⟨A2, a, rfl⟩
      · rfl
      · have ham : a ∈ tr.ids := by rw [hsplit]; simp
        obtain ⟨nda, ha⟩ := get_of_lt ((hh.2.2.2 a).1 ham)
        have h1 := hAB a (by simp) i (by simp) nda nd ha hg
        have h2 := hall nda (List.getElem?_mem ha)
        have h3 := tot.1 nda.Value nd.Value
        omega
  · intro j hj
    obtain ⟨A2, rfl⟩ := List.getLast?_eq_some_iff.1 hj
    have hjm : j ∈ tr.ids := by rw [hsplit]; simp
    obtain ⟨ndj, hgj⟩ := get_of_lt ((hh.2.2.2 j).1 hjm)
    have hji := hAB j (by simp) i (by simp) ndj nd hgj hg
    refine ⟨ndj, hgj, hji, ?_⟩
    intro nd2 hm hlt
    obtain ⟨k, hk, hcase⟩ := hidx nd2 hm
    rcases hcase with hk2 | rfl | hk2
    · rw [List.mem_append, List.mem_singleton] at hk2
      rcases hk2 with hk2 | rfl
      · have := (List.pairwise_append.1 hAA).2.2 k hk2 j (by simp) nd2 ndj hk hgj
        omega
      · rw [hgj] at hk; cases hk
        have := tot.refl ndj.Value
        omega
    · rw [hg] at hk; cases hk; omega
    · have h1 := hiB k hk2 nd nd2 hg hk
      have h3 := tot.1 nd.Value nd2.Value
      omega

theorem mem_entries_fill (f : Frame T) (t : Tree T) (e : Nat × T) :
    e ∈ (f.fill t).entries ↔ e ∈ t.entries ∨ e = (f.id, f.v) ∨ e ∈ f.sib.entries := by
  unfold Frame.fill
  cases f.dir
  · simp only [Tree.entries, List.mem_append, List.mem_cons]
  · simp only [Tree.entries, List.mem_append, List.mem_cons]; tauto

/-- The entries of a plugged tree are those of the subtree and those around the path. -/
theorem mem_entries_plug (c : List (Frame T)) : ∀ (t : Tree T) (e : Nat × T),
    e ∈ (plug c t).entries ↔ e ∈ t.entries ∨ e ∈ (plug c .nil).entries := by
  induction c with
  | nil => intro t e; simp [plug, Tree.entries]
  | cons f c ih =>
    intro t e
    simp only [plug]
    rw [ih (f.fill t), ih (f.fill .nil), mem_entries_fill, mem_entries_fill]
    simp only [Tree.entries, List.not_mem_nil, false_or]
    tauto

/-- Rotating a node upward keeps the set of entries. -/
theorem mem_entries_bubble (c : List (Frame T)) :
    ∀ (n : Nat) (l : Tree T) (x : T) (px : Nat) (r : Tree T) (e : Nat × T),
      e ∈ (bubble c n l x px r).entries ↔
        e ∈ (Tree.node n l x px r).entries ∨ e ∈ (plug c .nil).entries := by
  induction c with
  | nil => intro n l x px r e; simp [bubble, plug, Tree.entries]
  | cons f c ih =>
    intro n l x px r e
    simp only [bubble]
    split_ifs with hlt
    · have hp : e ∈ (plug (f :: c) .nil).entries ↔
          (e = (f.id, f.v) ∨ e ∈ f.sib.entries) ∨ e ∈ (plug c .nil).entries := by
        simp only [plug]
        rw [mem_entries_plug, mem_entries_fill]
        simp only [Tree.entries, List.not_mem_nil, false_or]
      rcases hd : f.dir with _ | _
      · simp only
        rw [ih, hp]
        simp only [Tree.entries, List.mem_append, List.mem_cons]
        tauto
      · simp only
        rw [ih, hp]
        simp only [Tree.entries, List.mem_append, List.mem_cons]
        tauto
    · exact mem_entries_plug (f :: c) _ e

theorem entry_id_mem {t : Tree T} {e : Nat × T} (h : e ∈ t.entries) : e.1 ∈ t.ids := by
  rw [← entries_ids]
  exact List.mem_map.2 ⟨e, h, rfl⟩

/-- What one `Insert` does to the set of entries: either no stored value is equivalent to
the new one and a fresh entry appears, or the value of the matching entry is merged. -/
theorem insert_step {V : TreapValue T} (tot : TotalOrder V) {tr : Tree T}
    (hs : tr.vals.Pairwise fun a b => V.Compare a b < 0) (hnd : tr.ids.Nodup)
    (x : T) (pr newId : Nat) :
    ((Tree.insertResult V tr x newId) = (newId, true) ∧ (∀ w ∈ tr.vals, V.Compare w x ≠ 0) ∧
        ∀ e, e ∈ (Tree.insert V tr x pr newId).entries ↔ e = (newId, x) ∨ e ∈ tr.entries) ∨
      (∃ j v2, (Tree.insertResult V tr x newId) = (j, false) ∧ (j, v2) ∈ tr.entries ∧
        V.Compare v2 x = 0 ∧
        ∀ e, e ∈ (Tree.insert V tr x pr newId).entries ↔
          e = (j, V.Merge v2 x) ∨ (e ∈ tr.entries ∧ e.1 ≠ j)) := by
  have hplug := descend_plug V x tr []
  obtain ⟨hb, ha, hcase⟩ := descend_bounds tot x tr [] hs
    (by intro a h; simp [ctxBefore] at h) (by intro a h; simp [ctxAfter] at h)
  unfold Tree.insert Tree.insertResult
  rcases hd : descend V x tr [] with ⟨c2, t2⟩
  rw [hd] at hplug hb ha hcase
  simp only [plug] at hplug hb ha hcase
  cases t2 with
  | nil =>
    left
    refine ⟨rfl, ?_, ?_⟩
    · intro w hw
      rw [← hplug, vals_plug] at hw
      simp only [Tree.vals, List.append_nil, List.mem_append] at hw
      rcases hw with hw | hw
      · have := hb w hw; omega
      · have := ha w hw
        have := tot.1 x w
        omega
    · intro e
      simp only
      rw [mem_entries_bubble, ← hplug, mem_entries_plug c2 .nil]
      simp [Tree.entries]
  | node j l2 v2 p2 r2 =>
    right
    rcases hcase with hc | ⟨j', l', v', p', r', hc, h0⟩
    · cases hc
    · simp only [Tree.node.injEq] at hc
      obtain ⟨rfl, rfl, rfl, rfl, rfl⟩ := hc
      have hnd2 : ((Tree.node j l2 v2 p2 r2).ids ++ ctxIds c2).Nodup := by
        rw [← hplug] at hnd
        exact (List.Perm.nodup_iff (ids_plug c2 _)).1 hnd
      obtain ⟨nA, nB, nC⟩ := nodup_facts3 hnd2
      have hctx : ∀ e, e ∈ (plug c2 .nil).entries → e.1 ≠ j := by
        intro e he hej
        have := entry_id_mem he
        rw [(ids_plug c2 .nil).mem_iff] at this
        simp only [Tree.ids, List.nil_append] at this
        exact nC (hej ▸ this)
      refine ⟨j, v2, rfl, ?_, h0, ?_⟩
      · rw [← hplug, mem_entries_plug]
        left; simp [Tree.entries]
      · intro e
        simp only
        rw [mem_entries_plug, ← hplug, mem_entries_plug c2 (.node j l2 v2 p2 r2)]
        simp only [Tree.entries, List.mem_append, List.mem_cons]
        constructor
        · rintro ((h | h | h) | h)
          · exact Or.inr ⟨Or.inl (Or.inl h), fun hej => nA (hej ▸ entry_id_mem h)⟩
          · exact Or.inl h
          · exact Or.inr ⟨Or.inl (Or.inr (Or.inr h)), fun hej => nB (hej ▸ entry_id_mem h)⟩
          · exact Or.inr ⟨Or.inr h, hctx e h⟩
        · rintro (h | ⟨(h | h | h) | h, hne⟩)
          · exact Or.inl (Or.inr (Or.inl h))
          · exact Or.inl (Or.inl h)
          · exact absurd (by rw [h]) hne
          · exact Or.inl (Or.inr (Or.inr h))
          · exact Or.inr h

theorem TotalOrder.equiv_trans {V : TreapValue T} (tot : TotalOrder V) {a b c : T}
    (h1 : V.Compare a b = 0) (h2 : V.Compare b c = 0) : V.Compare a c = 0 := by
  have h3 := tot.2 a b c (by omega) (by omega)
  have h4 := tot.2 c b a (by have := tot.eq_symm h2; omega) (by have := tot.eq_symm h1; omega)
  have h5 := tot.1 a c
  omega

theorem entries_id_unique {t : Tree T} (hnd : t.ids.Nodup) {i : Nat} {a b : T}
    (ha : (i, a) ∈ t.entries) (hb : (i, b) ∈ t.entries) : a = b := by
  rw [← entries_ids] at hnd
  have := List.inj_on_of_nodup_map hnd ha hb rfl
  simpa using this

theorem mem_vals_iff {t : Tree T} {w : T} : w ∈ t.vals ↔ ∃ i, (i, w) ∈ t.entries := by
  rw [← entries_vals, List.mem_map]
  constructor
  · rintro ⟨⟨i, w2⟩, hm, rfl⟩; exact ⟨i, hm⟩
  · rintro ⟨i, hm⟩; exact ⟨(i, w), hm, rfl⟩

/-- The log of a sequence of `Insert` calls, for the values equivalent to a key `k`: if a
node already holds a value equivalent to `k`, every such call merges into that node and
reports "not new"; otherwise the first such call creates the node and reports "new". -/
theorem log_spec {V : TreapValue T} (tot : TotalOrder V) (mk : MergeKeepsKey V) (k : T)
    (ops : List (T × Nat)) :
    ∀ (t : Treap T) (tr : Tree T), t.Holds tr →
      (tr.vals.Pairwise fun a b => V.Compare a b < 0) →
      ∃ t2 tr2 log, insertLog V t ops = some (t2, log) ∧ t2.Holds tr2 ∧
        (tr2.vals.Pairwise fun a b => V.Compare a b < 0) ∧
        (∀ i m, (i, m) ∈ tr.entries → V.Compare m k = 0 →
          (i, (sameKey V k ops).foldl V.Merge m) ∈ tr2.entries ∧
          V.Compare ((sameKey V k ops).foldl V.Merge m) k = 0 ∧
          keyLog V k ops log = List.replicate (sameKey V k ops).length (i, false)) ∧
        ((∀ w ∈ tr.vals, V.Compare w k ≠ 0) →
          (sameKey V k ops = [] ∧ (∀ w ∈ tr2.vals, V.Compare w k ≠ 0) ∧ keyLog V k ops log = []) ∨
          (∃ v0 rest i, sameKey V k ops = v0 :: rest ∧
            (i, rest.foldl V.Merge v0) ∈ tr2.entries ∧
            V.Compare (rest.foldl V.Merge v0) k = 0 ∧
            keyLog V k ops log = (i, true) :: List.replicate rest.length (i, false))) := by
  induction ops with
  | nil =>
    intro t tr hh hs
    refine ⟨t, tr, [], rfl, hh, hs, ?_, ?_⟩
    · intro i m hm hk
      exact ⟨hm, hk, rfl⟩
    · intro hno
      exact Or.inl ⟨rfl, hno, rfl⟩
  | cons op rest ih =>
    intro t tr hh hs
    obtain ⟨v, pr⟩ := op
    obtain ⟨t1, e1, hh1⟩ := Insert_spec V hh v pr
    have hs1 := sorted_insert tot mk tr v pr t.heap.length hs
    obtain ⟨t2, tr2, log, e2, hh2, hs2, hA, hB⟩ := ih t1 _ hh1 hs1
    have hlog : insertLog V t ((v, pr) :: rest) =
        some (t2, Tree.insertResult V tr v t.heap.length :: log) := by
      simp only [insertLog, e1, e2, Option.bind_eq_bind, Option.some_bind]
    refine ⟨t2, tr2, _, hlog, hh2, hs2, ?_, ?_⟩
    · intro i m hm hk
      by_cases hvk : V.Compare v k = 0
      · have hmv : V.Compare m v = 0 := tot.equiv_trans hk (tot.eq_symm hvk)
        rcases insert_step tot hs hh.2.2.1 v pr t.heap.length with
          ⟨_, hno, _⟩ | ⟨j, v2, hres, hj, h0, hent⟩
        · exact absurd hmv (hno m (entries_mem_vals hm))
        · have heq := entry_unique tot hs hm hj (tot.equiv_trans hmv (tot.eq_symm h0))
          simp only [Prod.mk.injEq] at heq
          obtain ⟨rfl, rfl⟩ := heq
          have hm1 : (i, V.Merge m v) ∈ (Tree.insert V tr v pr t.heap.length).entries :=
            (hent _).2 (Or.inl rfl)
          have hk1 : V.Compare (V.Merge m v) k = 0 := tot.equiv_trans (mk m v hmv) hk
          obtain ⟨g1, g2, g3⟩ := hA i _ hm1 hk1
          simp only [sameKey, hvk, if_true, List.foldl_cons, keyLog, hres, g3,
            List.length_cons, List.replicate_succ]
          exact ⟨g1, g2, trivial⟩
      · have hm1 : (i, m) ∈ (Tree.insert V tr v pr t.heap.length).entries := by
          rcases insert_step tot hs hh.2.2.1 v pr t.heap.length with
            ⟨_, _, hent⟩ | ⟨j, v2, _, hj, h0, hent⟩
          · exact (hent _).2 (Or.inr hm)
          · refine (hent _).2 (Or.inr ⟨hm, ?_⟩)
            intro hij
            simp only at hij
            subst hij
            have := entries_id_unique hh.2.2.1 hm hj
            subst this
            exact hvk (tot.equiv_trans (tot.eq_symm h0) hk)
        obtain ⟨g1, g2, g3⟩ := hA i m hm1 hk
        simp only [sameKey, hvk, if_false, keyLog]
        exact ⟨g1, g2, g3⟩
    · intro hno
      by_cases hvk : V.Compare v k = 0
      · right
        rcases insert_step tot hs hh.2.2.1 v pr t.heap.length with
          ⟨hres, _, hent⟩ | ⟨j, v2, _, hj, h0, _⟩
        · have hm1 : (t.heap.length, v) ∈ (Tree.insert V tr v pr t.heap.length).entries :=
            (hent _).2 (Or.inl rfl)
          obtain ⟨g1, g2, g3⟩ := hA _ v hm1 hvk
          refine ⟨v, sameKey V k rest, t.heap.length, ?_, g1, g2, ?_⟩
          · simp only [sameKey, hvk, if_true]
          · simp only [keyLog, hvk, if_true, hres, g3]
        · exact absurd (tot.equiv_trans h0 hvk) (hno v2 (entries_mem_vals hj))
      · have hno1 : ∀ w ∈ (Tree.insert V tr v pr t.heap.length).vals, V.Compare w k ≠ 0 := by
          intro w hw hwk
          obtain ⟨i, hi⟩ := mem_vals_iff.1 hw
          rcases insert_step tot hs hh.2.2.1 v pr t.heap.length with
            ⟨_, _, hent⟩ | ⟨j, v2, _, hj, h0, hent⟩
          · rcases (hent _).1 hi with h | h
            · simp only [Prod.mk.injEq] at h
              exact hvk (h.2 ▸ hwk)
            · exact hno w (entries_mem_vals h) hwk
          · rcases (hent _).1 hi with h | ⟨h, _⟩
            · simp only [Prod.mk.injEq] at h
              have h1 : V.Compare (V.Merge v2 v) k = 0 := h.2 ▸ hwk
              have h2 := tot.eq_symm (tot.equiv_trans (mk v2 v h0) h0)
              exact hvk (tot.equiv_trans h2 h1)
            · exact hno w (entries_mem_vals h) hwk
        rcases hB hno1 with ⟨g1, g2, g3⟩ | ⟨v0, rs, i, g1, g2, g3, g4⟩
        · left
          simp only [sameKey, hvk, if_false, keyLog]
          exact ⟨g1, g2, g3⟩
        · right
          refine ⟨v0, rs, i, ?_, g2, g3, ?_⟩
          · simp only [sameKey, hvk, if_false]; exact g1
          · simp only [keyLog, hvk, if_false]; exact g4

theorem valOps_total : TotalOrder valOps := by
  refine ⟨fun a b => ?_, fun a b c h1 h2 => ?_⟩
  · simp only [valOps]; omega
  · simp only [valOps] at *; omega

theorem valOps_merge : MergeKeepsKey valOps := by
  intro a b _
  simp only [valOps]; omega

theorem shiftOps_total : TotalOrder shiftOps := by
  refine ⟨fun a b => ?_, fun a b c h1 h2 => ?_⟩
  · simp only [shiftOps]; omega
  · simp only [shiftOps] at *; omega

/-- Every treap built by `Insert` calls holds a tree. -/
theorem reachable_holds (V : TreapValue T) (ops : List (T × Nat)) :
    ∃ t, insertAll V (NewTreap T) ops = some t ∧ t.Holds (Tree.insertAll V .nil ops) :=
  insertAll_spec V ops (Holds_new T)

/-- C1 (amended): when `Compare` is a total order up to equivalence and `Merge` leaves the
receiver in its equivalence class, every sequence of `Insert` calls from the empty treap
succeeds and the memory then holds a tree with the BST property; its in-order sequence
is strictly increasing, and no two nodes hold equivalent values. -/
theorem bst_invariant (V : TreapValue T) (tot : TotalOrder V) (mk : MergeKeepsKey V)
    (ops : List (T × Nat)) :
    ∃ t tr, insertAll V (NewTreap T) ops = some t ∧ t.Holds tr ∧ tr.IsBST V ∧
      (tr.vals.Pairwise fun a b => V.Compare a b < 0) ∧
      ∀ (i j : Nat) (ndi ndj : TreapNode T), i ≠ j → t.heap[i]? = some ndi →
        t.heap[j]? = some ndj → V.Compare ndi.Value ndj.Value ≠ 0 := by
  obtain ⟨t, e, hh⟩ := reachable_holds V ops
  have hs := sorted_insertAll tot mk ops .nil (by simp [Tree.vals])
  exact ⟨t, _, e, hh, (isBST_iff_sorted tot _).2 hs, hs,
    fun i j ndi ndj hij hi hj => Holds_distinct tot hh hs hij hi hj⟩

theorem bst_invariant_witness :
    ∃ t tr, insertAll valOps (NewTreap (Int × Nat))
        [((5, 1), 3), ((2, 1), 7), ((8, 1), 1), ((2, 1), 9), ((1, 1), 8)] = some t ∧
      t.Holds tr ∧ tr.IsBST valOps ∧
      (tr.vals.Pairwise fun a b => valOps.Compare a b < 0) ∧
      ∀ (i j : Nat) (ndi ndj : TreapNode (Int × Nat)), i ≠ j → t.heap[i]? = some ndi →
        t.heap[j]? = some ndj → valOps.Compare ndi.Value ndj.Value ≠ 0 :=
  bst_invariant valOps valOps_total valOps_merge _

/-- C1 as stated fails: with the integer order and a `Merge` that adds `2`, inserting
`1`, `2`, `1` leaves a root holding `3` whose right child holds `2`, so no tree with the BST
property is held. -/
theorem bst_fails_without_merge_contract :
    TotalOrder shiftOps ∧
      insertAll shiftOps (NewTreap Int) [(1, 5), (2, 3), (1, 0)] =
        some { heap := [⟨3, 5, none, none, some 1⟩, ⟨2, 3, some 0, none, none⟩], root := some 0 } ∧
      ∀ t tr, insertAll shiftOps (NewTreap Int) [(1, 5), (2, 3), (1, 0)] = some t →
        t.Holds tr → ¬ tr.IsBST shiftOps := by
  refine ⟨shiftOps_total, by decide, ?_⟩
  intro t tr e hh hb
  obtain ⟨t2, e2, hh2⟩ := reachable_holds shiftOps [(1, 5), (2, 3), (1, 0)]
  rw [e] at e2
  cases e2
  have := Holds_unique hh hh2
  subst this
  revert hb
  simp [Tree.insertAll, Tree.insert, descend, shiftOps, bubble, plug, Frame.fill, Tree.ids,
    Tree.IsBST, Tree.vals]

/-- C2: after any sequence of `Insert` calls from the empty treap (any values, any
priorities, ties included, any `Compare`), every child pointer of every node leads to a node
whose parent pointer is that node and whose priority is at most the node's priority. -/
theorem heap_invariant (V : TreapValue T) (ops : List (T × Nat)) :
    ∃ t, insertAll V (NewTreap T) ops = some t ∧
      ∀ (i : Nat) (nd : TreapNode T), t.heap[i]? = some nd →
        (∀ c, nd.left = some c → ∃ cn : TreapNode T,
          t.heap[c]? = some cn ∧ cn.parent = some i ∧ cn.priority ≤ nd.priority) ∧
        (∀ c, nd.right = some c → ∃ cn : TreapNode T,
          t.heap[c]? = some cn ∧ cn.parent = some i ∧ cn.priority ≤ nd.priority) := by
  obtain ⟨t, e, hh⟩ := reachable_holds V ops
  refine ⟨t, e, fun i nd hg => ?_⟩
  exact Repr_heap hh.2.1 (isHeap_insertAll V ops .nil trivial) i ((hh.2.2.2 i).2 (lt_of_get hg)) nd hg

/-- Under the two contracts every reachable treap holds a tree with a strictly increasing
in-order sequence. -/
theorem reachable_sorted {V : TreapValue T} (tot : TotalOrder V) (mk : MergeKeepsKey V)
    (ops : List (T × Nat)) :
    ∃ t tr, insertAll V (NewTreap T) ops = some t ∧ t.Holds tr ∧
      tr.vals.Pairwise fun a b => V.Compare a b < 0 := by
  obtain ⟨t, e, hh⟩ := reachable_holds V ops
  exact ⟨t, _, e, hh, sorted_insertAll tot mk ops .nil (by simp [Tree.vals])⟩

/-- C3 (amended): when `Compare` is a total order up to equivalence and `Merge` leaves the
receiver in its equivalence class, on every treap built by `Insert` calls `GreatestLTE(v)`
terminates; it returns no node exactly when no stored value compares less than or equal to
`v`, and a returned node holds a value not above `v` that every stored value not above `v`
is below or equivalent to. -/
theorem greatestLTE_is_floor (V : TreapValue T) (tot : TotalOrder V) (mk : MergeKeepsKey V)
    (ops : List (T × Nat)) (v : T) :
    ∃ t res, insertAll V (NewTreap T) ops = some t ∧ t.GreatestLTE V v = some res ∧
      (res = none ↔ ∀ nd ∈ t.heap, ¬ V.Compare nd.Value v ≤ 0) ∧
      ∀ i, res = some i → ∃ nd : TreapNode T, t.heap[i]? = some nd ∧
        V.Compare nd.Value v ≤ 0 ∧
        ∀ nd2 ∈ t.heap, V.Compare nd2.Value v ≤ 0 → V.Compare nd2.Value nd.Value ≤ 0 := by
  obtain ⟨t, tr, e, hh, hs⟩ := reachable_sorted tot mk ops
  obtain ⟨f, c, en, h1, h2, _, _⟩ := floor_cells tot hh hs v
  exact ⟨t, f, e, by simp [Treap.GreatestLTE, en], h1, h2⟩

theorem greatestLTE_is_floor_witness :
    ∃ t res, insertAll valOps (NewTreap (Int × Nat))
        [((5, 1), 3), ((2, 1), 7), ((8, 1), 1), ((2, 1), 9), ((1, 1), 8)] = some t ∧
      t.GreatestLTE valOps (3, 0) = some res ∧
      (res = none ↔ ∀ nd ∈ t.heap, ¬ valOps.Compare nd.Value (3, 0) ≤ 0) ∧
      ∀ i, res = some i → ∃ nd : TreapNode (Int × Nat), t.heap[i]? = some nd ∧
        valOps.Compare nd.Value (3, 0) ≤ 0 ∧
        ∀ nd2 ∈ t.heap, valOps.Compare nd2.Value (3, 0) ≤ 0 →
          valOps.Compare nd2.Value nd.Value ≤ 0 :=
  greatestLTE_is_floor valOps valOps_total valOps_merge _ (3, 0)

/-- C3 as stated fails: with the integer order and a `Merge` that adds `2`, after inserting
`1`, `2`, `1` the call `GreatestLTE(2)` returns no node although a node holds `2`. -/
theorem greatestLTE_fails_without_merge_contract :
    TotalOrder shiftOps ∧
      ∃ t, insertAll shiftOps (NewTreap Int) [(1, 5), (2, 3), (1, 0)] = some t ∧
        t.GreatestLTE shiftOps 2 = some none ∧
        ∃ nd ∈ t.heap, shiftOps.Compare nd.Value 2 ≤ 0 :=
  ⟨shiftOps_total,
    { heap := [⟨3, 5, none, none, some 1⟩, ⟨2, 3, some 0, none, none⟩], root := some 0 },
    by decide, by decide, ⟨2, 3, some 0, none, none⟩, by decide, by decide⟩

/-- C4 (amended): when `Compare` is a total order up to equivalence and `Merge` leaves the
receiver in its equivalence class, on every treap built by `Insert` calls `LeastGTE(v)`
terminates; it returns no node exactly when no stored value compares greater than or equal
to `v`, and a returned node holds a value not below `v` that is below or equivalent to
every stored value not below `v`. -/
theorem leastGTE_is_ceiling (V : TreapValue T) (tot : TotalOrder V) (mk : MergeKeepsKey V)
    (ops : List (T × Nat)) (v : T) :
    ∃ t res, insertAll V (NewTreap T) ops = some t ∧ t.LeastGTE V v = some res ∧
      (res = none ↔ ∀ nd ∈ t.heap, ¬ V.Compare nd.Value v ≥ 0) ∧
      ∀ i, res = some i → ∃ nd : TreapNode T, t.heap[i]? = some nd ∧
        V.Compare nd.Value v ≥ 0 ∧
        ∀ nd2 ∈ t.heap, V.Compare nd2.Value v ≥ 0 → V.Compare nd.Value nd2.Value ≤ 0 := by
  obtain ⟨t, tr, e, hh, hs⟩ := reachable_sorted tot mk ops
  obtain ⟨f, c, en, _, _, h1, h2⟩ := floor_cells tot hh hs v
  exact ⟨t, c, e, by simp [Treap.LeastGTE, en], h1, h2⟩

theorem leastGTE_is_ceiling_witness :
    ∃ t res, insertAll valOps (NewTreap (Int × Nat))
        [((5, 1), 3), ((2, 1), 7), ((8, 1), 1), ((2, 1), 9), ((1, 1), 8)] = some t ∧
      t.LeastGTE valOps (3, 0) = some res ∧
      (res = none ↔ ∀ nd ∈ t.heap, ¬ valOps.Compare nd.Value (3, 0) ≥ 0) ∧
      ∀ i, res = some i → ∃ nd : TreapNode (Int × Nat), t.heap[i]? = some nd ∧
        valOps.Compare nd.Value (3, 0) ≥ 0 ∧
        ∀ nd2 ∈ t.heap, valOps.Compare nd2.Value (3, 0) ≥ 0 →
          valOps.Compare nd.Value nd2.Value ≤ 0 :=
  leastGTE_is_ceiling valOps valOps_total valOps_merge _ (3, 0)

/-- C4 as stated fails: with the integer order and a `Merge` that adds `2`, after inserting
`1`, `2`, `1` the call `LeastGTE(2)` returns the node holding `3` although another node
holds `2`, which is not below the probe and is smaller than `3`. -/
theorem leastGTE_fails_without_merge_contract :
    TotalOrder shiftOps ∧
      ∃ t, insertAll shiftOps (NewTreap Int) [(1, 5), (2, 3), (1, 0)] = some t ∧
        t.LeastGTE shiftOps 2 = some (some 0) ∧
        t.heap[0]? = some ⟨3, 5, none, none, some 1⟩ ∧
        ∃ nd ∈ t.heap, shiftOps.Compare nd.Value 2 ≥ 0 ∧ shiftOps.Compare nd.Value 3 < 0 :=
  ⟨shiftOps_total,
    { heap := [⟨3, 5, none, none, some 1⟩, ⟨2, 3, some 0, none, none⟩], root := some 0 },
    by decide, by decide, by decide, ⟨2, 3, some 0, none, none⟩, by decide, by decide, by decide⟩

/-- C10 (amended): when `Compare` is a total order up to equivalence and `Merge` leaves the
receiver in its equivalence class, on every treap built by `Insert` calls, if the probe
compares equal to the value of a stored node then `Neighbors` returns that node as both
components, and so do `GreatestLTE` and `LeastGTE`. -/
theorem neighbors_exact_match (V : TreapValue T) (tot : TotalOrder V) (mk : MergeKeepsKey V)
    (ops : List (T × Nat)) (v : T) :
    ∃ t, insertAll V (NewTreap T) ops = some t ∧
      ∀ (i : Nat) (nd : TreapNode T), t.heap[i]? = some nd → V.Compare nd.Value v = 0 →
        t.Neighbors V v = some (some i, some i) ∧ t.GreatestLTE V v = some (some i) ∧
          t.LeastGTE V v = some (some i) := by
  obtain ⟨t, tr, e, hh, hs⟩ := reachable_sorted tot mk ops
  refine ⟨t, e, fun i nd hg he => ?_⟩
  have := Neighbors_exact tot hh hs v hg he
  exact ⟨this, by simp [Treap.GreatestLTE, this], by simp [Treap.LeastGTE, this]⟩

theorem neighbors_exact_match_witness :
    ∃ t, insertAll valOps (NewTreap (Int × Nat))
        [((5, 1), 3), ((2, 1), 7), ((8, 1), 1), ((2, 1), 9), ((1, 1), 8)] = some t ∧
      ∀ (i : Nat) (nd : TreapNode (Int × Nat)), t.heap[i]? = some nd →
        valOps.Compare nd.Value (5, 0) = 0 →
        t.Neighbors valOps (5, 0) = some (some i, some i) ∧
          t.GreatestLTE valOps (5, 0) = some (some i) ∧
          t.LeastGTE valOps (5, 0) = some (some i) :=
  neighbors_exact_match valOps valOps_total valOps_merge _ (5, 0)

/-- C10 as stated fails: with the integer order and a `Merge` that adds `2`, after inserting
`1`, `2`, `1` the probe `2` compares equal to the value of node `1`, yet `Neighbors(2)`
returns no floor and node `0` as ceiling. -/
theorem neighbors_exact_fails_without_merge_contract :
    TotalOrder shiftOps ∧
      ∃ t, insertAll shiftOps (NewTreap Int) [(1, 5), (2, 3), (1, 0)] = some t ∧
        t.heap[1]? = some ⟨2, 3, some 0, none, none⟩ ∧ shiftOps.Compare 2 2 = 0 ∧
        t.Neighbors shiftOps 2 = some (none, some 0) :=
  ⟨shiftOps_total,
    { heap := [⟨3, 5, none, none, some 1⟩, ⟨2, 3, some 0, none, none⟩], root := some 0 },
    by decide, by decide, by decide, by decide⟩

/-- C7 (amended): when `Compare` is a total order up to equivalence and `Merge` leaves the
receiver in its equivalence class, on every treap built by `Insert` calls `Min()` and `Max()`
terminate; each returns no node exactly when nothing is stored; the node `Min()` returns
holds a value below or equivalent to every stored value, and the node `Max()` returns holds
a value above or equivalent to every stored value. -/
theorem min_max_correct (V : TreapValue T) (tot : TotalOrder V) (mk : MergeKeepsKey V)
    (ops : List (T × Nat)) :
    ∃ t mn mx, insertAll V (NewTreap T) ops = some t ∧ t.Min = some mn ∧ t.Max = some mx ∧
      (mn = none ↔ t.heap = []) ∧ (mx = none ↔ t.heap = []) ∧
      (∀ i, mn = some i → ∃ nd : TreapNode T, t.heap[i]? = some nd ∧
        ∀ nd2 ∈ t.heap, V.Compare nd.Value nd2.Value ≤ 0) ∧
      (∀ i, mx = some i → ∃ nd : TreapNode T, t.heap[i]? = some nd ∧
        ∀ nd2 ∈ t.heap, V.Compare nd2.Value nd.Value ≤ 0) := by
  obtain ⟨t, tr, e, hh, hs⟩ := reachable_sorted tot mk ops
  refine ⟨t, _, _, e, Min_spec hh, Max_spec hh, ?_, ?_, ?_, ?_⟩
  · rw [List.head?_eq_none_iff]; exact Holds_empty_iff hh
  · rw [List.getLast?_eq_none_iff]; exact Holds_empty_iff hh
  · intro i hi; exact head_is_min tot hh hs hi
  · intro i hi; exact last_is_max tot hh hs hi

theorem min_max_correct_witness :
    ∃ t mn mx, insertAll valOps (NewTreap (Int × Nat))
        [((5, 1), 3), ((2, 1), 7), ((8, 1), 1), ((2, 1), 9), ((1, 1), 8)] = some t ∧
      t.Min = some mn ∧ t.Max = some mx ∧
      (mn = none ↔ t.heap = []) ∧ (mx = none ↔ t.heap = []) ∧
      (∀ i, mn = some i → ∃ nd : TreapNode (Int × Nat), t.heap[i]? = some nd ∧
        ∀ nd2 ∈ t.heap, valOps.Compare nd.Value nd2.Value ≤ 0) ∧
      (∀ i, mx = some i → ∃ nd : TreapNode (Int × Nat), t.heap[i]? = some nd ∧
        ∀ nd2 ∈ t.heap, valOps.Compare nd2.Value nd.Value ≤ 0) :=
  min_max_correct valOps valOps_total valOps_merge _

/-- C7 as stated fails: with the integer order and a `Merge` that adds `2`, after inserting
`1`, `2`, `1` the call `Min()` returns the node holding `3` although another node holds
`2`. -/
theorem min_fails_without_merge_contract :
    TotalOrder shiftOps ∧
      ∃ t, insertAll shiftOps (NewTreap Int) [(1, 5), (2, 3), (1, 0)] = some t ∧
        t.Min = some (some 0) ∧ t.heap[0]? = some ⟨3, 5, none, none, some 1⟩ ∧
        ∃ nd ∈ t.heap, shiftOps.Compare nd.Value 3 < 0 :=
  ⟨shiftOps_total,
    { heap := [⟨3, 5, none, none, some 1⟩, ⟨2, 3, some 0, none, none⟩], root := some 0 },
    by decide, by decide, by decide, ⟨2, 3, some 0, none, none⟩, by decide, by decide⟩

/-- C8 (amended): when `Compare` is a total order up to equivalence and `Merge` leaves the
receiver in its equivalence class, on every treap built by `Insert` calls the walk that
starts at `Min()` and applies `Successor()` until it answers no node terminates, visits every
stored node exactly once, and in strictly increasing order of the stored values; for every
stored node `Successor()` terminates, answers no node exactly when the node holds the
maximum, and otherwise answers the node with the least value strictly above its own. -/
theorem successor_walk (V : TreapValue T) (tot : TotalOrder V) (mk : MergeKeepsKey V)
    (ops : List (T × Nat)) :
    ∃ t start walk, insertAll V (NewTreap T) ops = some t ∧ t.Min = some start ∧
      successorWalk t.heap (t.heap.length + 1) start = some walk ∧
      walk.Nodup ∧ (∀ i, i ∈ walk ↔ i < t.heap.length) ∧
      (walk.Pairwise fun i j => ∀ ndi ndj : TreapNode T, t.heap[i]? = some ndi →
        t.heap[j]? = some ndj → V.Compare ndi.Value ndj.Value < 0) ∧
      ∀ (i : Nat) (nd : TreapNode T), t.heap[i]? = some nd →
        ∃ s, TreapNode.Successor t.heap i = some s ∧
          (s = none ↔ ∀ nd2 ∈ t.heap, V.Compare nd2.Value nd.Value ≤ 0) ∧
          ∀ j, s = some j → ∃ ndj : TreapNode T, t.heap[j]? = some ndj ∧
            V.Compare nd.Value ndj.Value < 0 ∧
            ∀ nd2 ∈ t.heap, V.Compare nd.Value nd2.Value < 0 →
              V.Compare ndj.Value nd2.Value ≤ 0 := by
  obtain ⟨t, tr, e, hh, hs⟩ := reachable_sorted tot mk ops
  have hlen := Holds_length hh
  refine ⟨t, tr.ids.head?, tr.ids, e, Min_spec hh, ?_, hh.2.2.1, hh.2.2.2, ids_sorted hh hs, ?_⟩
  · exact successorWalk_spec hh tr.ids [] (by simp) _ (by omega)
  · intro i nd hg
    exact successor_cells tot hh hs hg

theorem successor_walk_witness :
    ∃ t start walk, insertAll valOps (NewTreap (Int × Nat))
        [((5, 1), 3), ((2, 1), 7), ((8, 1), 1), ((2, 1), 9), ((1, 1), 8)] = some t ∧
      t.Min = some start ∧
      successorWalk t.heap (t.heap.length + 1) start = some walk ∧
      walk.Nodup ∧ (∀ i, i ∈ walk ↔ i < t.heap.length) ∧
      (walk.Pairwise fun i j => ∀ ndi ndj : TreapNode (Int × Nat), t.heap[i]? = some ndi →
        t.heap[j]? = some ndj → valOps.Compare ndi.Value ndj.Value < 0) ∧
      ∀ (i : Nat) (nd : TreapNode (Int × Nat)), t.heap[i]? = some nd →
        ∃ s, TreapNode.Successor t.heap i = some s ∧
          (s = none ↔ ∀ nd2 ∈ t.heap, valOps.Compare nd2.Value nd.Value ≤ 0) ∧
          ∀ j, s = some j → ∃ ndj : TreapNode (Int × Nat), t.heap[j]? = some ndj ∧
            valOps.Compare nd.Value ndj.Value < 0 ∧
            ∀ nd2 ∈ t.heap, valOps.Compare nd.Value nd2.Value < 0 →
              valOps.Compare ndj.Value nd2.Value ≤ 0 :=
  successor_walk valOps valOps_total valOps_merge _

/-- C8 as stated fails: with the integer order and a `Merge` that adds `2`, after inserting
`1`, `2`, `1` the walk from `Min()` visits node `0` holding `3` and then node `1` holding
`2`: the values do not increase. -/
theorem successor_walk_fails_without_merge_contract :
    TotalOrder shiftOps ∧
      ∃ t, insertAll shiftOps (NewTreap Int) [(1, 5), (2, 3), (1, 0)] = some t ∧
        t.Min = some (some 0) ∧
        successorWalk t.heap (t.heap.length + 1) (some 0) = some [0, 1] ∧
        t.heap[0]? = some ⟨3, 5, none, none, some 1⟩ ∧
        t.heap[1]? = some ⟨2, 3, some 0, none, none⟩ ∧ ¬ shiftOps.Compare 3 2 < 0 :=
  ⟨shiftOps_total,
    { heap := [⟨3, 5, none, none, some 1⟩, ⟨2, 3, some 0, none, none⟩], root := some 0 },
    by decide, by decide, by decide, by decide, by decide, by decide⟩

/-- C9 (amended): when `Compare` is a total order up to equivalence and `Merge` leaves the
receiver in its equivalence class, on every treap built by `Insert` calls the walk that
starts at `Max()` and applies `Predecessor()` until it answers no node terminates, visits
every stored node exactly once, and in strictly decreasing order of the stored values; for
every stored node `Predecessor()` terminates, answers no node exactly when the node holds the
minimum, and otherwise answers the node with the greatest value strictly below its own. -/
theorem predecessor_walk (V : TreapValue T) (tot : TotalOrder V) (mk : MergeKeepsKey V)
    (ops : List (T × Nat)) :
    ∃ t start walk, insertAll V (NewTreap T) ops = some t ∧ t.Max = some start ∧
      predecessorWalk t.heap (t.heap.length + 1) start = some walk ∧
      walk.Nodup ∧ (∀ i, i ∈ walk ↔ i < t.heap.length) ∧
      (walk.Pairwise fun i j => ∀ ndi ndj : TreapNode T, t.heap[i]? = some ndi →
        t.heap[j]? = some ndj → V.Compare ndj.Value ndi.Value < 0) ∧
      ∀ (i : Nat) (nd : TreapNode T), t.heap[i]? = some nd →
        ∃ s, TreapNode.Predecessor t.heap i = some s ∧
          (s = none ↔ ∀ nd2 ∈ t.heap, V.Compare nd.Value nd2.Value ≤ 0) ∧
          ∀ j, s = some j → ∃ ndj : TreapNode T, t.heap[j]? = some ndj ∧
            V.Compare ndj.Value nd.Value < 0 ∧
            ∀ nd2 ∈ t.heap, V.Compare nd2.Value nd.Value < 0 →
              V.Compare nd2.Value ndj.Value ≤ 0 := by
  obtain ⟨t, tr, e, hh, hs⟩ := reachable_sorted tot mk ops
  have hlen := Holds_length hh
  refine ⟨t, tr.ids.getLast?, tr.ids.reverse, e, Max_spec hh, ?_,
    List.nodup_reverse.2 hh.2.2.1, ?_, ?_, ?_⟩
  · have := predecessorWalk_spec hh tr.ids.reverse [] (by simp) (t.heap.length + 1)
      (by rw [List.length_reverse]; omega)
    rw [List.head?_reverse] at this
    exact this
  · intro i
    rw [List.mem_reverse]
    exact hh.2.2.2 i
  · rw [List.pairwise_reverse]
    exact (ids_sorted hh hs).imp fun h ndi ndj hi hj => h ndj ndi hj hi
  · intro i nd hg
    exact predecessor_cells tot hh hs hg

theorem predecessor_walk_witness :
    ∃ t start walk, insertAll valOps (NewTreap (Int × Nat))
        [((5, 1), 3), ((2, 1), 7), ((8, 1), 1), ((2, 1), 9), ((1, 1), 8)] = some t ∧
      t.Max = some start ∧
      predecessorWalk t.heap (t.heap.length + 1) start = some walk ∧
      walk.Nodup ∧ (∀ i, i ∈ walk ↔ i < t.heap.length) ∧
      (walk.Pairwise fun i j => ∀ ndi ndj : TreapNode (Int × Nat), t.heap[i]? = some ndi →
        t.heap[j]? = some ndj → valOps.Compare ndj.Value ndi.Value < 0) ∧
      ∀ (i : Nat) (nd : TreapNode (Int × Nat)), t.heap[i]? = some nd →
        ∃ s, TreapNode.Predecessor t.heap i = some s ∧
          (s = none ↔ ∀ nd2 ∈ t.heap, valOps.Compare nd.Value nd2.Value ≤ 0) ∧
          ∀ j, s = some j → ∃ ndj : TreapNode (Int × Nat), t.heap[j]? = some ndj ∧
            valOps.Compare ndj.Value nd.Value < 0 ∧
            ∀ nd2 ∈ t.heap, valOps.Compare nd2.Value nd.Value < 0 →
              valOps.Compare nd2.Value ndj.Value ≤ 0 :=
  predecessor_walk valOps valOps_total valOps_merge _

/-- C9 as stated fails: with the integer order and a `Merge` that adds `2`, after inserting
`1`, `2`, `1` the walk from `Max()` visits node `1` holding `2` and then node `0` holding
`3`: the values do not decrease. -/
theorem predecessor_walk_fails_without_merge_contract :
    TotalOrder shiftOps ∧
      ∃ t, insertAll shiftOps (NewTreap Int) [(1, 5), (2, 3), (1, 0)] = some t ∧
        t.Max = some (some 1) ∧
        predecessorWalk t.heap (t.heap.length + 1) (some 1) = some [1, 0] ∧
        t.heap[1]? = some ⟨2, 3, some 0, none, none⟩ ∧
        t.heap[0]? = some ⟨3, 5, none, none, some 1⟩ ∧ ¬ shiftOps.Compare 3 2 < 0 :=
  ⟨shiftOps_total,
    { heap := [⟨3, 5, none, none, some 1⟩, ⟨2, 3, some 0, none, none⟩], root := some 0 },
    by decide, by decide, by decide, by decide, by decide, by decide⟩

/-- C5 (amended): when `Compare` is a total order up to equivalence and `Merge` leaves the
receiver in its equivalence class, on every treap built by `Insert` calls and for every
value `v`, `Insert(v)` terminates and returns a node of the resulting treap whose value
compares equal to `v`, with a flag that is true exactly when no value stored before the call
compared equal to `v`. -/
theorem insert_result (V : TreapValue T) (tot : TotalOrder V) (mk : MergeKeepsKey V)
    (ops : List (T × Nat)) (v : T) (pr : Nat) :
    ∃ t t2 node flag, insertAll V (NewTreap T) ops = some t ∧
      t.Insert V v pr = some (t2, node, flag) ∧
      (∃ nd : TreapNode T, t2.heap[node]? = some nd ∧ V.Compare nd.Value v = 0) ∧
      (flag = true ↔ ∀ nd ∈ t.heap, V.Compare nd.Value v ≠ 0) := by
  obtain ⟨t, tr, e, hh, hs⟩ := reachable_sorted tot mk ops
  obtain ⟨t2, e2, hh2⟩ := Insert_spec V hh v pr
  rcases insert_step tot hs hh.2.2.1 v pr t.heap.length with
    ⟨hres, hno, hent⟩ | ⟨j, v2, hres, hj, h0, hent⟩
  · rw [hres] at e2
    obtain ⟨nd, hg, hv⟩ := Repr_entries hh2.2.1 t.heap.length v ((hent _).2 (Or.inl rfl))
    refine ⟨t, t2, _, _, e, e2, ⟨nd, hg, by rw [hv]; exact tot.refl v⟩, ?_⟩
    simp only [true_iff]
    intro nd2 hm
    exact hno _ ((Holds_values hh nd2.Value).1 ⟨nd2, hm, rfl⟩)
  · rw [hres] at e2
    obtain ⟨nd, hg, hv⟩ := Repr_entries hh2.2.1 j (V.Merge v2 v) ((hent _).2 (Or.inl rfl))
    refine ⟨t, t2, _, _, e, e2, ⟨nd, hg, by rw [hv]; exact tot.equiv_trans (mk v2 v h0) h0⟩, ?_⟩
    simp only [Bool.false_eq_true, false_iff, not_forall]
    obtain ⟨nd2, hm, hv2⟩ := (Holds_values hh v2).2 (entries_mem_vals hj)
    exact ⟨nd2, hm, by rw [hv2]; simpa using h0⟩

theorem insert_result_witness :
    ∃ t t2 node flag, insertAll valOps (NewTreap (Int × Nat))
        [((5, 1), 3), ((2, 1), 7), ((8, 1), 1), ((2, 1), 9), ((1, 1), 8)] = some t ∧
      t.Insert valOps (8, 1) 4 = some (t2, node, flag) ∧
      (∃ nd : TreapNode (Int × Nat), t2.heap[node]? = some nd ∧
        valOps.Compare nd.Value (8, 1) = 0) ∧
      (flag = true ↔ ∀ nd ∈ t.heap, valOps.Compare nd.Value (8, 1) ≠ 0) :=
  insert_result valOps valOps_total valOps_merge _ (8, 1) 4

/-- C5 as stated fails: with the integer order and a `Merge` that adds `2`, on the treap
holding `1` the call `Insert(1)` returns node `0`, whose value is then `3` and does not
compare equal to `1`. -/
theorem insert_result_fails_without_merge_contract :
    TotalOrder shiftOps ∧
      ∃ t t2, insertAll shiftOps (NewTreap Int) [(1, 5)] = some t ∧
        t.Insert shiftOps 1 0 = some (t2, 0, false) ∧
        t2.heap[0]? = some ⟨3, 5, none, none, none⟩ ∧ shiftOps.Compare 3 1 ≠ 0 :=
  ⟨shiftOps_total, { heap := [⟨1, 5, none, none, none⟩], root := some 0 },
    { heap := [⟨3, 5, none, none, none⟩], root := some 0 },
    by decide, by decide, by decide, by decide⟩

theorem insertAll_eq_log (V : TreapValue T) (ops : List (T × Nat)) :
    ∀ (t : Treap T), insertAll V t ops = (insertLog V t ops).map Prod.fst := by
  induction ops with
  | nil => intro t; rfl
  | cons op rest ih =>
    intro t
    obtain ⟨v, pr⟩ := op
    simp only [insertAll, insertLog, Option.bind_eq_bind]
    rcases Treap.Insert V t v pr with _ | ⟨t1, node, fl⟩
    · rfl
    · simp only [Option.some_bind, ih t1]
      rcases insertLog V t1 rest with _ | ⟨t2, log⟩ <;> rfl

/-- C6 (amended): when `Compare` is a total order up to equivalence and `Merge` leaves the
receiver in its equivalence class, take any sequence of `Insert` calls on the empty treap and
a key `k` such that the inserted values comparing equal to `k` are `v0` followed by `rest`
(in insertion order, interleaved with any other inserts). Then all calls succeed, exactly
one node holds a value comparing equal to `k`, its value is `v0` with `Merge` applied once
for each value of `rest` in order, and the calls for these values all return that node, the
first with the flag "new" and the others without. -/
theorem merge_fold (V : TreapValue T) (tot : TotalOrder V) (mk : MergeKeepsKey V)
    (ops : List (T × Nat)) (k v0 : T) (rest : List T) (hsame : sameKey V k ops = v0 :: rest) :
    ∃ t log i, insertLog V (NewTreap T) ops = some (t, log) ∧
      insertAll V (NewTreap T) ops = some t ∧
      (∃ nd : TreapNode T, t.heap[i]? = some nd ∧ nd.Value = rest.foldl V.Merge v0 ∧
        V.Compare nd.Value k = 0) ∧
      (∀ (j : Nat) (ndj : TreapNode T), t.heap[j]? = some ndj →
        V.Compare ndj.Value k = 0 → j = i) ∧
      keyLog V k ops log = (i, true) :: List.replicate rest.length (i, false) := by
  obtain ⟨t, tr, log, e, hh, hs, _, hB⟩ := log_spec tot mk k ops (NewTreap T) .nil (Holds_new T)
    (by simp [Tree.vals])
  rcases hB (by simp [Tree.vals]) with ⟨g1, _, _⟩ | ⟨w0, rs, i, g1, g2, g3, g4⟩
  · rw [hsame] at g1; cases g1
  · rw [hsame] at g1
    simp only [List.cons.injEq] at g1
    obtain ⟨rfl, rfl⟩ := g1
    obtain ⟨nd, hg, hv⟩ := Repr_entries hh.2.1 i _ g2
    refine ⟨t, log, i, e, by rw [insertAll_eq_log, e]; rfl, ⟨nd, hg, hv, by rw [hv]; exact g3⟩,
      ?_, g4⟩
    intro j ndj hj hk
    have := entry_unique tot hs (Holds_cell hh hj) g2
      (tot.equiv_trans hk (tot.eq_symm g3))
    simp only [Prod.mk.injEq] at this
    exact this.1

theorem merge_fold_witness :
    ∃ t log i, insertLog valOps (NewTreap (Int × Nat))
        [((5, 1), 3), ((2, 1), 7), ((8, 1), 1), ((2, 1), 9), ((1, 1), 8)] = some (t, log) ∧
      insertAll valOps (NewTreap (Int × Nat))
        [((5, 1), 3), ((2, 1), 7), ((8, 1), 1), ((2, 1), 9), ((1, 1), 8)] = some t ∧
      (∃ nd : TreapNode (Int × Nat), t.heap[i]? = some nd ∧
        nd.Value = [((2 : Int), 1)].foldl valOps.Merge (2, 1) ∧
        valOps.Compare nd.Value (2, 0) = 0) ∧
      (∀ (j : Nat) (ndj : TreapNode (Int × Nat)), t.heap[j]? = some ndj →
        valOps.Compare ndj.Value (2, 0) = 0 → j = i) ∧
      keyLog valOps (2, 0) [((5, 1), 3), ((2, 1), 7), ((8, 1), 1), ((2, 1), 9), ((1, 1), 8)] log =
        (i, true) :: List.replicate [((2 : Int), 1)].length (i, false) :=
  merge_fold valOps valOps_total valOps_merge _ (2, 0) (2, 1) [(2, 1)] (by decide)

/-- C6 as stated fails: with the integer order and a `Merge` that adds `2`, inserting `1`
three times creates a node, merges into it (its value becomes `3`), and then creates a
second node: the third call reports "new" too. -/
theorem merge_fold_fails_without_merge_contract :
    TotalOrder shiftOps ∧ sameKey shiftOps 1 [(1, 5), (1, 3), (1, 0)] = [1, 1, 1] ∧
      insertLog shiftOps (NewTreap Int) [(1, 5), (1, 3), (1, 0)] =
        some ({ heap := [⟨3, 5, none, some 1, none⟩, ⟨1, 0, some 0, none, none⟩],
                root := some 0 }, [(0, true), (0, false), (1, true)]) :=
  ⟨shiftOps_total, by decide, by decide⟩

theorem pairs_vals (t : Tree T) : t.pairs.map Prod.fst = t.vals := by
  induction t with
  | nil => rfl
  | node i l v p r ihl ihr => simp [Tree.pairs, Tree.vals, ihl, ihr]

theorem mem_pairs_fill (f : Frame T) (t : Tree T) (e : T × Nat) :
    e ∈ (f.fill t).pairs ↔ e ∈ t.pairs ∨ e = (f.v, f.p) ∨ e ∈ f.sib.pairs := by
  unfold Frame.fill
  cases f.dir
  · simp only [Tree.pairs, List.mem_append, List.mem_cons]
  · simp only [Tree.pairs, List.mem_append, List.mem_cons]; tauto

theorem mem_pairs_plug (c : List (Frame T)) : ∀ (t : Tree T) (e : T × Nat),
    e ∈ (plug c t).pairs ↔ e ∈ t.pairs ∨ e ∈ (plug c .nil).pairs := by
  induction c with
  | nil => intro t e; simp [plug, Tree.pairs]
  | cons f c ih =>
    intro t e
    simp only [plug]
    rw [ih (f.fill t), ih (f.fill .nil), mem_pairs_fill, mem_pairs_fill]
    simp only [Tree.pairs, List.not_mem_nil, false_or]
    tauto

/-- Rotating a node upward keeps the values and priorities stored. -/
theorem mem_pairs_bubble (c : List (Frame T)) :
    ∀ (n : Nat) (l : Tree T) (x : T) (px : Nat) (r : Tree T) (e : T × Nat),
      e ∈ (bubble c n l x px r).pairs ↔
        e ∈ (Tree.node n l x px r).pairs ∨ e ∈ (plug c .nil).pairs := by
  induction c with
  | nil => intro n l x px r e; simp [bubble, plug, Tree.pairs]
  | cons f c ih =>
    intro n l x px r e
    simp only [bubble]
    split_ifs with hlt
    · have hp : e ∈ (plug (f :: c) .nil).pairs ↔
          (e = (f.v, f.p) ∨ e ∈ f.sib.pairs) ∨ e ∈ (plug c .nil).pairs := by
        simp only [plug]
        rw [mem_pairs_plug, mem_pairs_fill]
        simp only [Tree.pairs, List.not_mem_nil, false_or]
      rcases hd : f.dir with _ | _
      · simp only
        rw [ih, hp]
        simp only [Tree.pairs, List.mem_append, List.mem_cons]
        tauto
      · simp only
        rw [ih, hp]
        simp only [Tree.pairs, List.mem_append, List.mem_cons]
        tauto
    · exact mem_pairs_plug (f :: c) _ e

/-- The search of `insert` ends at a nil slot when no value on its way compares equal. -/
theorem descend_nil (V : TreapValue T) (x : T) (t : Tree T) :
    ∀ (c : List (Frame T)), (∀ w ∈ t.vals, V.Compare w x ≠ 0) → (descend V x t c).2 = .nil := by
  induction t with
  | nil => intro c _; rfl
  | node i l v p r ihl ihr =>
    intro c hno
    have hv : V.Compare v x ≠ 0 := hno v (by simp [Tree.vals])
    simp only [descend, hv, if_false]
    split_ifs
    · exact ihl _ fun w hw => hno w (by simp [Tree.vals, hw])
    · exact ihr _ fun w hw => hno w (by simp [Tree.vals, hw])

/-- Inserting a value that compares equal to no stored one adds its value and priority
and keeps the others. -/
theorem mem_pairs_insert (V : TreapValue T) (tr : Tree T) (x : T) (pr n : Nat)
    (hno : ∀ w ∈ tr.vals, V.Compare w x ≠ 0) (e : T × Nat) :
    e ∈ (Tree.insert V tr x pr n).pairs ↔ e = (x, pr) ∨ e ∈ tr.pairs := by
  have hplug := descend_plug V x tr []
  have hnil := descend_nil V x tr [] hno
  unfold Tree.insert
  rcases hd : descend V x tr [] with ⟨c2, t2⟩
  rw [hd] at hplug hnil
  simp only at hnil
  subst hnil
  simp only [plug] at hplug
  simp only
  rw [mem_pairs_bubble, ← hplug]
  simp [Tree.pairs]

theorem insertResult_new (V : TreapValue T) (tr : Tree T) (x : T) (n : Nat)
    (hno : ∀ w ∈ tr.vals, V.Compare w x ≠ 0) :
    Tree.insertResult V tr x n = (n, true) := by
  have hnil := descend_nil V x tr [] hno
  unfold Tree.insertResult
  rcases hd : descend V x tr [] with ⟨c2, t2⟩
  rw [hd] at hnil
  simp only at hnil
  subst hnil
  rfl

/-- Inserting a value that compares equal to no stored one keeps the in-order sequence
increasing. -/
theorem sorted_insert_new {V : TreapValue T} (tot : TotalOrder V)
    (tr : Tree T) (x : T) (pr n : Nat) (hs : tr.vals.Pairwise fun a b => V.Compare a b < 0)
    (hno : ∀ w ∈ tr.vals, V.Compare w x ≠ 0) :
    (Tree.insert V tr x pr n).vals.Pairwise fun a b => V.Compare a b < 0 := by
  have hplug := descend_plug V x tr []
  have hnil := descend_nil V x tr [] hno
  obtain ⟨hb, ha, -⟩ := descend_bounds tot x tr [] hs
    (by intro a h; simp [ctxBefore] at h) (by intro a h; simp [ctxAfter] at h)
  unfold Tree.insert
  rcases hd : descend V x tr [] with ⟨c2, t2⟩
  rw [hd] at hplug hb ha hnil
  simp only at hnil
  subst hnil
  simp only [plug] at hplug hb ha
  rw [← hplug, vals_plug] at hs
  simp only [vals_bubble, Tree.vals, List.nil_append]
  simp only [Tree.vals, List.append_nil, List.pairwise_append] at hs
  simp only [List.pairwise_append, List.pairwise_cons, List.mem_append, List.mem_singleton,
    List.Pairwise.nil, and_true, List.not_mem_nil, false_implies, implies_true, true_and]
  refine ⟨⟨hs.1, fun a ham b hbx => hbx ▸ hb a ham⟩, hs.2.1, ?_⟩
  rintro a (ham | rfl) b hbm
  · exact hs.2.2 a ham b hbm
  · exact ha b hbm

/-- A sequence of `Insert` calls with pairwise inequivalent keys, none equivalent to a
stored one: the values and priorities stored afterwards are the old ones and the inserted
ones, and the in-order sequence stays increasing. -/
theorem insertAll_pairs {V : TreapValue T} (tot : TotalOrder V) (ops : List (T × Nat)) :
    ∀ (tr : Tree T), (tr.vals.Pairwise fun a b => V.Compare a b < 0) →
      (ops.Pairwise fun a b => V.Compare a.1 b.1 ≠ 0) →
      (∀ w ∈ tr.vals, ∀ op ∈ ops, V.Compare w op.1 ≠ 0) →
      ((Tree.insertAll V tr ops).vals.Pairwise fun a b => V.Compare a b < 0) ∧
        ∀ e, e ∈ (Tree.insertAll V tr ops).pairs ↔ e ∈ tr.pairs ∨ e ∈ ops := by
  induction ops with
  | nil => intro tr hs _ _; exact ⟨hs, by simp [Tree.insertAll]⟩
  | cons op rest ih =>
    intro tr hs hk hno
    obtain ⟨x, pr⟩ := op
    rw [List.pairwise_cons] at hk
    have hnox : ∀ w ∈ tr.vals, V.Compare w x ≠ 0 := fun w hw => hno w hw (x, pr) (by simp)
    have hmem := mem_pairs_insert V tr x pr tr.ids.length hnox
    obtain ⟨h1, h2⟩ := ih (Tree.insert V tr x pr tr.ids.length)
      (sorted_insert_new tot tr x pr _ hs hnox) hk.2 (by
        intro w hw op hop
        rw [← pairs_vals, List.mem_map] at hw
        obtain ⟨e, he, rfl⟩ := hw
        rcases (hmem e).1 he with rfl | he
        · exact hk.1 op hop
        · exact hno e.1 (by rw [← pairs_vals]; exact List.mem_map.2 ⟨e, he, rfl⟩) op
            (List.mem_cons_of_mem _ hop))
    refine ⟨h1, fun e => ?_⟩
    simp only [Tree.insertAll]
    rw [h2, hmem, List.mem_cons]
    tauto

/-- In a tree with the heap property no priority exceeds the one at the top. -/
theorem isHeap_top {t : Tree T} (hh : t.IsHeap) :
    ∀ q ∈ t.rootPriority, ∀ e ∈ t.pairs, e.2 ≤ q := by
  induction t with
  | nil => intro q hq; cases hq
  | node i l v p r ihl ihr =>
    intro q hq e he
    simp only [Tree.rootPriority, Option.mem_def, Option.some.injEq] at hq
    subst hq
    obtain ⟨h1, h2, h3, h4⟩ := hh
    simp only [Tree.pairs, List.mem_append, List.mem_cons] at he
    rcases he with he | rfl | he
    · cases l with
      | nil => cases he
      | node j a w q b =>
        exact le_trans (ihl h3 q rfl e he) (h1 q rfl)
    · exact le_refl _
    · cases r with
      | nil => cases he
      | node j a w q b =>
        exact le_trans (ihr h4 q rfl e he) (h2 q rfl)

theorem split_unique_by {α β : Type} (f : α → β) {a a2 : α} : ∀ {A A2 B B2 : List α},
    ((A ++ a :: B).map f).Nodup → A ++ a :: B = A2 ++ a2 :: B2 → f a = f a2 →
    A = A2 ∧ a = a2 ∧ B = B2 := by
  intro A
  induction A with
  | nil =>
    intro A2 B B2 hnd he hf
    cases A2 with
    | nil =>
      simp only [List.nil_append, List.cons.injEq] at he
      exact ⟨rfl, he.1, he.2⟩
    | cons y A2 =>
      exfalso
      simp only [List.nil_append, List.cons_append, List.cons.injEq] at he
      obtain ⟨rfl, rfl⟩ := he
      simp only [List.nil_append, List.map_cons, List.nodup_cons, List.mem_map] at hnd
      exact hnd.1 ⟨a2, by simp, hf.symm⟩
  | cons z A ih =>
    intro A2 B B2 hnd he hf
    cases A2 with
    | nil =>
      exfalso
      simp only [List.nil_append, List.cons_append, List.cons.injEq] at he
      obtain ⟨rfl, rfl⟩ := he
      simp only [List.cons_append, List.map_cons, List.nodup_cons, List.mem_map] at hnd
      exact hnd.1 ⟨a, by simp, hf⟩
    | cons y A2 =>
      simp only [List.cons_append, List.cons.injEq] at he
      obtain ⟨rfl, he⟩ := he
      simp only [List.cons_append, List.map_cons, List.nodup_cons] at hnd
      obtain ⟨h1, h2, h3⟩ := ih hnd.2 he hf
      exact ⟨by rw [h1], h2, h3⟩

/-- Treap uniqueness: two trees with the heap property, the same in-order sequence of
values and priorities, and no priority twice, have the same shape. -/
theorem views_unique (t1 : Tree T) : ∀ (t2 : Tree T), t1.pairs = t2.pairs →
    t1.IsHeap → t2.IsHeap → (t1.pairs.map Prod.snd).Nodup →
    t1.rootKey = t2.rootKey ∧ ∀ par, Tree.views par t1 = Tree.views par t2 := by
  induction t1 with
  | nil =>
    intro t2 he _ _ _
    cases t2 with
    | nil => exact ⟨rfl, fun _ => rfl⟩
    | node j l2 v2 p2 r2 => simp [Tree.pairs] at he
  | node i l v p r ihl ihr =>
    intro t2 he hh1 hh2 hnd
    cases t2 with
    | nil => simp [Tree.pairs] at he
    | node j l2 v2 p2 r2 =>
      have ha : p ≤ p2 := by
        have := isHeap_top hh2 p2 rfl (v, p) (by rw [← he]; simp [Tree.pairs])
        exact this
      have hb : p2 ≤ p := by
        have := isHeap_top hh1 p rfl (v2, p2) (by rw [he]; simp [Tree.pairs])
        exact this
      have hpp : p = p2 := le_antisymm ha hb
      simp only [Tree.pairs] at he hnd
      obtain ⟨e1, e2, e3⟩ := split_unique_by Prod.snd hnd he hpp
      simp only [Prod.mk.injEq] at e2
      obtain ⟨rfl, rfl⟩ := e2
      have hndl : (l.pairs.map Prod.snd).Nodup := by
        rw [List.map_append, List.nodup_append] at hnd
        exact hnd.1
      have hndr : (r.pairs.map Prod.snd).Nodup := by
        rw [List.map_append, List.nodup_append, List.map_cons, List.nodup_cons] at hnd
        exact hnd.2.1.2
      obtain ⟨kl, vl⟩ := ihl l2 e1 hh1.2.2.1 hh2.2.2.1 hndl
      obtain ⟨kr, vr⟩ := ihr r2 e3 hh1.2.2.2 hh2.2.2.2 hndr
      refine ⟨rfl, fun par => ?_⟩
      simp only [Tree.views, kl, kr, vl, vr]

theorem keyAt_root {h : Heap T} {t : Tree T} {par : Option Nat} (hr : Repr h par t) :
    keyAt h t.rootPtr = t.rootKey := by
  cases t with
  | nil => rfl
  | node i l v p r =>
    simp only [Repr] at hr
    simp [keyAt, Tree.rootPtr, Tree.rootKey, hr.1]

/-- The views of the cells of a represented tree are the views of the tree. -/
theorem nodeView_ids {h : Heap T} (t : Tree T) : ∀ (par : Option Nat), Repr h par t →
    t.ids.map (nodeView h) = (Tree.views (keyAt h par) t).map some := by
  induction t with
  | nil => intro par _; rfl
  | node i l v p r ihl ihr =>
    intro par hr
    simp only [Repr] at hr
    obtain ⟨hc, hl, hrr⟩ := hr
    have hk : keyAt h (some i) = some (v, p) := by simp [keyAt, hc]
    have e1 := ihl (some i) hl
    have e2 := ihr (some i) hrr
    rw [hk] at e1 e2
    simp only [Tree.ids, Tree.views, List.map_append, List.map_cons, e1, e2]
    congr 2
    simp [nodeView, hc, keyAt_root hl, keyAt_root hrr]

theorem Holds_views {t : Treap T} {tr : Tree T} (hh : t.Holds tr)
    (w : (T × Nat) × Option (T × Nat) × Option (T × Nat) × Option (T × Nat)) :
    (∃ i, nodeView t.heap i = some w) ↔ w ∈ Tree.views none tr := by
  have hv := nodeView_ids tr none hh.2.1
  have hk : keyAt t.heap none = none := rfl
  rw [hk] at hv
  constructor
  · rintro ⟨i, hi⟩
    have hlt : i < t.heap.length := by
      rcases hg : t.heap[i]? with _ | nd
      · simp [nodeView, hg] at hi
      · exact lt_of_get hg
    have hm : some w ∈ tr.ids.map (nodeView t.heap) :=
      List.mem_map.2 ⟨i, (hh.2.2.2 i).2 hlt, hi⟩
    rw [hv, List.mem_map] at hm
    obtain ⟨w2, hw2, e⟩ := hm
    cases e
    exact hw2
  · intro hw
    have hm : some w ∈ (Tree.views none tr).map some := List.mem_map.2 ⟨w, hw, rfl⟩
    rw [← hv, List.mem_map] at hm
    obtain ⟨i, _, hi⟩ := hm
    exact ⟨i, hi⟩

theorem pairs_length (t : Tree T) : t.pairs.length = t.ids.length := by
  induction t with
  | nil => rfl
  | node i l v p r ihl ihr => simp [Tree.pairs, Tree.ids, ihl, ihr]

/-- What a sequence of `Insert` calls with pairwise inequivalent keys builds from the empty
treap: a heap-ordered tree whose in-order sequence is increasing and lists exactly the
inserted values with their priorities. -/
theorem build_spec {V : TreapValue T} (tot : TotalOrder V) (ops : List (T × Nat))
    (hk : ops.Pairwise fun a b => V.Compare a.1 b.1 ≠ 0) :
    ∃ t tr, insertAll V (NewTreap T) ops = some t ∧ t.Holds tr ∧ tr.IsHeap ∧
      (tr.pairs.Pairwise fun a b => V.Compare a.1 b.1 < 0) ∧ ∀ e, e ∈ tr.pairs ↔ e ∈ ops := by
  obtain ⟨t, e, hh⟩ := reachable_holds V ops
  obtain ⟨hs, hm⟩ := insertAll_pairs tot ops .nil (by simp [Tree.vals]) hk
    (by intro w hw; simp [Tree.vals] at hw)
  refine ⟨t, _, e, hh, isHeap_insertAll V ops .nil trivial, ?_, ?_⟩
  · rw [← pairs_vals, List.pairwise_map] at hs
    exact hs
  · intro e; rw [hm]; simp [Tree.pairs]

/-- Two lists increasing for `Compare` with the same members are equal. -/
theorem sorted_ext {V : TreapValue T} (tot : TotalOrder V) {l1 l2 : List (T × Nat)}
    (h1 : l1.Pairwise fun a b => V.Compare a.1 b.1 < 0)
    (h2 : l2.Pairwise fun a b => V.Compare a.1 b.1 < 0)
    (hm : ∀ e, e ∈ l1 ↔ e ∈ l2) : l1 = l2 := by
  have irr : ∀ a : T × Nat, ¬ V.Compare a.1 a.1 < 0 := fun a h => by
    have := tot.refl a.1; omega
  have imp : ∀ l : List (T × Nat), (l.Pairwise fun a b => V.Compare a.1 b.1 < 0) → l.Nodup := by
    intro l hl
    unfold List.Nodup
    refine hl.imp ?_
    intro a b hab he
    rw [he] at hab
    exact irr b hab
  have n1 : l1.Nodup := imp l1 h1
  have n2 : l2.Nodup := imp l2 h2
  have hp : l1.Perm l2 := (List.perm_ext_iff_of_nodup n1 n2).2 hm
  haveI : IsAntisymm (T × Nat) (fun a b => V.Compare a.1 b.1 < 0) :=
    ⟨fun a b hab hba => by have := (tot.1 a.1 b.1).1 hab; omega⟩
  exact List.eq_of_perm_of_sorted hp h1 h2

/-- C11: under a total order, take (value, priority) pairs with pairwise inequivalent keys
and pairwise distinct priorities and insert them into the empty treap in two different
orders. Both runs succeed and build the same tree: each has one node per pair, the roots
hold the same pair, and the nodes, each described by its own pair and the pairs of its
parent, left child and right child, are the same in both. -/
theorem insertion_order_independence (V : TreapValue T) (tot : TotalOrder V)
    (ops1 ops2 : List (T × Nat)) (hperm : ops1.Perm ops2)
    (hkeys : ops1.Pairwise fun a b => V.Compare a.1 b.1 ≠ 0)
    (hprios : ops1.Pairwise fun a b => a.2 ≠ b.2) :
    ∃ t1 t2, insertAll V (NewTreap T) ops1 = some t1 ∧ insertAll V (NewTreap T) ops2 = some t2 ∧
      t1.heap.length = ops1.length ∧ t2.heap.length = ops1.length ∧
      keyAt t1.heap t1.root = keyAt t2.heap t2.root ∧
      ∀ w, (∃ i, nodeView t1.heap i = some w) ↔ (∃ j, nodeView t2.heap j = some w) := by
  have hkeys2 : ops2.Pairwise fun a b => V.Compare a.1 b.1 ≠ 0 :=
    (hperm.pairwise_iff (fun {a b} hab hba => hab (tot.eq_symm hba))).1 hkeys
  obtain ⟨t1, tr1, e1, hh1, hp1, hs1, hm1⟩ := build_spec tot ops1 hkeys
  obtain ⟨t2, tr2, e2, hh2, hp2, hs2, hm2⟩ := build_spec tot ops2 hkeys2
  have heq : tr1.pairs = tr2.pairs :=
    sorted_ext tot hs1 hs2 fun e => by rw [hm1, hm2]; exact hperm.mem_iff
  have irr : ∀ a : T × Nat, ¬ V.Compare a.1 a.1 < 0 := fun a h => by
    have := tot.refl a.1; omega
  have n1 : tr1.pairs.Nodup := by
    unfold List.Nodup
    refine hs1.imp ?_
    intro a b hab he
    rw [he] at hab
    exact irr b hab
  have n0 : ops1.Nodup := by
    unfold List.Nodup
    refine hprios.imp ?_
    intro a b hab he
    exact hab (by rw [he])
  have hpo : tr1.pairs.Perm ops1 := (List.perm_ext_iff_of_nodup n1 n0).2 hm1
  have hnd : (tr1.pairs.map Prod.snd).Nodup := by
    rw [(hpo.map Prod.snd).nodup_iff]
    unfold List.Nodup
    rw [List.pairwise_map]
    exact hprios
  obtain ⟨hk, hv⟩ := views_unique tr1 tr2 heq hp1 hp2 hnd
  refine ⟨t1, t2, e1, e2, ?_, ?_, ?_, ?_⟩
  · rw [Holds_length hh1, ← pairs_length, hpo.length_eq]
  · rw [Holds_length hh2, ← pairs_length, ← heq, hpo.length_eq]
  · rw [hh1.1, hh2.1, keyAt_root hh1.2.1, keyAt_root hh2.2.1, hk]
  · intro w
    rw [Holds_views hh1, Holds_views hh2, hv]

theorem insertion_order_independence_witness :
    ∃ t1 t2,
      insertAll valOps (NewTreap (Int × Nat)) [((5, 1), 3), ((2, 1), 7), ((8, 1), 1)] = some t1 ∧
      insertAll valOps (NewTreap (Int × Nat)) [((8, 1), 1), ((5, 1), 3), ((2, 1), 7)] = some t2 ∧
      t1.heap.length = [(((5 : Int), 1), 3), ((2, 1), 7), ((8, 1), 1)].length ∧
      t2.heap.length = [(((5 : Int), 1), 3), ((2, 1), 7), ((8, 1), 1)].length ∧
      keyAt t1.heap t1.root = keyAt t2.heap t2.root ∧
      ∀ w, (∃ i, nodeView t1.heap i = some w) ↔ (∃ j, nodeView t2.heap j = some w) :=
  insertion_order_independence valOps valOps_total _ _
    (by decide) (by decide) (by decide)

theorem map_set_key {h : Heap T} {p : Nat} {nd nd2 : TreapNode T} (hp : h[p]? = some nd)
    (hv : nd2.Value = nd.Value) (hpr : nd2.priority = nd.priority) :
    (h.set p nd2).map (fun c => (c.Value, c.priority)) = h.map fun c => (c.Value, c.priority) := by
  apply List.ext_getElem?
  intro i
  simp only [List.getElem?_map, List.getElem?_set]
  split_ifs with h1 h2
  · subst h1; rw [hp]; simp [hv, hpr]
  · subst h1
    have := lt_of_get hp
    simp at h2
    omega
  · rfl

theorem setParent_keys {h h2 : Heap T} {p : Nat} {v : Option Nat} (e : setParent h p v = some h2) :
    h2.map (fun c => (c.Value, c.priority)) = h.map fun c => (c.Value, c.priority) := by
  unfold setParent at e
  rcases hp : h[p]? with _ | nd
  · rw [hp] at e; cases e
  · rw [hp] at e
    simp only [Option.some.injEq] at e
    subst e
    exact map_set_key hp rfl rfl

theorem setLeft_keys {h h2 : Heap T} {p : Nat} {v : Option Nat} (e : setLeft h p v = some h2) :
    h2.map (fun c => (c.Value, c.priority)) = h.map fun c => (c.Value, c.priority) := by
  unfold setLeft at e
  rcases hp : h[p]? with _ | nd
  · rw [hp] at e; cases e
  · rw [hp] at e
    simp only [Option.some.injEq] at e
    subst e
    exact map_set_key hp rfl rfl

theorem setRight_keys {h h2 : Heap T} {p : Nat} {v : Option Nat} (e : setRight h p v = some h2) :
    h2.map (fun c => (c.Value, c.priority)) = h.map fun c => (c.Value, c.priority) := by
  unfold setRight at e
  rcases hp : h[p]? with _ | nd
  · rw [hp] at e; cases e
  · rw [hp] at e
    simp only [Option.some.injEq] at e
    subst e
    exact map_set_key hp rfl rfl

theorem rotateRight_keys {h h2 : Heap T} {n : Nat} (e : TreapNode.rotateRight h n = some h2) :
    h2.map (fun c => (c.Value, c.priority)) = h.map fun c => (c.Value, c.priority) := by
  simp only [TreapNode.rotateRight, Option.bind_eq_bind, Option.bind_eq_some] at e
  obtain ⟨nn, -, a1, -, p1, -, h1, e1, a4, -, h2', e2, a6, -, p3, -, h3, e3, e4⟩ := e
  have k1 := setParent_keys e1
  have k2 := setRight_keys e2
  have k3 := setLeft_keys e3
  rcases hrc : nn.right with _ | rc
  · rw [hrc] at e4
    simp only [Option.some.injEq] at e4
    subst e4
    rw [k3, k2, k1]
  · rw [hrc] at e4
    simp only [Option.bind_eq_some] at e4
    obtain ⟨f, -, e5⟩ := e4
    rw [setParent_keys e5, k3, k2, k1]

theorem rotateLeft_keys {h h2 : Heap T} {n : Nat} (e : TreapNode.rotateLeft h n = some h2) :
    h2.map (fun c => (c.Value, c.priority)) = h.map fun c => (c.Value, c.priority) := by
  simp only [TreapNode.rotateLeft, Option.bind_eq_bind, Option.bind_eq_some] at e
  obtain ⟨nn, -, a1, -, p1, -, h1, e1, a4, -, h2', e2, a6, -, p3, -, h3, e3, e4⟩ := e
  have k1 := setParent_keys e1
  have k2 := setLeft_keys e2
  have k3 := setRight_keys e3
  rcases hrc : nn.left with _ | rc
  · rw [hrc] at e4
    simp only [Option.some.injEq] at e4
    subst e4
    rw [k3, k2, k1]
  · rw [hrc] at e4
    simp only [Option.bind_eq_some] at e4
    obtain ⟨f, -, e5⟩ := e4
    rw [setParent_keys e5, k3, k2, k1]

theorem relink_keys {y h2 : Heap T} {n p : Nat} {g : Option Nat}
    (e : ((setParent y n g).bind fun h2 =>
      match g with
      | none => some h2
      | some g =>
        (load h2 g).bind fun gn =>
          if gn.left = some p then setLeft h2 g (some n) else setRight h2 g (some n)) = some h2) :
    h2.map (fun c => (c.Value, c.priority)) = y.map fun c => (c.Value, c.priority) := by
  simp only [Option.bind_eq_some] at e
  obtain ⟨h1, e1, e2⟩ := e
  have k1 := setParent_keys e1
  cases g with
  | none =>
    simp only [Option.some.injEq] at e2
    subst e2
    exact k1
  | some gi =>
    simp only [Option.bind_eq_some] at e2
    obtain ⟨gn, -, e3⟩ := e2
    split_ifs at e3
    · rw [setLeft_keys e3, k1]
    · rw [setRight_keys e3, k1]

theorem heapifyBody_keys {h h2 : Heap T} {n p : Nat} (e : heapifyBody h n p = some h2) :
    h2.map (fun c => (c.Value, c.priority)) = h.map fun c => (c.Value, c.priority) := by
  simp only [heapifyBody, Option.bind_eq_bind, Option.bind_eq_some] at e
  obtain ⟨a, -, a1, -, a2, -, a3, -, e⟩ := e
  split_ifs at e
  · simp only [Option.bind_eq_some] at e
    obtain ⟨y, ey, e⟩ := e
    have := relink_keys (by simpa only [Option.bind_eq_some] using e)
    rw [this, rotateRight_keys ey]
  · simp only [Option.bind_eq_some] at e
    obtain ⟨y, ey, e⟩ := e
    have := relink_keys (by simpa only [Option.bind_eq_some] using e)
    rw [this, rotateLeft_keys ey]

theorem heapify_keys : ∀ (fuel : Nat) {h h2 : Heap T} {n : Nat},
    TreapNode.heapify fuel h n = some h2 →
    h2.map (fun c => (c.Value, c.priority)) = h.map fun c => (c.Value, c.priority) := by
  intro fuel
  induction fuel with
  | zero => intro h h2 n e; simp [TreapNode.heapify] at e
  | succ k ih =>
    intro h h2 n e
    simp only [TreapNode.heapify, Option.bind_eq_bind, Option.bind_eq_some] at e
    obtain ⟨nn, -, e⟩ := e
    rcases hp : nn.parent with _ | p
    · rw [hp] at e
      simp only [Option.some.injEq] at e
      rw [e]
    · rw [hp] at e
      simp only [Option.bind_eq_some] at e
      obtain ⟨pn, -, e⟩ := e
      split_ifs at e
      · simp only [Option.bind_eq_some] at e
        obtain ⟨h1, e1, e⟩ := e
        rw [ih e, heapifyBody_keys e1]
      · simp only [Option.some.injEq] at e
        rw [e]

/-- What `insert` returns, read off its code: either it found a node whose value compares
equal and merged into it, changing nothing else, or it allocated one cell, left the value
and priority of every other cell alone and never called `Merge`. -/
theorem insert_cases (V : TreapValue T) : ∀ (fuel : Nat) {h h2 : Heap T} {n j : Nat} {x : T}
    {pr : Nat} {fl : Bool}, TreapNode.insert V fuel h n x pr = some (h2, j, fl) →
    (fl = false ∧ ∃ nn, h[j]? = some nn ∧ V.Compare nn.Value x = 0 ∧
        h2 = h.set j { nn with Value := V.Merge nn.Value x }) ∨
    (fl = true ∧ j = h.length ∧
      h2.map (fun c => (c.Value, c.priority)) =
        h.map (fun c => (c.Value, c.priority)) ++ [(x, pr)] ∧
      ∀ M, TreapNode.insert { Compare := V.Compare, Merge := M } fuel h n x pr =
        some (h2, j, fl)) := by
  intro fuel
  induction fuel with
  | zero => intro h h2 n j x pr fl e; simp [TreapNode.insert] at e
  | succ k ih =>
    intro h h2 n j x pr fl e
    have e0 := e
    simp only [TreapNode.insert, Option.bind_eq_bind, Option.bind_eq_some] at e
    obtain ⟨nn, hn, e⟩ := e
    by_cases h0 : V.Compare nn.Value x = 0
    · rw [if_pos h0] at e
      simp only [Option.some.injEq, Prod.mk.injEq] at e
      obtain ⟨rfl, rfl, rfl⟩ := e
      exact Or.inl ⟨rfl, nn, hn, h0, rfl⟩
    · rw [if_neg h0] at e
      rcases hnext : (if V.Compare nn.Value x > 0 then nn.left else nn.right) with _ | c
      · rw [hnext] at e
        simp only [Option.bind_eq_some] at e
        obtain ⟨h2', e2, e⟩ := e
        have hk : ∃ h3 h4, h3.map (fun c => (c.Value, c.priority)) =
              h2'.map (fun c => (c.Value, c.priority)) ∧
            TreapNode.heapify (h3.length + 1) h3 h.length = some h4 ∧
            (h4, h.length, true) = (h2, j, fl) := by
          split_ifs at e
          · simp only [Option.bind_eq_some, Option.some.injEq] at e
            obtain ⟨h3, e3, h4, e4, e5⟩ := e
            exact ⟨h3, h4, setLeft_keys e3, e4, e5⟩
          · simp only [Option.bind_eq_some, Option.some.injEq] at e
            obtain ⟨h3, e3, h4, e4, e5⟩ := e
            exact ⟨h3, h4, setRight_keys e3, e4, e5⟩
        obtain ⟨h3, h4, k3, e4, e5⟩ := hk
        simp only [Prod.mk.injEq] at e5
        obtain ⟨rfl, rfl, rfl⟩ := e5
        right
        refine ⟨rfl, rfl, ?_, ?_⟩
        · rw [heapify_keys _ e4, k3, setParent_keys e2]
          simp [newTreapNode]
        · intro M
          rw [← e0]
          simp only [TreapNode.insert, Option.bind_eq_bind, hn, Option.some_bind, if_neg h0,
            hnext]
      · rw [hnext] at e
        simp only at e
        rcases ih e with ⟨rfl, nn2, g1, g2, g3⟩ | ⟨rfl, g1, g2, g3⟩
        · exact Or.inl ⟨rfl, nn2, g1, g2, g3⟩
        · refine Or.inr ⟨rfl, g1, g2, fun M => ?_⟩
          rw [← g3 M]
          simp only [TreapNode.insert, Option.bind_eq_bind, hn, Option.some_bind, if_neg h0,
            hnext]

/-- What `Insert` returns, read off its code (see `insert_cases`). -/
theorem Insert_cases (V : TreapValue T) {t t2 : Treap T} {x : T} {pr j : Nat} {fl : Bool}
    (e : Treap.Insert V t x pr = some (t2, j, fl)) :
    (fl = false ∧ ∃ nn, t.heap[j]? = some nn ∧ V.Compare nn.Value x = 0 ∧
        t2.heap = t.heap.set j { nn with Value := V.Merge nn.Value x }) ∨
    (fl = true ∧ j = t.heap.length ∧
      t2.heap.map (fun c => (c.Value, c.priority)) =
        t.heap.map (fun c => (c.Value, c.priority)) ++ [(x, pr)] ∧
      ∀ M, Treap.Insert { Compare := V.Compare, Merge := M } t x pr = some (t2, j, fl)) := by
  unfold Treap.Insert at e
  rcases hr : t.root with _ | r
  · rw [hr] at e
    simp only [Option.some.injEq, Prod.mk.injEq] at e
    obtain ⟨rfl, rfl, rfl⟩ := e
    refine Or.inr ⟨rfl, rfl, by simp [newTreapNode], fun M => ?_⟩
    simp only [Treap.Insert, hr]
  · rw [hr] at e
    simp only [Option.bind_eq_bind, Option.bind_eq_some] at e
    obtain ⟨⟨h1, node, isNew⟩, e1, nd, hnd, e2⟩ := e
    have e3 : t2.heap = h1 ∧ j = node ∧ fl = isNew := by
      rcases hp : nd.parent with _ | p
      · rw [hp] at e2
        simp only [Option.some.injEq, Prod.mk.injEq] at e2
        obtain ⟨rfl, rfl, rfl⟩ := e2
        exact ⟨rfl, rfl, rfl⟩
      · rw [hp] at e2
        simp only [Option.some.injEq, Prod.mk.injEq] at e2
        obtain ⟨rfl, rfl, rfl⟩ := e2
        exact ⟨rfl, rfl, rfl⟩
    obtain ⟨g1, rfl, rfl⟩ := e3
    rcases insert_cases V _ e1 with ⟨rfl, nn, a1, a2, a3⟩ | ⟨rfl, a1, a2, a3⟩
    · exact Or.inl ⟨rfl, nn, a1, a2, by rw [g1, a3]⟩
    · refine Or.inr ⟨rfl, a1, by rw [g1, a2], fun M => ?_⟩
      simp only [Treap.Insert, hr, Option.bind_eq_bind, a3 M, Option.some_bind, hnd]
      exact e2

/-- Merging into the node found leaves the top of the tree where it was. -/
theorem rootPtr_insert_found (V : TreapValue T) (tr : Tree T) (x : T) (pr n j : Nat)
    (hres : Tree.insertResult V tr x n = (j, false)) :
    (Tree.insert V tr x pr n).rootPtr = tr.rootPtr := by
  have hplug := descend_plug V x tr []
  unfold Tree.insertResult at hres
  unfold Tree.insert
  rcases hd : descend V x tr [] with ⟨c2, t2⟩
  rw [hd] at hplug hres
  simp only [plug] at hplug
  cases t2 with
  | nil => simp at hres
  | node i l v p r =>
    simp only
    rw [← hplug, rootPtr_plug, rootPtr_plug]
    rfl

/-- C12 (amended): when `Compare` is a total order up to equivalence and `Merge` leaves the
receiver in its equivalence class, on every treap built by `Insert` calls and for every
value `v` that compares equal to a stored value, `Insert(v)` returns the node `j` holding
that value with the flag "not new", and the treap afterwards is the treap before with the
value of node `j` replaced by the result of one `Merge` with `v`: the root, every link,
every priority and every other value are the same. -/
theorem insert_existing_key (V : TreapValue T) (tot : TotalOrder V) (mk : MergeKeepsKey V)
    (ops : List (T × Nat)) (t : Treap T) (ht : insertAll V (NewTreap T) ops = some t)
    (v : T) (pr : Nat) (hex : ∃ nd ∈ t.heap, V.Compare nd.Value v = 0) :
    ∃ (j : Nat) (nn : TreapNode T), t.heap[j]? = some nn ∧ V.Compare nn.Value v = 0 ∧
      t.Insert V v pr =
        some ({ heap := t.heap.set j { nn with Value := V.Merge nn.Value v }, root := t.root },
          j, false) := by
  obtain ⟨t', tr, e, hh, hs⟩ := reachable_sorted tot mk ops
  rw [ht] at e
  simp only [Option.some.injEq] at e
  subst e
  obtain ⟨t2, e2, hh2⟩ := Insert_spec V hh v pr
  rcases insert_step tot hs hh.2.2.1 v pr t.heap.length with
    ⟨_, hno, _⟩ | ⟨j, v2, hres, _, _, _⟩
  · obtain ⟨nd, hm, h0⟩ := hex
    exact absurd h0 (hno _ ((Holds_values hh nd.Value).1 ⟨nd, hm, rfl⟩))
  · have hroot : t2.root = t.root := by
      rw [hh2.1, hh.1]
      exact rootPtr_insert_found V tr v pr _ j hres
    rw [hres] at e2
    rcases Insert_cases V e2 with ⟨_, nn, a1, a2, a3⟩ | ⟨hf, _⟩
    · refine ⟨j, nn, a1, a2, ?_⟩
      rw [e2]
      obtain ⟨hp2, r2⟩ := t2
      simp only at a3 hroot
      rw [a3, hroot]
    · cases hf

theorem insert_existing_key_witness :
    insertAll valOps (NewTreap (Int × Nat)) [((5, 1), 3), ((2, 1), 7), ((8, 1), 1)] =
        some { heap := [⟨(5, 1), 3, some 1, none, some 2⟩, ⟨(2, 1), 7, none, none, some 0⟩,
                        ⟨(8, 1), 1, some 0, none, none⟩], root := some 1 } ∧
      ∃ (j : Nat) (nn : TreapNode (Int × Nat)),
        ([⟨(5, 1), 3, some 1, none, some 2⟩, ⟨(2, 1), 7, none, none, some 0⟩,
          ⟨(8, 1), 1, some 0, none, none⟩] : Heap (Int × Nat))[j]? = some nn ∧
        valOps.Compare nn.Value (8, 1) = 0 ∧
        Treap.Insert valOps
          { heap := [⟨(5, 1), 3, some 1, none, some 2⟩, ⟨(2, 1), 7, none, none, some 0⟩,
                     ⟨(8, 1), 1, some 0, none, none⟩], root := some 1 } (8, 1) 4 =
          some ({ heap := ([⟨(5, 1), 3, some 1, none, some 2⟩, ⟨(2, 1), 7, none, none, some 0⟩,
                            ⟨(8, 1), 1, some 0, none, none⟩] : Heap (Int × Nat)).set j
                    { nn with Value := valOps.Merge nn.Value (8, 1) },
                  root := some 1 }, j, false) :=
  ⟨by decide, insert_existing_key valOps valOps_total valOps_merge
    [((5, 1), 3), ((2, 1), 7), ((8, 1), 1)]
    { heap := [⟨(5, 1), 3, some 1, none, some 2⟩, ⟨(2, 1), 7, none, none, some 0⟩,
      ⟨(8, 1), 1, some 0, none, none⟩], root := some 1 }
    (by decide) (8, 1) 4 ⟨⟨(8, 1), 1, some 0, none, none⟩, by decide, by decide⟩⟩

/-- C12 as stated fails: with the integer order and a `Merge` that adds `2`, after inserting
`1`, `2`, `1` the root holds `3` above a right child holding `2`; the value `2` compares
equal to that stored value, yet `Insert(2)` goes left at the root, allocates a third node and
links it as the root's left child, reporting "new". -/
theorem insert_existing_key_fails_without_merge_contract :
    TotalOrder shiftOps ∧
      ∃ t, insertAll shiftOps (NewTreap Int) [(1, 5), (2, 3), (1, 0)] = some t ∧
        t.heap = [⟨3, 5, none, none, some 1⟩, ⟨2, 3, some 0, none, none⟩] ∧
        (∃ nd ∈ t.heap, shiftOps.Compare nd.Value 2 = 0) ∧
        t.Insert shiftOps 2 0 =
          some ({ heap := [⟨3, 5, none, some 2, some 1⟩, ⟨2, 3, some 0, none, none⟩,
                           ⟨2, 0, some 0, none, none⟩], root := some 0 }, 2, true) :=
  ⟨shiftOps_total,
    { heap := [⟨3, 5, none, none, some 1⟩, ⟨2, 3, some 0, none, none⟩], root := some 0 },
    by decide, rfl, ⟨⟨2, 3, some 0, none, none⟩, by decide, by decide⟩, by decide⟩

/-- C13: on every treap built by `Insert` calls (whatever `Compare` and `Merge` are) and for
every value `v` to which no stored value compares equal, `Insert(v)` returns a new node
with the flag "new"; afterwards there is exactly one more node, the cells that existed keep
their value and their priority, in place, the new cell holds `v` with the drawn priority,
and the outcome is the same whatever `Merge` is: `Merge` is not called. -/
theorem insert_new_key (V : TreapValue T) (ops : List (T × Nat)) (t : Treap T)
    (ht : insertAll V (NewTreap T) ops = some t) (v : T) (pr : Nat)
    (hno : ∀ nd ∈ t.heap, V.Compare nd.Value v ≠ 0) :
    ∃ t2, t.Insert V v pr = some (t2, t.heap.length, true) ∧
      t2.heap.length = t.heap.length + 1 ∧
      t2.heap.map (fun c => (c.Value, c.priority)) =
        t.heap.map (fun c => (c.Value, c.priority)) ++ [(v, pr)] ∧
      ∀ M : T → T → T,
        Treap.Insert { Compare := V.Compare, Merge := M } t v pr =
          some (t2, t.heap.length, true) := by
  obtain ⟨t', e, hh⟩ := reachable_holds V ops
  rw [ht] at e
  simp only [Option.some.injEq] at e
  subst e
  obtain ⟨t2, e2, hh2⟩ := Insert_spec V hh v pr
  have hno2 : ∀ w ∈ (Tree.insertAll V .nil ops).vals, V.Compare w v ≠ 0 := by
    intro w hw
    obtain ⟨nd, hm, rfl⟩ := (Holds_values hh w).2 hw
    exact hno nd hm
  rw [insertResult_new V _ v _ hno2] at e2
  rcases Insert_cases V e2 with ⟨hf, _⟩ | ⟨_, _, a2, a3⟩
  · cases hf
  · refine ⟨t2, e2, ?_, a2, a3⟩
    have := congrArg List.length a2
    simpa using this

theorem insert_new_key_witness :
    insertAll valOps (NewTreap (Int × Nat)) [((5, 1), 3), ((2, 1), 7), ((8, 1), 1)] =
        some { heap := [⟨(5, 1), 3, some 1, none, some 2⟩, ⟨(2, 1), 7, none, none, some 0⟩,
                        ⟨(8, 1), 1, some 0, none, none⟩], root := some 1 } ∧
      ∃ t2, Treap.Insert valOps
          { heap := [⟨(5, 1), 3, some 1, none, some 2⟩, ⟨(2, 1), 7, none, none, some 0⟩,
                     ⟨(8, 1), 1, some 0, none, none⟩], root := some 1 } (6, 1) 9 =
          some (t2, 3, true) ∧
        t2.heap.length = 3 + 1 ∧
        t2.heap.map (fun c => (c.Value, c.priority)) =
          [(((5 : Int), 1), 3), ((2, 1), 7), ((8, 1), 1)] ++ [((6, 1), 9)] ∧
        ∀ M : Int × Nat → Int × Nat → Int × Nat,
          Treap.Insert { Compare := valOps.Compare, Merge := M }
            { heap := [⟨(5, 1), 3, some 1, none, some 2⟩, ⟨(2, 1), 7, none, none, some 0⟩,
                       ⟨(8, 1), 1, some 0, none, none⟩], root := some 1 } (6, 1) 9 =
            some (t2, 3, true) :=
  ⟨by decide, insert_new_key valOps [((5, 1), 3), ((2, 1), 7), ((8, 1), 1)]
    { heap := [⟨(5, 1), 3, some 1, none, some 2⟩, ⟨(2, 1), 7, none, none, some 0⟩,
      ⟨(8, 1), 1, some 0, none, none⟩], root := some 1 }
    (by decide) (6, 1) 9 (by decide)⟩

/-- The loop of `Neighbors` returns on every represented tree, whatever `Compare` is. -/
theorem neighborsLoop_total (V : TreapValue T) {h : Heap T} (x : T) (t : Tree T) :
    ∀ (par : Option Nat) (fuel : Nat) (llp lrp : Option Nat), Repr h par t →
      t.ids.length < fuel → ∃ res, neighborsLoop V h x fuel t.rootPtr llp lrp = some res := by
  induction t with
  | nil =>
    intro par fuel llp lrp _ hf
    cases fuel with
    | zero => omega
    | succ k => exact ⟨_, rfl⟩
  | node i l v p r ihl ihr =>
    intro par fuel llp lrp hr hf
    cases fuel with
    | zero => omega
    | succ k =>
      simp only [Repr] at hr
      obtain ⟨hc, hl, hrr⟩ := hr
      simp only [Tree.ids, List.length_append, List.length_cons] at hf
      simp only [neighborsLoop, Tree.rootPtr, load, hc, Option.bind_eq_bind, Option.some_bind]
      split_ifs
      · exact ⟨_, rfl⟩
      · exact ihl (some i) k _ _ hl (by omega)
      · exact ihr (some i) k _ _ hrr (by omega)

theorem Neighbors_total (V : TreapValue T) {t : Treap T} {tr : Tree T} (hh : t.Holds tr) (x : T) :
    ∃ res, t.Neighbors V x = some res := by
  unfold Treap.Neighbors
  rw [hh.1]
  exact neighborsLoop_total V x tr none _ none none hh.2.1 (by rw [Holds_length hh]; omega)

/-- `Successor` and `Predecessor` return on every node of a represented tree. -/
theorem walks_total {t : Treap T} {tr : Tree T} (hh : t.Holds tr) {i : Nat}
    (hi : i < t.heap.length) :
    (∃ r, TreapNode.Successor t.heap i = some r) ∧
      (∃ r, TreapNode.Predecessor t.heap i = some r) := by
  obtain ⟨c, l, v, p, r, hz⟩ := exists_zipper tr [] i ((hh.2.2.2 i).2 hi)
  simp only [plug] at hz
  have hr : Repr t.heap none (plug c (.node i l v p r)) := by rw [hz]; exact hh.2.1
  have hnd : (plug c (.node i l v p r)).ids.Nodup := by rw [hz]; exact hh.2.2.1
  exact ⟨⟨_, Successor_spec hr hnd⟩, ⟨_, Predecessor_spec hr hnd⟩⟩

/-- C14: on every treap built from the empty treap by `Insert` calls (whatever `Compare` and
`Merge` are) the calls themselves return, and so do a further `Insert`, `Min`, `Max`,
`Neighbors`, `LeastGTE`, `GreatestLTE`, and `Successor` and `Predecessor` on every node: in
the model an operation returns only if it dereferenced no nil pointer and its loops
(the search of `insert`, the loop of `heapify`, the descents and the upward walks) ended
within the fuel, which is one more than the number of nodes. -/
theorem totality (V : TreapValue T) (ops : List (T × Nat)) :
    ∃ t, insertAll V (NewTreap T) ops = some t ∧
      (∀ (v : T) (pr : Nat), ∃ res, t.Insert V v pr = some res) ∧
      (∃ res, t.Min = some res) ∧ (∃ res, t.Max = some res) ∧
      (∀ v : T, ∃ res, t.Neighbors V v = some res) ∧
      (∀ v : T, ∃ res, t.LeastGTE V v = some res) ∧
      (∀ v : T, ∃ res, t.GreatestLTE V v = some res) ∧
      ∀ i : Nat, i < t.heap.length →
        (∃ res, TreapNode.Successor t.heap i = some res) ∧
          (∃ res, TreapNode.Predecessor t.heap i = some res) := by
  obtain ⟨t, e, hh⟩ := reachable_holds V ops
  refine ⟨t, e, ?_, ⟨_, Min_spec hh⟩, ⟨_, Max_spec hh⟩, Neighbors_total V hh, ?_, ?_,
    fun i hi => walks_total hh hi⟩
  · intro v pr
    obtain ⟨t2, e2, _⟩ := Insert_spec V hh v pr
    exact ⟨_, e2⟩
  · intro v
    obtain ⟨res, e2⟩ := Neighbors_total V hh v
    exact ⟨res.2, by simp [Treap.LeastGTE, e2]⟩
  · intro v
    obtain ⟨res, e2⟩ := Neighbors_total V hh v
    exact ⟨res.1, by simp [Treap.GreatestLTE, e2]⟩

/-- C15: on the treap returned by `NewTreap`, with no insertion performed, `Min()` and
`Max()` return nil and, for every value `x`, so do `LeastGTE(x)`, `GreatestLTE(x)` and both
components of `Neighbors(x)`. -/
theorem empty_treap (V : TreapValue T) (x : T) :
    (NewTreap T).Min = some none ∧ (NewTreap T).Max = some none ∧
      (NewTreap T).LeastGTE V x = some none ∧ (NewTreap T).GreatestLTE V x = some none ∧
      (NewTreap T).Neighbors V x = some (none, none) :=
  ⟨rfl, rfl, rfl, rfl, rfl⟩

/-- The traversal along the child links of a represented tree lists its nodes in order. -/
theorem inorder_spec {h : Heap T} (t : Tree T) : ∀ (par : Option Nat) (fuel : Nat),
    Repr h par t → t.ids.length < fuel → inorder h fuel t.rootPtr = some t.ids := by
  induction t with
  | nil =>
    intro par fuel _ hf
    cases fuel with
    | zero => omega
    | succ k => rfl
  | node i l v p r ihl ihr =>
    intro par fuel hr hf
    cases fuel with
    | zero => omega
    | succ k =>
      simp only [Repr] at hr
      obtain ⟨hc, hl, hrr⟩ := hr
      simp only [Tree.ids, List.length_append, List.length_cons] at hf
      show inorder h (k + 1) (some i) = some (l.ids ++ i :: r.ids)
      simp only [inorder, load, hc, Option.bind_eq_bind, Option.some_bind]
      rw [ihl (some i) k hl (by omega), ihr (some i) k hrr (by omega)]
      rfl

/-- In a represented tree the parent pointer of a node below the top leads to a node that
holds it in exactly one of its two slots. -/
theorem Repr_parent_slot {h : Heap T} {t : Tree T} : ∀ {par : Option Nat}, Repr h par t →
    t.ids.Nodup → ∀ i ∈ t.ids, ∀ nd : TreapNode T, h[i]? = some nd → ∀ p, nd.parent = some p →
      (t.rootPtr = some i ∧ par = some p) ∨
      ∃ pn : TreapNode T, h[p]? = some pn ∧
        ((pn.left = some i ∧ pn.right ≠ some i) ∨ (pn.right = some i ∧ pn.left ≠ some i)) := by
  induction t with
  | nil => intro par _ _ i hi; cases hi
  | node k l v q r ihl ihr =>
    intro par hr hnd i hi nd hg p hp
    simp only [Repr] at hr
    obtain ⟨hc, hl, hrr⟩ := hr
    simp only [Tree.ids] at hnd hi
    rw [List.nodup_append] at hnd
    obtain ⟨ndl, ndr, hdis⟩ := hnd
    rw [List.nodup_cons] at ndr
    rw [List.mem_append, List.mem_cons] at hi
    rcases hi with hi | rfl | hi
    · rcases ihl hl ndl i hi nd hg p hp with ⟨h1, h2⟩ | h3
      · simp only [Option.some.injEq] at h2
        subst h2
        refine Or.inr ⟨_, hc, Or.inl ⟨h1, ?_⟩⟩
        intro h4
        exact hdis hi (List.mem_cons_of_mem _ (rootPtr_mem_ids h4))
      · exact Or.inr h3
    · rw [hc] at hg
      simp only [Option.some.injEq] at hg
      subst hg
      exact Or.inl ⟨rfl, hp⟩
    · rcases ihr hrr ndr.2 i hi nd hg p hp with ⟨h1, h2⟩ | h3
      · simp only [Option.some.injEq] at h2
        subst h2
        refine Or.inr ⟨_, hc, Or.inr ⟨h1, ?_⟩⟩
        intro h4
        exact hdis (rootPtr_mem_ids h4) (List.mem_cons_of_mem _ hi)
      · exact Or.inr h3

/-- The link structure of a treap that holds a heap-ordered tree: the root is the one node
without a parent, a parent pointer leads to the node holding the child in exactly one
slot, a node in a slot points back to the slot's owner, no child has a larger priority
than its parent, and the traversal from the root meets every allocated node once. -/
theorem links_of_holds {t : Treap T} {tr : Tree T} (hh : t.Holds tr) (hp : tr.IsHeap) :
    (t.root = none ↔ t.heap = []) ∧
      (∀ (i : Nat) (nd : TreapNode T), t.heap[i]? = some nd →
        (nd.parent = none ↔ t.root = some i)) ∧
      (∀ (i p : Nat) (nd : TreapNode T), t.heap[i]? = some nd → nd.parent = some p →
        ∃ pn : TreapNode T, t.heap[p]? = some pn ∧
          ((pn.left = some i ∧ pn.right ≠ some i) ∨ (pn.right = some i ∧ pn.left ≠ some i))) ∧
      (∀ (p c : Nat) (pn : TreapNode T), t.heap[p]? = some pn →
        (pn.left = some c ∨ pn.right = some c) →
        ∃ cn : TreapNode T, t.heap[c]? = some cn ∧ cn.parent = some p ∧
          cn.priority ≤ pn.priority) ∧
      ∃ seq, inorder t.heap (t.heap.length + 1) t.root = some seq ∧ seq.Nodup ∧
        ∀ i, i ∈ seq ↔ i < t.heap.length := by
  obtain ⟨hroot, hrep, hnd, hids⟩ := hh
  have hlen := Holds_length ⟨hroot, hrep, hnd, hids⟩
  refine ⟨?_, ?_, ?_, ?_, ?_⟩
  · rw [hroot, ← Holds_empty_iff ⟨hroot, hrep, hnd, hids⟩]
    cases tr with
    | nil => simp [Tree.rootPtr, Tree.ids]
    | node i l v p r => simp [Tree.rootPtr, Tree.ids]
  · intro i nd hg
    have hi : i ∈ tr.ids := (hids i).2 (lt_of_get hg)
    obtain ⟨nd2, hg2, hcase⟩ := parent_of_mem hrep hnd i hi
    rw [hg] at hg2
    simp only [Option.some.injEq] at hg2
    subst hg2
    rw [hroot]
    rcases hcase with ⟨h1, h2⟩ | ⟨h1, j, _, h2⟩
    · exact ⟨fun _ => h1, fun _ => h2⟩
    · constructor
      · intro h3; rw [h2] at h3; cases h3
      · intro h3; exact absurd h3 h1
  · intro i p nd hg hpar
    have hi : i ∈ tr.ids := (hids i).2 (lt_of_get hg)
    rcases Repr_parent_slot hrep hnd i hi nd hg p hpar with ⟨_, h2⟩ | h3
    · cases h2
    · exact h3
  · intro p c pn hg hslot
    have hi : p ∈ tr.ids := (hids p).2 (lt_of_get hg)
    obtain ⟨hl, hr⟩ := Repr_heap hrep hp p hi pn hg
    rcases hslot with h1 | h1
    · exact hl c h1
    · exact hr c h1
  · refine ⟨tr.ids, ?_, hnd, hids⟩
    rw [hroot]
    exact inorder_spec tr none _ hrep (by omega)

/-- C16: after any sequence of `Insert` calls from the empty treap (whatever `Compare` and
`Merge` are) the root pointer is nil exactly when there is no node, a node has no parent
exactly when the root pointer points to it, the parent pointer of every other node leads
to a node that holds it in exactly one of its `left` and `right` slots, every node held
in a slot points back to the owner of the slot (so no node is held in two slots), and the
in-order traversal from the root along the child links meets every allocated node exactly
once (every node is reachable and there is no cycle). -/
theorem link_consistency (V : TreapValue T) (ops : List (T × Nat)) :
    ∃ t, insertAll V (NewTreap T) ops = some t ∧
      (t.root = none ↔ t.heap = []) ∧
      (∀ (i : Nat) (nd : TreapNode T), t.heap[i]? = some nd →
        (nd.parent = none ↔ t.root = some i)) ∧
      (∀ (i p : Nat) (nd : TreapNode T), t.heap[i]? = some nd → nd.parent = some p →
        ∃ pn : TreapNode T, t.heap[p]? = some pn ∧
          ((pn.left = some i ∧ pn.right ≠ some i) ∨ (pn.right = some i ∧ pn.left ≠ some i))) ∧
      (∀ (p c : Nat) (pn : TreapNode T), t.heap[p]? = some pn →
        (pn.left = some c ∨ pn.right = some c) →
        ∃ cn : TreapNode T, t.heap[c]? = some cn ∧ cn.parent = some p) ∧
      ∃ seq, inorder t.heap (t.heap.length + 1) t.root = some seq ∧ seq.Nodup ∧
        ∀ i, i ∈ seq ↔ i < t.heap.length := by
  obtain ⟨t, e, hh⟩ := reachable_holds V ops
  obtain ⟨h1, h2, h3, h4, h5⟩ := links_of_holds hh (isHeap_insertAll V ops .nil trivial)
  refine ⟨t, e, h1, h2, h3, ?_, h5⟩
  intro p c pn hg hs
  obtain ⟨cn, g1, g2, _⟩ := h4 p c pn hg hs
  exact ⟨cn, g1, g2⟩

theorem ctxTop_mem (c : List (Frame T)) : ∀ (d : Option Nat), c ≠ [] →
    ∃ i ∈ ctxIds c, ctxTop c d = some i := by
  induction c with
  | nil => intro d h; exact absurd rfl h
  | cons f c ih =>
    intro d _
    cases c with
    | nil => exact ⟨f.id, by simp [ctxIds], rfl⟩
    | cons g c2 =>
      obtain ⟨i, hi, e⟩ := ih (some f.id) (by simp)
      refine ⟨i, ?_, e⟩
      have : ctxIds (f :: g :: c2) = f.id :: f.sib.ids ++ ctxIds (g :: c2) := rfl
      rw [this]
      exact List.mem_append_right _ hi

/-- Replacing the node below a path by another one moves the top of the tree only when the
path is empty. -/
theorem ctxTop_swap (c : List (Frame T)) (n p : Nat) (hp : p ∉ ctxIds c) :
    ctxTop c (some n) = if ctxTop c (some p) = some p then some n else ctxTop c (some p) := by
  cases c with
  | nil => simp [ctxTop]
  | cons f c2 =>
    obtain ⟨i, hi, e⟩ := ctxTop_mem (f :: c2) (some p) (by simp)
    rw [ctxTop_cons f c2 (some n) (some p), e]
    have : i ≠ p := fun h => hp (h ▸ hi)
    simp [this]

/-- The cell of the grandparent before and after one step of `heapify`: the slot that held
the parent holds the node, the other slot is untouched. -/
theorem relink_cell {h h2 : Heap T} {c : List (Frame T)} {n p : Nat}
    (h1 : ReprCtx h c (some p)) (hc2 : ReprCtx h2 c (some n)) (hpc : p ∉ ctxIds c) :
    ∀ (g : Nat) (gn : TreapNode T), ctxParent c = some g → h[g]? = some gn →
      ∃ gn2 : TreapNode T, h2[g]? = some gn2 ∧
        if gn.left = some p then gn2.left = some n ∧ gn2.right = gn.right
        else gn2.right = some n ∧ gn2.left = gn.left := by
  intro g gn hg hgn
  cases c with
  | nil => simp [ctxParent] at hg
  | cons f c2 =>
    simp only [ctxParent, List.head?_cons, Option.map_some', Option.some.injEq] at hg
    subst hg
    obtain ⟨a1, -, -⟩ := h1
    obtain ⟨b1, -, -⟩ := hc2
    rw [hgn] at a1
    simp only [Option.some.injEq] at a1
    subst a1
    refine ⟨_, b1, ?_⟩
    have hsp : f.sib.rootPtr ≠ some p := by
      intro e
      exact hpc (by simp [ctxIds, rootPtr_mem_ids e])
    unfold Frame.cell
    cases f.dir
    · simp
    · simp [hsp]

/-- C17: in a treap that holds a tree, take a node `n` whose parent is `p` and run one
iteration of the loop of `heapify` on it (`rotateRight` when `n` is the left child of `p`,
`rotateLeft` otherwise, then the re-linking of the former parent of `p`). The iteration
returns; the memory again holds a tree, with `n` at the top if `p` was; the in-order
sequence of nodes is the same before and after, whether read off the tree or by traversing
the child links, and every cell keeps its value and priority, so the in-order sequence of
values is unchanged; under a total order the BST property is kept. `n` takes the parent of
`p` and `p` gets `n` as parent; after a right rotation the left child of `p` is the former
right child of `n` and the right child of `n` is `p` (mirrored for a left rotation); and
the slot of the former parent of `p` that held `p` holds `n`. -/
theorem rotation_preserves_order (V : TreapValue T) (t : Treap T) (tr : Tree T)
    (hh : t.Holds tr) (n p : Nat) (nn pn : TreapNode T) (hn : t.heap[n]? = some nn)
    (hpar : nn.parent = some p) (hp : t.heap[p]? = some pn) :
    ∃ (h2 : Heap T) (tr2 : Tree T),
      heapifyBody t.heap n p = some h2 ∧
      Treap.Holds { heap := h2, root := if t.root = some p then some n else t.root } tr2 ∧
      tr2.ids = tr.ids ∧ tr2.vals = tr.vals ∧
      inorder t.heap (t.heap.length + 1) t.root = some tr.ids ∧
      inorder h2 (h2.length + 1) (if t.root = some p then some n else t.root) = some tr.ids ∧
      h2.map (fun c => (c.Value, c.priority)) = t.heap.map (fun c => (c.Value, c.priority)) ∧
      (TotalOrder V → tr.IsBST V → tr2.IsBST V) ∧
      (∃ nn2 pn2 : TreapNode T, h2[n]? = some nn2 ∧ h2[p]? = some pn2 ∧
        nn2.parent = pn.parent ∧ pn2.parent = some n ∧
        (pn.left = some n →
          pn2.left = nn.right ∧ nn2.right = some p ∧ nn2.left = nn.left ∧
            pn2.right = pn.right) ∧
        (pn.left ≠ some n →
          pn2.right = nn.left ∧ nn2.left = some p ∧ nn2.right = nn.right ∧
            pn2.left = pn.left)) ∧
      ∀ (g : Nat) (gn : TreapNode T), pn.parent = some g → t.heap[g]? = some gn →
        ∃ gn2 : TreapNode T, h2[g]? = some gn2 ∧
          if gn.left = some p then gn2.left = some n ∧ gn2.right = gn.right
          else gn2.right = some n ∧ gn2.left = gn.left := by
  have hlen0 := Holds_length hh
  obtain ⟨hroot, hrep, hnd, hids⟩ := hh
  have hmem : n ∈ tr.ids := (hids n).2 (lt_of_get hn)
  obtain ⟨c0, l, x, px, r, hz⟩ := exists_zipper tr [] n hmem
  simp only [plug] at hz
  subst hz
  obtain ⟨hctx, hcell, -, -, -, -, -, -⟩ := zipper_facts hrep hnd
  rw [hn] at hcell
  simp only [Option.some.injEq] at hcell
  subst hcell
  simp only at hpar
  cases c0 with
  | nil => simp [ctxParent] at hpar
  | cons f c =>
    simp only [ctxParent, List.head?_cons, Option.map_some', Option.some.injEq] at hpar
    subst hpar
    have hndfull : ((Tree.node n l x px r).ids ++ ctxIds (f :: c)).Nodup :=
      (ids_plug (f :: c) _).nodup_iff.1 hnd
    have ht : Repr t.heap (some f.id) (.node n l x px r) := (Repr_plug.1 hrep).2
    have hctx0 := hctx
    obtain ⟨hf, hs, hrest⟩ := hctx
    rw [hp] at hf
    simp only [Option.some.injEq] at hf
    subst hf
    have hnf := hndfull
    simp only [Tree.ids, ctxIds] at hnf
    obtain ⟨nnp, nA, nB, nS, nC, pA, pB, pS, pC, dA, dB, dS, ndA, ndB, ndS, ndC⟩ :=
      nodup_facts hnf
    have hsn : f.sib.rootPtr ≠ some n := fun e => nS (rootPtr_mem_ids e)
    have hio : inorder t.heap (t.heap.length + 1) t.root =
        some (plug (f :: c) (.node n l x px r)).ids := by
      rw [hroot]
      exact inorder_spec _ none _ hrep (by omega)
    have hrt : t.root = ctxTop c (some f.id) := by rw [hroot, rootPtr_plug]; rfl
    have key : ∀ (h2 : Heap T) (tr2 : Tree T), heapifyBody t.heap n f.id = some h2 →
        h2.length = t.heap.length → ReprCtx h2 c (some n) → Repr h2 (ctxParent c) tr2 →
        tr2.rootPtr = some n →
        (plug c tr2).ids = (plug (f :: c) (.node n l x px r)).ids →
        (plug c tr2).vals = (plug (f :: c) (.node n l x px r)).vals →
        heapifyBody t.heap n f.id = some h2 ∧
        Treap.Holds { heap := h2, root := if t.root = some f.id then some n else t.root }
          (plug c tr2) ∧
        (plug c tr2).ids = (plug (f :: c) (.node n l x px r)).ids ∧
        (plug c tr2).vals = (plug (f :: c) (.node n l x px r)).vals ∧
        inorder t.heap (t.heap.length + 1) t.root =
          some (plug (f :: c) (.node n l x px r)).ids ∧
        inorder h2 (h2.length + 1) (if t.root = some f.id then some n else t.root) =
          some (plug (f :: c) (.node n l x px r)).ids ∧
        h2.map (fun c => (c.Value, c.priority)) =
          t.heap.map (fun c => (c.Value, c.priority)) ∧
        (TotalOrder V → (plug (f :: c) (.node n l x px r)).IsBST V → (plug c tr2).IsBST V) := by
      intro h2 tr2 e hlen hc2 ht2 hr2 hi2 hv2
      have hrep2 : Repr h2 none (plug c tr2) := Repr_plug.2 ⟨by rw [hr2]; exact hc2, ht2⟩
      have hroot2 : (if t.root = some f.id then some n else t.root) = (plug c tr2).rootPtr := by
        rw [rootPtr_plug, hr2, hrt]
        exact (ctxTop_swap c n f.id pC).symm
      refine ⟨e, ⟨hroot2, hrep2, by rw [hi2]; exact hnd, ?_⟩, hi2, hv2, hio, ?_,
        heapifyBody_keys e, ?_⟩
      · intro i
        simp only
        rw [hi2, hlen]
        exact hids i
      · rw [hroot2, ← hi2]
        exact inorder_spec _ none _ hrep2 (by rw [hi2, hlen]; omega)
      · intro tot hb
        rw [isBST_iff_sorted tot] at hb ⊢
        rw [hv2]
        exact hb
    rcases hd : f.dir with _ | _
    · obtain ⟨h2, e, hlen, hc2, ht2⟩ := heapify_step_left hd hctx0 ht hndfull
      obtain ⟨k1, k2, k3, k4, k5, k6, k7, k8⟩ :=
        key h2 (.node n l x px (.node f.id r f.v f.p f.sib)) e hlen hc2 ht2 rfl
          (by
            rw [ids_plug_inorder, ids_plug_inorder, ctxBeforeIds_L c hd, ctxAfterIds_L c hd]
            simp [Tree.ids])
          (by
            rw [vals_plug, vals_plug, ctxBefore_L c hd, ctxAfter_L c hd]
            simp [Tree.vals])
      refine ⟨h2, _, k1, k2, k3, k4, k5, k6, k7, k8, ?_, ?_⟩
      · obtain ⟨g1, -, g2, -, -⟩ := ht2
        refine ⟨_, _, g1, g2, ?_, rfl, ?_, ?_⟩
        · simp [Frame.cell, hd]
        · intro _
          simp [Frame.cell, hd, Tree.rootPtr]
        · intro hne
          exact absurd (by simp [Frame.cell, hd]) hne
      · intro g gn hg hgn
        exact relink_cell hrest hc2 pC g gn (by simpa [Frame.cell, hd] using hg) hgn
    · obtain ⟨h2, e, hlen, hc2, ht2⟩ := heapify_step_right hd hctx0 ht hndfull
      obtain ⟨k1, k2, k3, k4, k5, k6, k7, k8⟩ :=
        key h2 (.node n (.node f.id f.sib f.v f.p l) x px r) e hlen hc2 ht2 rfl
          (by
            rw [ids_plug_inorder, ids_plug_inorder, ctxBeforeIds_R c hd, ctxAfterIds_R c hd]
            simp [Tree.ids])
          (by
            rw [vals_plug, vals_plug, ctxBefore_R c hd, ctxAfter_R c hd]
            simp [Tree.vals])
      refine ⟨h2, _, k1, k2, k3, k4, k5, k6, k7, k8, ?_, ?_⟩
      · obtain ⟨g1, ⟨g2, -, -⟩, -⟩ := ht2
        refine ⟨_, _, g1, g2, ?_, rfl, ?_, ?_⟩
        · simp [Frame.cell, hd]
        · intro he
          exact absurd (by simpa [Frame.cell, hd] using he) hsn
        · intro _
          simp [Frame.cell, hd, Tree.rootPtr]
      · intro g gn hg hgn
        exact relink_cell hrest hc2 pC g gn (by simpa [Frame.cell, hd] using hg) hgn

theorem rotation_preserves_order_witness :
    attachedTreap.Holds attachedTree ∧
    ∃ (h2 : Heap (Int × Nat)) (tr2 : Tree (Int × Nat)),
      heapifyBody attachedTreap.heap 1 0 = some h2 ∧
      Treap.Holds { heap := h2,
                    root := if attachedTreap.root = some 0 then some 1 else attachedTreap.root }
        tr2 ∧
      tr2.ids = attachedTree.ids ∧ tr2.vals = attachedTree.vals ∧
      inorder attachedTreap.heap (attachedTreap.heap.length + 1) attachedTreap.root =
        some attachedTree.ids ∧
      inorder h2 (h2.length + 1)
        (if attachedTreap.root = some 0 then some 1 else attachedTreap.root) =
        some attachedTree.ids ∧
      h2.map (fun c => (c.Value, c.priority)) =
        attachedTreap.heap.map (fun c => (c.Value, c.priority)) ∧
      (TotalOrder valOps → attachedTree.IsBST valOps → tr2.IsBST valOps) ∧
      (∃ nn2 pn2 : TreapNode (Int × Nat), h2[1]? = some nn2 ∧ h2[0]? = some pn2 ∧
        nn2.parent = (⟨(5, 1), 3, none, some 1, none⟩ : TreapNode (Int × Nat)).parent ∧
        pn2.parent = some 1 ∧
        ((⟨(5, 1), 3, none, some 1, none⟩ : TreapNode (Int × Nat)).left = some 1 →
          pn2.left = (⟨(2, 1), 7, some 0, none, none⟩ : TreapNode (Int × Nat)).right ∧
            nn2.right = some 0 ∧
            nn2.left = (⟨(2, 1), 7, some 0, none, none⟩ : TreapNode (Int × Nat)).left ∧
            pn2.right = (⟨(5, 1), 3, none, some 1, none⟩ : TreapNode (Int × Nat)).right) ∧
        ((⟨(5, 1), 3, none, some 1, none⟩ : TreapNode (Int × Nat)).left ≠ some 1 →
          pn2.right = (⟨(2, 1), 7, some 0, none, none⟩ : TreapNode (Int × Nat)).left ∧
            nn2.left = some 0 ∧
            nn2.right = (⟨(2, 1), 7, some 0, none, none⟩ : TreapNode (Int × Nat)).right ∧
            pn2.left = (⟨(5, 1), 3, none, some 1, none⟩ : TreapNode (Int × Nat)).left)) ∧
      ∀ (g : Nat) (gn : TreapNode (Int × Nat)),
        (⟨(5, 1), 3, none, some 1, none⟩ : TreapNode (Int × Nat)).parent = some g →
        attachedTreap.heap[g]? = some gn →
        ∃ gn2 : TreapNode (Int × Nat), h2[g]? = some gn2 ∧
          if gn.left = some 0 then gn2.left = some 1 ∧ gn2.right = gn.right
          else gn2.right = some 1 ∧ gn2.left = gn.left :=
  have hH : attachedTreap.Holds attachedTree :=
    ⟨rfl, by simp [Repr, attachedTreap, attachedTree, Tree.rootPtr], by decide,
      by intro i; simp [attachedTree, Tree.ids, attachedTreap]; omega⟩
  ⟨hH, rotation_preserves_order valOps attachedTreap attachedTree hH 1 0
    ⟨(2, 1), 7, some 0, none, none⟩ ⟨(5, 1), 3, none, some 1, none⟩ rfl rfl rfl⟩

/-- The memory after the three assignments that attach a new node. -/
theorem attach_heap {h : Heap T} {i : Nat} {nn : TreapNode T} (x : T) (pr : Nat)
    (hi : h[i]? = some nn) (upd : TreapNode T) :
    ((h ++ [newTreapNode x pr]).set h.length { newTreapNode x pr with parent := some i }).set i upd
      = h.set i upd ++ [⟨x, pr, some i, none, none⟩] := by
  have hil := lt_of_get hi
  rw [List.set_append_right _ _ (le_refl _), List.set_append_left _ _ hil]
  simp [newTreapNode]

/-- The loop of `heapify` does nothing when the priority of the new node does not exceed the
one of the node it was attached to. -/
theorem attach_no_rotation {h : Heap T} {i : Nat} {nn : TreapNode T} (x : T) (pr : Nat)
    (hi : h[i]? = some nn) (upd : TreapNode T) (hpu : upd.priority = nn.priority)
    (hle : pr ≤ nn.priority) (fuel : Nat) :
    TreapNode.heapify (fuel + 1)
      (((h ++ [newTreapNode x pr]).set h.length
        { newTreapNode x pr with parent := some i }).set i upd) h.length =
      some (h.set i upd ++ [⟨x, pr, some i, none, none⟩]) := by
  obtain ⟨h3, e3, -, c1, c2, -⟩ := attach_cells x pr hi upd
  rw [← attach_heap x pr hi upd, ← e3]
  have : ¬ upd.priority < pr := by omega
  simp only [TreapNode.heapify, load, c1, c2, Option.bind_eq_bind, Option.some_bind, this,
    if_false]

/-- The search of `insert` and `insert` itself walk the same way: when the search stops at a
nil slot of a node whose priority is not exceeded by the drawn one, `insert` attaches the
new node there and rotates nothing. -/
theorem insert_at_point (V : TreapValue T) : ∀ (fuel : Nat) (h : Heap T) (n : Nat) (x : T)
    (pr p : Nat) (isLeft : Bool) (pn : TreapNode T),
    insertPoint V fuel h n x = some (p, some isLeft) → h[p]? = some pn → pr ≤ pn.priority →
    TreapNode.insert V fuel h n x pr =
      some (h.set p (if isLeft then { pn with left := some h.length }
          else { pn with right := some h.length }) ++ [⟨x, pr, some p, none, none⟩],
        h.length, true) := by
  intro fuel
  induction fuel with
  | zero => intro h n x pr p isLeft pn e; simp [insertPoint] at e
  | succ k ih =>
    intro h n x pr p isLeft pn e hp hle
    simp only [insertPoint, Option.bind_eq_bind, Option.bind_eq_some] at e
    obtain ⟨nn, hn, e⟩ := e
    simp only [load] at hn
    by_cases h0 : V.Compare nn.Value x = 0
    · rw [if_pos h0] at e
      simp at e
    · rw [if_neg h0] at e
      by_cases hgt : V.Compare nn.Value x > 0
      · simp only [hgt, if_true] at e
        rcases hnext : nn.left with _ | c
        · rw [hnext] at e
          simp only [Option.some.injEq, Prod.mk.injEq, decide_True] at e
          obtain ⟨rfl, rfl⟩ := e
          rw [hn] at hp
          simp only [Option.some.injEq] at hp
          subst hp
          rw [insert_attach_left V x pr k hn h0 hgt hnext, List.length_set, List.length_set,
            attach_no_rotation x pr hn { nn with left := some h.length } rfl hle]
          rfl
        · rw [hnext] at e
          simp only at e
          have := ih h c x pr p isLeft pn e hp hle
          rw [← this]
          simp only [TreapNode.insert, load, hn, Option.bind_eq_bind, Option.some_bind, h0,
            if_false, hgt, if_true, hnext]
      · simp only [hgt, if_false] at e
        rcases hnext : nn.right with _ | c
        · rw [hnext] at e
          simp only [Option.some.injEq, Prod.mk.injEq, decide_False] at e
          obtain ⟨rfl, rfl⟩ := e
          rw [hn] at hp
          simp only [Option.some.injEq] at hp
          subst hp
          rw [insert_attach_right V x pr k hn h0 hgt hnext, List.length_set, List.length_set,
            attach_no_rotation x pr hn { nn with right := some h.length } rfl hle]
          rfl
        · rw [hnext] at e
          simp only at e
          have := ih h c x pr p isLeft pn e hp hle
          rw [← this]
          simp only [TreapNode.insert, load, hn, Option.bind_eq_bind, Option.some_bind, h0,
            if_false, hgt, hnext]

/-- Wherever `insert` returns, its search returns. -/
theorem insertPoint_total (V : TreapValue T) : ∀ (fuel : Nat) (h : Heap T) (n : Nat) (x : T)
    (pr : Nat) (res : Heap T × Nat × Bool), TreapNode.insert V fuel h n x pr = some res →
    ∃ q, insertPoint V fuel h n x = some q := by
  intro fuel
  induction fuel with
  | zero => intro h n x pr res e; simp [TreapNode.insert] at e
  | succ k ih =>
    intro h n x pr res e
    simp only [TreapNode.insert, Option.bind_eq_bind, Option.bind_eq_some] at e
    obtain ⟨nn, hn, e⟩ := e
    simp only [insertPoint, hn, Option.bind_eq_bind, Option.some_bind]
    by_cases h0 : V.Compare nn.Value x = 0
    · rw [if_pos h0]; exact ⟨_, rfl⟩
    · rw [if_neg h0] at e ⊢
      rcases hnext : (if V.Compare nn.Value x > 0 then nn.left else nn.right) with _ | c
      · exact ⟨_, rfl⟩
      · rw [hnext] at e
        exact ih h c x pr res e

/-- A node whose priority exceeds all those on its path is rotated to the top. -/
theorem bubble_top (c : List (Frame T)) : ∀ (n : Nat) (l : Tree T) (x : T) (px : Nat)
    (r : Tree T), (∀ f ∈ c, f.p < px) → (bubble c n l x px r).rootPtr = some n := by
  induction c with
  | nil => intro n l x px r _; rfl
  | cons f c ih =>
    intro n l x px r hall
    have hf : f.p < px := hall f (by simp)
    have hc : ∀ g ∈ c, g.p < px := fun g hg => hall g (by simp [hg])
    simp only [bubble, hf, if_true]
    cases f.dir
    · exact ih _ _ _ _ _ hc
    · exact ih _ _ _ _ _ hc

theorem frame_mem_pairs (c : List (Frame T)) : ∀ (t : Tree T), ∀ f ∈ c,
    (f.v, f.p) ∈ (plug c t).pairs := by
  induction c with
  | nil => intro t f hf; cases hf
  | cons g c ih =>
    intro t f hf
    simp only [plug]
    rw [mem_pairs_plug]
    rcases List.mem_cons.1 hf with rfl | hf
    · left
      rw [mem_pairs_fill]
      exact Or.inr (Or.inl rfl)
    · right
      exact ih .nil f hf

theorem Repr_pairs {h : Heap T} {t : Tree T} : ∀ {par : Option Nat}, Repr h par t →
    ∀ e ∈ t.pairs, ∃ nd ∈ h, (nd.Value, nd.priority) = e := by
  induction t with
  | nil => intro par _ e he; cases he
  | node i l v p r ihl ihr =>
    intro par hr e he
    simp only [Repr] at hr
    obtain ⟨hc, hl, hrr⟩ := hr
    simp only [Tree.pairs, List.mem_append, List.mem_cons] at he
    rcases he with he | rfl | he
    · exact ihl hl e he
    · exact ⟨_, List.getElem?_mem hc, rfl⟩
    · exact ihr hrr e he

/-- C18: on a treap built by `Insert` calls (whatever `Compare` and `Merge` are), the search
of `insert` returns. When it stops at a nil slot of a node `p` and the drawn priority does
not exceed the priority of `p` (a tie included), `Insert` performs no rotation: the memory
afterwards is the old one with the new cell appended, its parent `p`, and the slot of `p`
pointing to it; nothing else changes and the root stays. When the drawn priority is
strictly greater than every stored priority and `Insert` reports a new node, that node is
the root afterwards. -/
theorem rotation_only_on_greater_priority (V : TreapValue T) (ops : List (T × Nat))
    (t : Treap T) (ht : insertAll V (NewTreap T) ops = some t) (v : T) (pr : Nat) :
    (∀ r : Nat, t.root = some r →
      ∃ q, insertPoint V (t.heap.length + 1) t.heap r v = some q) ∧
    (∀ (r p : Nat) (isLeft : Bool) (pn : TreapNode T), t.root = some r →
      insertPoint V (t.heap.length + 1) t.heap r v = some (p, some isLeft) →
      t.heap[p]? = some pn → pr ≤ pn.priority →
      t.Insert V v pr =
        some ({ heap := t.heap.set p (if isLeft then { pn with left := some t.heap.length }
                  else { pn with right := some t.heap.length }) ++
                  [⟨v, pr, some p, none, none⟩],
                root := t.root }, t.heap.length, true)) ∧
    ((∀ nd ∈ t.heap, nd.priority < pr) →
      ∃ (t2 : Treap T) (j : Nat) (fl : Bool), t.Insert V v pr = some (t2, j, fl) ∧
        (fl = true → j = t.heap.length ∧ t2.root = some j)) := by
  obtain ⟨t', e, hh⟩ := reachable_holds V ops
  rw [ht] at e
  simp only [Option.some.injEq] at e
  subst e
  obtain ⟨t2, e2, hh2⟩ := Insert_spec V hh v pr
  refine ⟨?_, ?_, ?_⟩
  · intro r hr
    simp only [Treap.Insert, hr, Option.bind_eq_bind, Option.bind_eq_some] at e2
    obtain ⟨res, e3, -⟩ := e2
    exact insertPoint_total V _ _ _ _ pr res e3
  · intro r p isLeft pn hr hq hp hle
    have e3 := insert_at_point V _ _ _ _ pr p isLeft pn hq hp hle
    have hlen : (t.heap.set p (if isLeft then { pn with left := some t.heap.length }
        else { pn with right := some t.heap.length })).length = t.heap.length := by simp
    simp only [Treap.Insert, hr, Option.bind_eq_bind, e3, Option.some_bind, load]
    rw [List.getElem?_append_right (by rw [hlen]), hlen]
    simp
  · intro hall
    rcases hres : Tree.insertResult V (Tree.insertAll V .nil ops) v t.heap.length with ⟨j, fl⟩
    rw [hres] at e2
    refine ⟨t2, j, fl, e2, ?_⟩
    intro hfl
    subst hfl
    have hplug := descend_plug V v (Tree.insertAll V .nil ops) []
    have hroot := hh2.1
    unfold Tree.insertResult at hres
    unfold Tree.insert at hroot
    rcases hd : descend V v (Tree.insertAll V .nil ops) [] with ⟨c2, s⟩
    rw [hd] at hplug hres hroot
    simp only [plug] at hplug
    cases s with
    | nil =>
      simp only [Prod.mk.injEq, and_true] at hres
      simp only at hroot
      subst hres
      refine ⟨rfl, ?_⟩
      rw [hroot]
      apply bubble_top
      intro f hf
      have hm := frame_mem_pairs c2 .nil f hf
      rw [hplug] at hm
      obtain ⟨nd, hnd, he⟩ := Repr_pairs hh.2.1 _ hm
      have := hall nd hnd
      simp only [Prod.mk.injEq] at he
      omega
    | node i l w q r => simp at hres

theorem rotation_only_on_greater_priority_witness :
    insertAll valOps (NewTreap (Int × Nat)) [((5, 1), 3), ((2, 1), 7), ((8, 1), 1)] =
        some { heap := [⟨(5, 1), 3, some 1, none, some 2⟩, ⟨(2, 1), 7, none, none, some 0⟩,
                        ⟨(8, 1), 1, some 0, none, none⟩], root := some 1 } ∧
      (∀ r : Nat, (some 1 : Option Nat) = some r →
        ∃ q, insertPoint valOps (3 + 1)
          [⟨(5, 1), 3, some 1, none, some 2⟩, ⟨(2, 1), 7, none, none, some 0⟩,
            ⟨(8, 1), 1, some 0, none, none⟩] r (6, 1) = some q) ∧
      (∀ (r p : Nat) (isLeft : Bool) (pn : TreapNode (Int × Nat)),
        (some 1 : Option Nat) = some r →
        insertPoint valOps (3 + 1)
          [⟨(5, 1), 3, some 1, none, some 2⟩, ⟨(2, 1), 7, none, none, some 0⟩,
            ⟨(8, 1), 1, some 0, none, none⟩] r (6, 1) = some (p, some isLeft) →
        ([⟨(5, 1), 3, some 1, none, some 2⟩, ⟨(2, 1), 7, none, none, some 0⟩,
          ⟨(8, 1), 1, some 0, none, none⟩] : Heap (Int × Nat))[p]? = some pn →
        1 ≤ pn.priority →
        Treap.Insert valOps
          { heap := [⟨(5, 1), 3, some 1, none, some 2⟩, ⟨(2, 1), 7, none, none, some 0⟩,
                     ⟨(8, 1), 1, some 0, none, none⟩], root := some 1 } (6, 1) 1 =
          some ({ heap := ([⟨(5, 1), 3, some 1, none, some 2⟩, ⟨(2, 1), 7, none, none, some 0⟩,
                    ⟨(8, 1), 1, some 0, none, none⟩] : Heap (Int × Nat)).set p
                    (if isLeft then { pn with left := some 3 }
                      else { pn with right := some 3 }) ++
                    [⟨(6, 1), 1, some p, none, none⟩],
                  root := some 1 }, 3, true)) ∧
      ((∀ nd ∈ ([⟨(5, 1), 3, some 1, none, some 2⟩, ⟨(2, 1), 7, none, none, some 0⟩,
          ⟨(8, 1), 1, some 0, none, none⟩] : Heap (Int × Nat)), nd.priority < 1) →
        ∃ (t2 : Treap (Int × Nat)) (j : Nat) (fl : Bool),
          Treap.Insert valOps
            { heap := [⟨(5, 1), 3, some 1, none, some 2⟩, ⟨(2, 1), 7, none, none, some 0⟩,
                       ⟨(8, 1), 1, some 0, none, none⟩], root := some 1 } (6, 1) 1 =
            some (t2, j, fl) ∧
          (fl = true → j = 3 ∧ t2.root = some j)) :=
  ⟨by decide, rotation_only_on_greater_priority valOps [((5, 1), 3), ((2, 1), 7), ((8, 1), 1)]
    { heap := [⟨(5, 1), 3, some 1, none, some 2⟩, ⟨(2, 1), 7, none, none, some 0⟩,
      ⟨(8, 1), 1, some 0, none, none⟩], root := some 1 }
    (by decide) (6, 1) 1⟩

/-- C19: for every `Compare` function whatsoever (and every `Merge`), every sequence of
`Insert` calls from the empty treap returns, a further `Insert` returns too, and the treap
reached has consistent links: the root pointer is nil exactly when there is no node, a node
has no parent exactly when the root pointer points to it, the parent pointer of every other
node leads to a node that holds it in exactly one slot, and every node held in a slot
points back to the owner of the slot and has at most its priority. The BST property can be
lost: with the comparison that always answers "greater", inserting `1` and then `2` gives
a tree that is no search tree for that comparison. -/
theorem structural_safety (V : TreapValue T) (ops : List (T × Nat)) :
    (∃ t, insertAll V (NewTreap T) ops = some t ∧
      (∀ (v : T) (pr : Nat), ∃ res, t.Insert V v pr = some res) ∧
      (t.root = none ↔ t.heap = []) ∧
      (∀ (i : Nat) (nd : TreapNode T), t.heap[i]? = some nd →
        (nd.parent = none ↔ t.root = some i)) ∧
      (∀ (i p : Nat) (nd : TreapNode T), t.heap[i]? = some nd → nd.parent = some p →
        ∃ pn : TreapNode T, t.heap[p]? = some pn ∧
          ((pn.left = some i ∧ pn.right ≠ some i) ∨ (pn.right = some i ∧ pn.left ≠ some i))) ∧
      (∀ (p c : Nat) (pn : TreapNode T), t.heap[p]? = some pn →
        (pn.left = some c ∨ pn.right = some c) →
        ∃ cn : TreapNode T, t.heap[c]? = some cn ∧ cn.parent = some p ∧
          cn.priority ≤ pn.priority)) ∧
    (∃ t tr, insertAll oneOps (NewTreap Int) [(1, 5), (2, 3)] = some t ∧
      t.heap = [⟨1, 5, none, some 1, none⟩, ⟨2, 3, some 0, none, none⟩] ∧
      t.Holds tr ∧ ¬ tr.IsBST oneOps) := by
  constructor
  · obtain ⟨t, e, hh⟩ := reachable_holds V ops
    obtain ⟨h1, h2, h3, h4, -⟩ := links_of_holds hh (isHeap_insertAll V ops .nil trivial)
    refine ⟨t, e, ?_, h1, h2, h3, h4⟩
    intro v pr
    obtain ⟨t2, e2, -⟩ := Insert_spec V hh v pr
    exact ⟨_, e2⟩
  · obtain ⟨t, e, hh⟩ := reachable_holds oneOps [(1, 5), (2, 3)]
    have e2 : insertAll oneOps (NewTreap Int) [(1, 5), (2, 3)] =
        some { heap := [⟨1, 5, none, some 1, none⟩, ⟨2, 3, some 0, none, none⟩],
               root := some 0 } := by decide
    rw [e2] at e
    simp only [Option.some.injEq] at e
    subst e
    refine ⟨_, _, e2, rfl, hh, ?_⟩
    simp [Tree.insertAll, Tree.insert, descend, oneOps, bubble, plug, Frame.fill, Tree.ids,
      Tree.IsBST, Tree.vals]

theorem TotalOrder.ge_iff {V : TreapValue T} (tot : TotalOrder V) (a b : T) :
    V.Compare a b ≥ 0 ↔ V.Compare b a ≤ 0 := by
  have h1 := tot.1 a b
  have h2 := tot.1 b a
  constructor <;> intro h <;> omega

theorem TotalOrder.le_of_equiv_left {V : TreapValue T} (tot : TotalOrder V) {a b c : T}
    (h1 : V.Compare a b = 0) (h2 : V.Compare b c ≤ 0) : V.Compare a c ≤ 0 :=
  tot.2 a b c (by omega) h2

theorem TotalOrder.le_of_equiv_right {V : TreapValue T} (tot : TotalOrder V) {a b c : T}
    (h1 : V.Compare a b ≤ 0) (h2 : V.Compare b c = 0) : V.Compare a c ≤ 0 :=
  tot.2 a b c h1 (by omega)

/-- One `Insert` under the contracts: the node returned holds a value equivalent to the one
inserted, every value stored afterwards is equivalent to it or to a value stored before,
and every value stored before has an equivalent one afterwards. -/
theorem insert_keys {V : TreapValue T} (tot : TotalOrder V) (mk : MergeKeepsKey V)
    {t : Treap T} {tr : Tree T} (hh : t.Holds tr)
    (hs : tr.vals.Pairwise fun a b => V.Compare a b < 0) (v : T) (pr : Nat) :
    ∃ (t2 : Treap T) (n : Nat) (fl : Bool) (tr2 : Tree T),
      t.Insert V v pr = some (t2, n, fl) ∧ t2.Holds tr2 ∧
      (tr2.vals.Pairwise fun a b => V.Compare a b < 0) ∧
      (∃ nd : TreapNode T, t2.heap[n]? = some nd ∧ V.Compare nd.Value v = 0) ∧
      (∀ nd2 ∈ t2.heap, V.Compare nd2.Value v = 0 ∨
        ∃ od ∈ t.heap, V.Compare nd2.Value od.Value = 0) ∧
      (∀ od ∈ t.heap, ∃ nd2 ∈ t2.heap, V.Compare nd2.Value od.Value = 0) := by
  obtain ⟨t2, e2, hh2⟩ := Insert_spec V hh v pr
  have hs2 := sorted_insert tot mk tr v pr t.heap.length hs
  have old_of : ∀ (i : Nat) (w : T), (i, w) ∈ tr.entries → ∃ od ∈ t.heap, od.Value = w :=
    fun i w hm => (Holds_values hh w).2 (entries_mem_vals hm)
  have new_of : ∀ (i : Nat) (w : T), (i, w) ∈ (Tree.insert V tr v pr t.heap.length).entries →
      ∃ nd2 ∈ t2.heap, nd2.Value = w :=
    fun i w hm => (Holds_values hh2 w).2 (entries_mem_vals hm)
  rcases insert_step tot hs hh.2.2.1 v pr t.heap.length with
    ⟨hres, -, hent⟩ | ⟨j, v2, hres, hj, h0, hent⟩
  · rw [hres] at e2
    obtain ⟨nd, hg, hv⟩ := Repr_entries hh2.2.1 t.heap.length v ((hent _).2 (Or.inl rfl))
    refine ⟨t2, _, _, _, e2, hh2, hs2, ⟨nd, hg, by rw [hv]; exact tot.refl v⟩, ?_, ?_⟩
    · intro nd2 hm
      obtain ⟨i, hi⟩ := mem_vals_iff.1 ((Holds_values hh2 nd2.Value).1 ⟨nd2, hm, rfl⟩)
      rcases (hent _).1 hi with he | he
      · simp only [Prod.mk.injEq] at he
        left; rw [he.2]; exact tot.refl v
      · obtain ⟨od, hom, hov⟩ := old_of i _ he
        right; exact ⟨od, hom, by rw [hov]; exact tot.refl _⟩
    · intro od hom
      obtain ⟨i, hi⟩ := mem_vals_iff.1 ((Holds_values hh od.Value).1 ⟨od, hom, rfl⟩)
      obtain ⟨nd2, hm, hv2⟩ := new_of i _ ((hent _).2 (Or.inr hi))
      exact ⟨nd2, hm, by rw [hv2]; exact tot.refl _⟩
  · rw [hres] at e2
    obtain ⟨nd, hg, hv⟩ := Repr_entries hh2.2.1 j (V.Merge v2 v) ((hent _).2 (Or.inl rfl))
    have hmv : V.Compare (V.Merge v2 v) v = 0 := tot.equiv_trans (mk v2 v h0) h0
    refine ⟨t2, _, _, _, e2, hh2, hs2, ⟨nd, hg, by rw [hv]; exact hmv⟩, ?_, ?_⟩
    · intro nd2 hm
      obtain ⟨i, hi⟩ := mem_vals_iff.1 ((Holds_values hh2 nd2.Value).1 ⟨nd2, hm, rfl⟩)
      rcases (hent _).1 hi with he | ⟨he, -⟩
      · simp only [Prod.mk.injEq] at he
        left; rw [he.2]; exact hmv
      · obtain ⟨od, hom, hov⟩ := old_of i _ he
        right; exact ⟨od, hom, by rw [hov]; exact tot.refl _⟩
    · intro od hom
      obtain ⟨i, hi⟩ := mem_vals_iff.1 ((Holds_values hh od.Value).1 ⟨od, hom, rfl⟩)
      by_cases hij : i = j
      · subst hij
        have hov : od.Value = v2 := entries_id_unique hh.2.2.1 hi hj
        obtain ⟨nd2, hm, hv2⟩ := new_of i _ ((hent _).2 (Or.inl rfl))
        exact ⟨nd2, hm, by rw [hv2, hov]; exact mk v2 v h0⟩
      · obtain ⟨nd2, hm, hv2⟩ := new_of i _ ((hent _).2 (Or.inr ⟨hi, hij⟩))
        exact ⟨nd2, hm, by rw [hv2]; exact tot.refl _⟩

/-- C20 (amended): when `Compare` is a total order up to equivalence and `Merge` leaves the
receiver in its equivalence class, on every treap built by `Insert` calls and for every
value `v`, `Insert(v)` returns a node `n` and immediately afterwards `Neighbors(v)` returns
`(n, n)`, so `GreatestLTE(v)` and `LeastGTE(v)` are both `n`. For every probe `w`,
`GreatestLTE(w)` after the insert is nil exactly when neither `v` nor a value stored before
is at most `w`, and otherwise it is a node whose value is at most `w`, is equivalent to `v`
or to a value stored before, and is at least `v` (if `v` is at most `w`) and every value
stored before that is at most `w`; `LeastGTE(w)` mirrors this. -/
theorem insert_then_lookup (V : TreapValue T) (tot : TotalOrder V) (mk : MergeKeepsKey V)
    (ops : List (T × Nat)) (v : T) (pr : Nat) :
    ∃ (t t2 : Treap T) (n : Nat) (fl : Bool), insertAll V (NewTreap T) ops = some t ∧
      t.Insert V v pr = some (t2, n, fl) ∧
      t2.Neighbors V v = some (some n, some n) ∧
      t2.GreatestLTE V v = some (some n) ∧ t2.LeastGTE V v = some (some n) ∧
      ∀ w : T, ∃ f c, t2.GreatestLTE V w = some f ∧ t2.LeastGTE V w = some c ∧
        (f = none ↔ ¬ V.Compare v w ≤ 0 ∧ ∀ od ∈ t.heap, ¬ V.Compare od.Value w ≤ 0) ∧
        (∀ i, f = some i → ∃ nd : TreapNode T, t2.heap[i]? = some nd ∧
          V.Compare nd.Value w ≤ 0 ∧
          (V.Compare nd.Value v = 0 ∨ ∃ od ∈ t.heap, V.Compare nd.Value od.Value = 0) ∧
          (V.Compare v w ≤ 0 → V.Compare v nd.Value ≤ 0) ∧
          ∀ od ∈ t.heap, V.Compare od.Value w ≤ 0 → V.Compare od.Value nd.Value ≤ 0) ∧
        (c = none ↔ ¬ V.Compare v w ≥ 0 ∧ ∀ od ∈ t.heap, ¬ V.Compare od.Value w ≥ 0) ∧
        (∀ i, c = some i → ∃ nd : TreapNode T, t2.heap[i]? = some nd ∧
          V.Compare nd.Value w ≥ 0 ∧
          (V.Compare nd.Value v = 0 ∨ ∃ od ∈ t.heap, V.Compare nd.Value od.Value = 0) ∧
          (V.Compare v w ≥ 0 → V.Compare nd.Value v ≤ 0) ∧
          ∀ od ∈ t.heap, V.Compare od.Value w ≥ 0 → V.Compare nd.Value od.Value ≤ 0) := by
  obtain ⟨t, tr, e, hh, hs⟩ := reachable_sorted tot mk ops
  obtain ⟨t2, n, fl, tr2, e2, hh2, hs2, ⟨ndn, hgn, hvn⟩, hA, hB⟩ := insert_keys tot mk hh hs v pr
  have hN := Neighbors_exact tot hh2 hs2 v hgn hvn
  refine ⟨t, t2, n, fl, e, e2, hN, by simp [Treap.GreatestLTE, hN], by simp [Treap.LeastGTE, hN],
    ?_⟩
  intro w
  obtain ⟨f, c, eN, f1, f2, c1, c2⟩ := floor_cells tot hh2 hs2 w
  have hvv : ∃ nd2 ∈ t2.heap, V.Compare nd2.Value v = 0 := ⟨ndn, List.getElem?_mem hgn, hvn⟩
  refine ⟨f, c, by simp [Treap.GreatestLTE, eN], by simp [Treap.LeastGTE, eN], ?_, ?_, ?_, ?_⟩
  · rw [f1]
    constructor
    · intro hall
      refine ⟨?_, ?_⟩
      · obtain ⟨nd2, hm, h0⟩ := hvv
        intro hle
        exact hall nd2 hm (tot.le_of_equiv_left h0 hle)
      · intro od hom hle
        obtain ⟨nd2, hm, h0⟩ := hB od hom
        exact hall nd2 hm (tot.le_of_equiv_left h0 hle)
    · rintro ⟨hv, hold⟩ nd2 hm hle
      rcases hA nd2 hm with h0 | ⟨od, hom, h0⟩
      · exact hv (tot.le_of_equiv_left (tot.eq_symm h0) hle)
      · exact hold od hom (tot.le_of_equiv_left (tot.eq_symm h0) hle)
  · intro i hi
    obtain ⟨nd, hg, hle, hmax⟩ := f2 i hi
    refine ⟨nd, hg, hle, hA nd (List.getElem?_mem hg), ?_, ?_⟩
    · intro hvw
      obtain ⟨nd2, hm, h0⟩ := hvv
      exact tot.le_of_equiv_left (tot.eq_symm h0)
        (hmax nd2 hm (tot.le_of_equiv_left h0 hvw))
    · intro od hom hle2
      obtain ⟨nd2, hm, h0⟩ := hB od hom
      exact tot.le_of_equiv_left (tot.eq_symm h0)
        (hmax nd2 hm (tot.le_of_equiv_left h0 hle2))
  · rw [c1]
    constructor
    · intro hall
      refine ⟨?_, ?_⟩
      · obtain ⟨nd2, hm, h0⟩ := hvv
        intro hge
        refine hall nd2 hm ?_
        rw [tot.ge_iff] at hge ⊢
        exact tot.le_of_equiv_right hge (tot.eq_symm h0)
      · intro od hom hge
        obtain ⟨nd2, hm, h0⟩ := hB od hom
        refine hall nd2 hm ?_
        rw [tot.ge_iff] at hge ⊢
        exact tot.le_of_equiv_right hge (tot.eq_symm h0)
    · rintro ⟨hv, hold⟩ nd2 hm hge
      rcases hA nd2 hm with h0 | ⟨od, hom, h0⟩
      · refine hv ?_
        rw [tot.ge_iff] at hge ⊢
        exact tot.le_of_equiv_right hge h0
      · refine hold od hom ?_
        rw [tot.ge_iff] at hge ⊢
        exact tot.le_of_equiv_right hge h0
  · intro i hi
    obtain ⟨nd, hg, hge, hmin⟩ := c2 i hi
    refine ⟨nd, hg, hge, hA nd (List.getElem?_mem hg), ?_, ?_⟩
    · intro hvw
      obtain ⟨nd2, hm, h0⟩ := hvv
      refine tot.le_of_equiv_right (hmin nd2 hm ?_) h0
      rw [tot.ge_iff] at hvw ⊢
      exact tot.le_of_equiv_right hvw (tot.eq_symm h0)
    · intro od hom hge2
      obtain ⟨nd2, hm, h0⟩ := hB od hom
      refine tot.le_of_equiv_right (hmin nd2 hm ?_) h0
      rw [tot.ge_iff] at hge2 ⊢
      exact tot.le_of_equiv_right hge2 (tot.eq_symm h0)

theorem insert_then_lookup_witness :
    ∃ (t t2 : Treap (Int × Nat)) (n : Nat) (fl : Bool),
      insertAll valOps (NewTreap (Int × Nat))
        [((5, 1), 3), ((2, 1), 7), ((8, 1), 1), ((2, 1), 9), ((1, 1), 8)] = some t ∧
      t.Insert valOps (6, 1) 4 = some (t2, n, fl) ∧
      t2.Neighbors valOps (6, 1) = some (some n, some n) ∧
      t2.GreatestLTE valOps (6, 1) = some (some n) ∧
      t2.LeastGTE valOps (6, 1) = some (some n) ∧
      ∀ w : Int × Nat, ∃ f c, t2.GreatestLTE valOps w = some f ∧ t2.LeastGTE valOps w = some c ∧
        (f = none ↔ ¬ valOps.Compare (6, 1) w ≤ 0 ∧
          ∀ od ∈ t.heap, ¬ valOps.Compare od.Value w ≤ 0) ∧
        (∀ i, f = some i → ∃ nd : TreapNode (Int × Nat), t2.heap[i]? = some nd ∧
          valOps.Compare nd.Value w ≤ 0 ∧
          (valOps.Compare nd.Value (6, 1) = 0 ∨
            ∃ od ∈ t.heap, valOps.Compare nd.Value od.Value = 0) ∧
          (valOps.Compare (6, 1) w ≤ 0 → valOps.Compare (6, 1) nd.Value ≤ 0) ∧
          ∀ od ∈ t.heap, valOps.Compare od.Value w ≤ 0 →
            valOps.Compare od.Value nd.Value ≤ 0) ∧
        (c = none ↔ ¬ valOps.Compare (6, 1) w ≥ 0 ∧
          ∀ od ∈ t.heap, ¬ valOps.Compare od.Value w ≥ 0) ∧
        (∀ i, c = some i → ∃ nd : TreapNode (Int × Nat), t2.heap[i]? = some nd ∧
          valOps.Compare nd.Value w ≥ 0 ∧
          (valOps.Compare nd.Value (6, 1) = 0 ∨
            ∃ od ∈ t.heap, valOps.Compare nd.Value od.Value = 0) ∧
          (valOps.Compare (6, 1) w ≥ 0 → valOps.Compare nd.Value (6, 1) ≤ 0) ∧
          ∀ od ∈ t.heap, valOps.Compare od.Value w ≥ 0 →
            valOps.Compare nd.Value od.Value ≤ 0) :=
  insert_then_lookup valOps valOps_total valOps_merge _ (6, 1) 4

/-- C20 as stated fails: with the integer order and a `Merge` that adds `2`, on the treap
holding `1` the call `Insert(1)` returns node `0`, whose value has become `3`; immediately
afterwards `Neighbors(1)` finds no floor and returns `(nil, 0)`. -/
theorem insert_then_lookup_fails_without_merge_contract :
    TotalOrder shiftOps ∧
      ∃ t t2, insertAll shiftOps (NewTreap Int) [(1, 5)] = some t ∧
        t.Insert shiftOps 1 0 = some (t2, 0, false) ∧
        t2.Neighbors shiftOps 1 = some (none, some 0) ∧
        t2.GreatestLTE shiftOps 1 = some none :=
  ⟨shiftOps_total, { heap := [⟨1, 5, none, none, none⟩], root := some 0 },
    { heap := [⟨3, 5, none, none, none⟩], root := some 0 },
    by decide, by decide, by decide, by decide⟩

end GoTreap
